import Mathlib

/-!
# Verification of the ER-diagram layout engine

A shallow embedding of the layout core of the `sql_to_ER` repository:
the deterministic utilities (`js/layout/utils.js`), initial component
placement (`js/layout/initialLayout.js`), component spread (the
Component Spread module), the radial "arrange" layout
(`js/layout/arrangeLayout.js`) and the chain-based "force-align" layout
(`js/layout/forceAlignLayout.js`).

Modelling conventions:
* JavaScript numbers are idealised as `ℚ`.  The transcendental library
  functions the code calls (`Math.sin`, `Math.cos`, `Math.sqrt`,
  `Math.atan2`, `Math.hypot`) are not computable on `ℚ`, so they are
  passed in as an explicit record `JsMath` of total functions; every
  theorem quantifies over this record (adding a hypothesis such as
  `cos² + sin² = 1` only where a claim genuinely needs it).  `Math.PI`
  is the exact rational value of the IEEE-754 double `Math.PI`.
* JavaScript `Map` and `Set` preserve insertion order, which the code
  relies on; they are embedded as association lists (`JMap`, `JSet`)
  with JS semantics: `set` of an existing key updates in place, `set`
  of a fresh key appends, iteration is list order.
* `Array.prototype.sort` is stable; it is embedded as an insertion
  sort (`jsSort`), and `localeCompare` / `<` on id strings as
  code-unit lexicographic comparison on `String.data`.
* `while` loops whose termination is a fact to be proved (the BFS
  loops and the entity placement queue) are embedded with explicit
  fuel; the theorems show the fuel chosen never runs out.
* G6 node bounding boxes are centred on the model position, so
  `getBBox()` is derived from the node's position and its stored
  width/height.
-/

/-! ## JS primitives -/

/-- Code-unit lexicographic order on character lists (the effect of
`a < b` and `a.localeCompare(b)` on the ASCII ids this code sorts). -/
def lexLt : List Char → List Char → Bool
  | [], [] => false
  | [], _ :: _ => true
  | _ :: _, [] => false
  | a :: as, b :: bs =>
    if a.val < b.val then true
    else if b.val < a.val then false
    else lexLt as bs

/-- String comparison used by the id sorts. -/
def strLtB (a b : String) : Bool := lexLt a.data b.data

/-- Stable insertion into a sorted list: the new element goes before
the first element it is `le`-related to.  Together with `jsSort` this
models the stable `Array.prototype.sort`. -/
def insertLe {α : Type} (le : α → α → Bool) (a : α) : List α → List α
  | [] => [a]
  | b :: l => if le a b then a :: b :: l else b :: insertLe le a l

/-- Stable sort (insertion sort), modelling `Array.prototype.sort`
with a comparator whose "a before b" test is `le a b`. -/
def jsSort {α : Type} (le : α → α → Bool) : List α → List α
  | [] => []
  | a :: l => insertLe le a (jsSort le l)

/-- Sort a list of id strings ascending (`localeCompare` comparator). -/
def sortIds (l : List String) : List String :=
  jsSort (fun a b => !strLtB b a) l

/-- `ToInt32` (the coercion applied by JavaScript `<<` and `&`). -/
def toInt32 (n : Int) : Int := (n + 2 ^ 31) % 2 ^ 32 - 2 ^ 31

/-- The exact rational value of the IEEE-754 double `Math.PI`. -/
def jsPI : ℚ := 884279719003555 / 281474976710656

/-- Truncation toward zero, as JavaScript's implicit `%` truncation. -/
def jsTrunc (q : ℚ) : Int := if 0 ≤ q then ⌊q⌋ else ⌈q⌉

/-- JavaScript's `%` on numbers: remainder with the dividend's sign. -/
def jsMod (a b : ℚ) : ℚ := a - b * (jsTrunc (a / b) : ℚ)

/-- JavaScript `x || y` on numbers (`0` is the only falsy `ℚ`). -/
def jsOrQ (a b : ℚ) : ℚ := if a = 0 then b else a

/-- JavaScript `x || y` on signed integers used for side hints. -/
def jsOrI (a b : Int) : Int := if a = 0 then b else a

/-- `Math.sign`, restricted to the sign of a rational. -/
def jsSign (q : ℚ) : Int := if 0 < q then 1 else if q < 0 then -1 else 0

/-- `Math.max` over a spread list (the code only spreads non-empty
lists; the empty case is unreachable and mapped to `0`). -/
def listMax : List ℚ → ℚ
  | [] => 0
  | a :: l => l.foldl max a

/-- `Math.min` over values folded from a list (same convention). -/
def listMin : List ℚ → ℚ
  | [] => 0
  | a :: l => l.foldl min a

/-- The record of `Math` library functions the layout code calls.
They are opaque parameters of the embedding: every layout definition
is a function of this record, so the embedding is a pure function of
`(graph, seed, container bounds, T)`. -/
structure JsMath where
  sin : ℚ → ℚ
  cos : ℚ → ℚ
  sqrt : ℚ → ℚ
  atan2 : ℚ → ℚ → ℚ
  hypot : ℚ → ℚ → ℚ

/-! ## Deterministic utilities (`js/layout/utils.js`) -/

/-- One step of the rolling hash:
`hash = ((hash << 5) - hash) + char; hash = hash & hash`. -/
def hashStep (h : Int) (c : Nat) : Int :=
  toInt32 (toInt32 (toInt32 h * 32) - h + c)

/-- `deterministicHash(str, extraSeed)`: polynomial rolling hash with
32-bit folding and a final absolute value. -/
def deterministicHash (s : String) (extraSeed : Int := 0) : Nat :=
  (s.data.foldl (fun h c => hashStep h c.val.toNat) extraSeed).natAbs

/-- `deterministicRandom(seed, extraSeed)`: sine-based fractional
extraction, yielding a value in `[-0.5, 0.5)`. -/
def deterministicRandom (T : JsMath) (seed : ℚ) (extraSeed : ℚ := 0) : ℚ :=
  let x := T.sin (seed + extraSeed * 1000) * 10000
  (x - (⌊x⌋ : ℚ)) - 1 / 2

/-- `normalizeAngle(a)`: reduce an angle into `[0, 2π)` (with the JS
`%` semantics followed by a conditional correction). -/
def normalizeAngle (a : ℚ) : ℚ :=
  let ang := jsMod a (jsPI * 2)
  if ang < 0 then ang + jsPI * 2 else ang

/-! ## Insertion-ordered maps and sets (JS `Map` / `Set`) -/

/-- A JS `Map` with `String` keys: an association list in insertion
order.  `set` of an existing key overwrites in place. -/
abbrev JMap (β : Type) : Type := List (String × β)

namespace JMap

def empty {β : Type} : JMap β := []

def get {β : Type} (m : JMap β) (k : String) : Option β :=
  (List.find? (fun p => p.1 == k) m).map (fun p => p.2)

def getD {β : Type} (m : JMap β) (k : String) (d : β) : β :=
  (m.get k).getD d

def contains {β : Type} (m : JMap β) (k : String) : Bool :=
  m.any (fun p => p.1 == k)

def set {β : Type} (m : JMap β) (k : String) (v : β) : JMap β :=
  if m.contains k then
    m.map (fun p => if p.1 == k then (k, v) else p)
  else
    m ++ [(k, v)]

def keys {β : Type} (m : JMap β) : List String := m.map (fun p => p.1)

def size {β : Type} (m : JMap β) : Nat := m.length

end JMap

/-- A JS `Set` of strings: a duplicate-free list in insertion order. -/
abbrev JSet : Type := List String

namespace JSet

def empty : JSet := []

def addJ (s : JSet) (k : String) : JSet :=
  if k ∈ s then s else s ++ [k]

def hasJ (s : JSet) (k : String) : Bool := decide (k ∈ s)

end JSet

/-! ### Map/set lemmas -/

theorem JMap.contains_iff_get {β : Type} (m : JMap β) (k : String) :
    m.contains k = true ↔ (m.get k).isSome = true := by
  unfold JMap.contains JMap.get
  rw [List.any_eq_true]
  constructor
  · rintro ⟨p, hp, hk⟩
    have : (List.find? (fun p => p.1 == k) m).isSome = true :=
      List.find?_isSome.mpr ⟨p, hp, hk⟩
    simpa using this
  · intro h
    have : (List.find? (fun p => p.1 == k) m).isSome = true := by
      simpa using h
    rcases List.find?_isSome.mp this with ⟨p, hp, hk⟩
    exact ⟨p, hp, hk⟩

theorem JMap.find?_replace_self {β : Type} (m : JMap β) (k : String) (v : β)
    (hc : m.contains k = true) :
    List.find? (fun p => p.1 == k) (m.map (fun p => if p.1 == k then (k, v) else p))
      = some (k, v) := by
  unfold JMap.contains at hc
  induction m with
  | nil => simp at hc
  | cons a t ih =>
    simp only [List.map_cons, List.find?_cons]
    by_cases ha : (a.1 == k) = true
    · simp [ha]
    · have hne : ((if a.1 == k then (k, v) else a).1 == k) = false := by
        simp only [ha, if_false]
        exact Bool.not_eq_true _ ▸ (Bool.eq_false_iff.mpr ha)
      rw [hne]
      simp only [List.any_cons, ha, Bool.false_or] at hc
      exact ih hc

theorem JMap.find?_replace_ne {β : Type} (m : JMap β) (k k' : String) (v : β)
    (h : k' ≠ k) :
    List.find? (fun p => p.1 == k') (m.map (fun p => if p.1 == k then (k, v) else p))
      = List.find? (fun p => p.1 == k') m := by
  have hkv : ((k, v).1 == k') = false := by
    simp only [beq_eq_false_iff_ne]
    exact fun hh => h hh.symm
  induction m with
  | nil => simp
  | cons a t ih =>
    simp only [List.map_cons]
    by_cases ha : (a.1 == k) = true
    · have h2 : (a.1 == k') = false := by
        simp only [beq_eq_false_iff_ne]
        intro hh
        exact h (by rw [← hh]; exact beq_iff_eq.mp ha)
      simp only [List.find?_cons, ha, if_true, hkv, h2]
      exact ih
    · rw [if_neg ha]
      by_cases hk' : (a.1 == k') = true
      · simp only [List.find?_cons, hk']
      · simp only [List.find?_cons, Bool.eq_false_iff.mpr hk']
        exact ih

theorem JMap.get_set_self {β : Type} (m : JMap β) (k : String) (v : β) :
    (m.set k v).get k = some v := by
  unfold JMap.set
  split
  · next hc =>
    unfold JMap.get
    rw [JMap.find?_replace_self m k v hc]
    rfl
  · next hc =>
    unfold JMap.get
    rw [List.find?_append]
    have hnone : List.find? (fun p => p.1 == k) m = none := by
      rw [List.find?_eq_none]
      intro p hp
      by_contra hk
      exact hc ((JMap.contains_iff_get m k).mpr (by
        have : (List.find? (fun p => p.1 == k) m).isSome = true :=
          List.find?_isSome.mpr ⟨p, hp, by simpa using hk⟩
        simpa [JMap.get] using this))
    rw [hnone]
    simp

theorem JMap.get_set_ne {β : Type} (m : JMap β) (k k' : String) (v : β)
    (h : k' ≠ k) : (m.set k v).get k' = m.get k' := by
  have hkv : ((k, v).1 == k') = false := by
    simp only [beq_eq_false_iff_ne]
    exact fun hh => h hh.symm
  unfold JMap.set
  split
  · unfold JMap.get
    rw [JMap.find?_replace_ne m k k' v h]
  · unfold JMap.get
    rw [List.find?_append]
    cases hg : List.find? (fun p => p.1 == k') m with
    | some p => simp [hg]
    | none =>
      simp [hg, List.find?_cons, hkv]

theorem JMap.get_set {β : Type} (m : JMap β) (k k' : String) (v : β) :
    (m.set k v).get k' = if k' = k then some v else m.get k' := by
  split
  · next h => subst h; exact JMap.get_set_self m k' v
  · next h => exact JMap.get_set_ne m k k' v h

theorem JMap.contains_set_self {β : Type} (m : JMap β) (k : String) (v : β) :
    (m.set k v).contains k = true := by
  rw [JMap.contains_iff_get, JMap.get_set_self]; rfl

theorem JMap.contains_set_mono {β : Type} (m : JMap β) (k k' : String) (v : β)
    (h : m.contains k' = true) : (m.set k v).contains k' = true := by
  by_cases hk : k' = k
  · subst hk; exact JMap.contains_set_self m k' v
  · rw [JMap.contains_iff_get, JMap.get_set_ne m k k' v hk]
    exact (JMap.contains_iff_get m k').mp h

/-! ## Graph snapshot model -/

/-- A node of the graph snapshot: id, kind (`"entity"`, `"attribute"`,
`"relationship"`), current model position, rendered bounding-box width
and height (G6 boxes are centred on the position), and the owning
entity for attributes. -/
structure Node where
  id : String
  nodeType : String
  x : ℚ
  y : ℚ
  bw : ℚ
  bh : ℚ
  parentEntity : Option String := none
deriving DecidableEq, Repr

/-- An edge of the snapshot (only endpoints matter to the layouts). -/
structure Edge where
  source : String
  target : String
deriving DecidableEq, Repr

/-- The immutable snapshot a layout call receives. -/
structure Graph where
  nodes : List Node
  edges : List Edge
  width : ℚ
  height : ℚ
deriving DecidableEq, Repr

/-- A 2-D target position. -/
structure Point where
  x : ℚ
  y : ℚ
deriving DecidableEq, Repr

/-- `graph.findById` / `nodes.find`: first node with the given id. -/
def Graph.findNode (g : Graph) (id : String) : Option Node :=
  g.nodes.find? (fun n => n.id == id)

/-- The `nodeMap` JS `Map` built by arrange/force-align (on duplicate
ids, `Map.set` keeps the last node). -/
def nodeMapOf (g : Graph) : JMap Node :=
  g.nodes.foldl (fun m n => m.set n.id n) JMap.empty

/-- `getRadius`: half of the bounding-box diagonal. -/
def getRadiusT (T : JsMath) (n : Node) : ℚ :=
  T.sqrt (n.bw * n.bw + n.bh * n.bh) / 2

/-! ## Connected-component decomposition

All five decomposition loops in the source (initial placement,
component spread, the force-align core partition, force-align branch
components and per-entity relationship sub-components) are textually
the same stack-based walk; `dfsWalk` is its translation, and each site
instantiates it with that site's start order, neighbour function,
block set and fuel.  JS `pop`/`push` operate on the array end, so the
stack is a list with its head as the top. -/

/-- One stack component walk: pop `cur`, append it to the component,
push its not-yet-visited, not-blocked neighbours (marking them visited
at push time).  `fuel` bounds the number of pops; every use passes
fuel that the theorems (or concrete evaluation) show sufficient. -/
def dfsWalk (neigh : String → List String) (blocked : String → Bool) :
    Nat → List String → JSet → List String → (List String × JSet)
  | 0, _, visited, acc => (acc, visited)
  | _ + 1, [], visited, acc => (acc, visited)
  | fuel + 1, cur :: stack, visited, acc =>
    let step := (neigh cur).foldl
      (fun (sv : List String × JSet) nb =>
        if nb ∈ sv.2 ∨ blocked nb = true then sv else (nb :: sv.1, sv.2 ++ [nb]))
      (stack, visited)
    dfsWalk neigh blocked fuel step.1 step.2 (acc ++ [cur])

/-- The outer loop over start candidates: skip the visited ones, run a
walk for each remaining start and collect the components in order. -/
def dfsAll (neigh : String → List String) (fuel : Nat) (order : List String) :
    List (List String) × JSet :=
  order.foldl
    (fun (st : List (List String) × JSet) v =>
      if v ∈ st.2 then st
      else
        let res := dfsWalk neigh (fun _ => false) fuel [v] (st.2 ++ [v]) []
        (st.1 ++ [res.1], res.2))
    ([], [])

/-- Undirected adjacency over all edges, as built by initial placement
and component spread (`adj` maps each endpoint to the `Set` of its
neighbours, in edge order). -/
def allEdgeAdj (edges : List Edge) : JMap JSet :=
  edges.foldl
    (fun adj e =>
      let adj1 := if adj.contains e.source then adj else adj.set e.source []
      let adj2 := if adj1.contains e.target then adj1 else adj1.set e.target []
      let adj3 := adj2.set e.source ((adj2.getD e.source []).addJ e.target)
      adj3.set e.target ((adj3.getD e.target []).addJ e.source))
    JMap.empty

/-- Fuel that every walk in this development runs with: one pop per
node plus one per directed edge endpoint can never be exhausted. -/
def dfsFuel (g : Graph) : Nat := g.nodes.length + 2 * g.edges.length + 1

/-- The component decomposition of `spreadDisconnectedComponents`:
starts are the nodes sorted by id (`localeCompare`), neighbours are
visited in sorted order, and each component collects the nodes found
by `graph.findById` (skipping dangling edge endpoints); empty
components are dropped. -/
def spreadComponents (g : Graph) : List (List Node) :=
  let adj := allEdgeAdj g.edges
  let neigh := fun v => sortIds (adj.getD v [])
  let order := (jsSort (fun a b => !strLtB b.id a.id) g.nodes).map (fun n => n.id)
  (((dfsAll neigh (dfsFuel g) order).1).map
    (fun comp => comp.filterMap (fun cid => g.findNode cid))).filter
    (fun comp => !comp.isEmpty)

/-- The component decomposition of `applyInitialComponentPositions`:
identical traversal (sorted starts, sorted neighbours), collecting the
nodes found by `nodes.find`. -/
def initComponents (nodes : List Node) (edges : List Edge) : List (List Node) :=
  let adj := allEdgeAdj edges
  let neigh := fun v => sortIds (adj.getD v [])
  let order := (jsSort (fun a b => !strLtB b.id a.id) nodes).map (fun n => n.id)
  let fuel := nodes.length + 2 * edges.length + 1
  (((dfsAll neigh fuel order).1).map
    (fun comp => comp.filterMap (fun cid => (nodes.find? (fun n => n.id == cid))))).filter
    (fun comp => !comp.isEmpty)

/-- The sorted-traversal component decomposition as the specification
words it (§4.2): "Build undirected adjacency; traverse via depth-first
stack starting from lexicographically sorted unvisited ids, visiting
neighbors in sorted order.  Output: ordered partition of node ids into
components."  This definition follows the spec's words and is the
comparison point for the refinement claim about the three call sites. -/
def specSortedComponents (ids : List String) (edges : List Edge) : List (List String) :=
  let adj := allEdgeAdj edges
  let neigh := fun v => sortIds (adj.getD v [])
  let fuel := ids.length + 2 * edges.length + 1
  (((dfsAll neigh fuel (sortIds ids)).1).map
    (fun comp => comp.filter (fun cid => cid ∈ ids))).filter
    (fun comp => !comp.isEmpty)

/-! ## Initial component placement (`js/layout/initialLayout.js`) -/

/-- The kind-based size heuristic (`sizeMap[node.nodeType] || 90`)
scaled to an approximate radius. -/
def approxRadius (T : JsMath) (n : Node) : ℚ :=
  let size : ℚ :=
    if n.nodeType = "entity" then 140
    else if n.nodeType = "relationship" then 90
    else if n.nodeType = "attribute" then 90
    else 90
  T.sqrt (size * size * 2) / 2 + 20

/-- `applyInitialComponentPositions(nodes, edges, containerEl, seed)`:
place the components of a disconnected graph evenly around the
container centre with seeded per-node jitter.  Returns `none` exactly
when the source returns without touching any position (no container
handled by the caller, fewer than 2 nodes, fewer than 2 components);
otherwise the map of every repositioned node. -/
def applyInitialComponentPositions (T : JsMath) (nodes : List Node)
    (edges : List Edge) (containerW containerH : ℚ) (seed : Int := 0) :
    Option (JMap Point) :=
  if nodes.isEmpty then none
  else if nodes.length < 2 then none
  else
    let width := jsOrQ containerW 1200
    let height := jsOrQ containerH 800
    let cX := width / 2
    let cY := height / 2
    let components := initComponents nodes edges
    if components.length < 2 then none
    else
      let compMeta := components.map (fun list =>
        let r := list.foldl (fun mx n => max mx (approxRadius T n)) 30
        let extra := max 0 ((list.length : ℚ) - 6) * 6
        (list, r + extra))
      let perim := compMeta.foldl (fun s c => s + c.2 * 2) 0
      let gap : ℚ := 100
      let orbit :=
        min (max 240 ((perim + gap * compMeta.length) / (2 * jsPI))) 520
      let angleStep := (jsPI * 2) / compMeta.length
      some (compMeta.foldl
        (fun (st : JMap Point × ℚ) meta =>
          let cx := cX + orbit * T.cos st.2
          let cy := cY + orbit * T.sin st.2
          let m := meta.1.foldl (fun m n =>
            let hash : ℚ := (deterministicHash n.id seed : ℚ)
            let offX := deterministicRandom T hash seed * max 40 (meta.2 * (2/5))
            let offY := deterministicRandom T (hash + 1000) seed * max 40 (meta.2 * (2/5))
            m.set n.id (Point.mk (cx + offX) (cy + offY))) st.1
          (m, st.2 + angleStep))
        (JMap.empty, -(jsPI / 2))).1

/-! ## Component spread (Component Spread module) -/

/-- Per-component bounding data computed by
`spreadDisconnectedComponents`: member nodes, bounding-circle radius
and centroid of the member box centres. -/
structure CompMeta where
  comp : List Node
  radius : ℚ
  cx : ℚ
  cy : ℚ
deriving DecidableEq, Repr

/-- Bounding box, bounding-circle radius and centroid of a component
(`compMeta` in the source). -/
def spreadCompMeta (T : JsMath) (comp : List Node) : CompMeta :=
  let minX := listMin (comp.map (fun n => n.x - n.bw / 2))
  let maxX := listMax (comp.map (fun n => n.x + n.bw / 2))
  let minY := listMin (comp.map (fun n => n.y - n.bh / 2))
  let maxY := listMax (comp.map (fun n => n.y + n.bh / 2))
  let w := max 40 (maxX - minX)
  let h := max 40 (maxY - minY)
  let radius := T.sqrt (w * w + h * h) / 2 + 40
  { comp := comp
    radius := radius
    cx := (comp.map (fun n => n.x)).sum / comp.length
    cy := (comp.map (fun n => n.y)).sum / comp.length }

/-- The orbit radius of component spread:
`min(max(totalSpan/2π, maxComponentRadius+gap+40, 240), 520)`. -/
def spreadOrbitRadius (metas : List CompMeta) (gap totalSpan : ℚ) : ℚ :=
  min (max (totalSpan / (2 * jsPI))
    (max (listMax (metas.map CompMeta.radius) + gap + 40) 240)) 520

/-- The rigid per-member target of one component placement: the
member's offset from the old centroid, rotated by `rotateAngle` and
translated to the component's target centre. -/
def rigidTarget (cosA sinA tcx tcy mcx mcy : ℚ) (n : Node) : Point :=
  let relX := n.x - mcx
  let relY := n.y - mcy
  Point.mk (tcx + (relX * cosA - relY * sinA)) (tcy + (relX * sinA + relY * cosA))

/-- Placement of one component of the spread: compute the arc, the
target centre on the orbit and the rotation angle, and set every
member to its rigid target; the second state component is the angle
cursor. -/
def spreadPlaceComp (T : JsMath) (dcX dcY orbitR gap totalSpan : ℚ)
    (st : JMap Point × ℚ) (meta : CompMeta) : JMap Point × ℚ :=
  let angleSpan := ((meta.radius * 2 + gap) / totalSpan) * jsPI * 2
  let midAngle := st.2 + angleSpan / 2
  let tcx := dcX + orbitR * T.cos midAngle
  let tcy := dcY + orbitR * T.sin midAngle
  let rotateAngle := midAngle + jsPI / 2
  let m := meta.comp.foldl
    (fun m n =>
      m.set n.id (rigidTarget (T.cos rotateAngle) (T.sin rotateAngle)
        tcx tcy meta.cx meta.cy n)) st.1
  (m, st.2 + angleSpan)

/-- The target map computed by component spread once past its early
returns: diagram centre, per-component metadata, total span, orbit
radius, then one rigid placement per component. -/
def spreadTargets (T : JsMath) (g : Graph) : JMap Point :=
  let dcX := g.width / 2
  let dcY := g.height / 2
  let compMeta := (spreadComponents g).map (fun comp => spreadCompMeta T comp)
  let gap : ℚ := 50
  let totalSpan := compMeta.foldl (fun s c => s + (c.radius * 2 + gap)) 0
  let orbitR := spreadOrbitRadius compMeta gap totalSpan
  (compMeta.foldl (spreadPlaceComp T dcX dcY orbitR gap totalSpan)
    (JMap.empty, -(jsPI / 2))).1

/-- `spreadDisconnectedComponents(graph)`: allocate each component an
arc proportional to its diameter share, and move it rigidly (rotation
by the arc's angle plus translation) onto the orbit circle.  `none`
exactly on the source's early returns (fewer than 2 nodes or fewer
than 2 components). -/
def spreadDisconnectedComponents (T : JsMath) (g : Graph) : Option (JMap Point) :=
  if g.nodes.length < 2 then none
  else if (spreadComponents g).length < 2 then none
  else some (spreadTargets T g)

/-! ### Walk invariants: every id is collected at most once

The stack only ever receives ids at the moment they are marked
visited, and `visited` never shrinks, so each id is popped — and hence
collected — at most once, across all components of a run. -/

theorem pushFold_spec (blocked : String → Bool) (nbs : List String)
    (stack : List String) (visited : JSet) (acc : List String)
    (hnd : (acc ++ stack).Nodup) (hv : ∀ x ∈ acc ++ stack, x ∈ visited) :
    let r := nbs.foldl
      (fun (sv : List String × JSet) nb =>
        if nb ∈ sv.2 ∨ blocked nb = true then sv else (nb :: sv.1, sv.2 ++ [nb]))
      (stack, visited)
    (acc ++ r.1).Nodup ∧ (∀ x ∈ acc ++ r.1, x ∈ r.2) ∧ visited <+: r.2 ∧
      (∀ x ∈ r.1, x ∈ stack ∨ x ∉ visited) := by
  induction nbs generalizing stack visited with
  | nil => exact ⟨hnd, hv, List.prefix_refl _, fun x hx => Or.inl hx⟩
  | cons nb nbs ih =>
    simp only [List.foldl_cons]
    by_cases hnb : nb ∈ visited ∨ blocked nb = true
    · rw [if_pos hnb]
      exact ih stack visited hnd hv
    · rw [if_neg hnb]
      push_neg at hnb
      have hnbv : nb ∉ visited := hnb.1
      have hnd' : (acc ++ nb :: stack).Nodup := by
        have : nb ∉ acc ++ stack := fun hmem => hnbv (hv nb hmem)
        have hperm : (acc ++ nb :: stack).Perm (nb :: (acc ++ stack)) :=
          List.perm_append_comm.trans (by simp [List.perm_append_comm])
        refine hperm.nodup_iff.mpr ?_
        exact List.nodup_cons.mpr ⟨this, hnd⟩
      have hv' : ∀ x ∈ acc ++ nb :: stack, x ∈ visited ++ [nb] := by
        intro x hx
        rcases List.mem_append.mp hx with h | h
        · exact List.mem_append.mpr (Or.inl (hv x (List.mem_append.mpr (Or.inl h))))
        · rcases List.mem_cons.mp h with h | h
          · subst h; exact List.mem_append.mpr (Or.inr (List.mem_singleton.mpr rfl))
          · exact List.mem_append.mpr (Or.inl (hv x (List.mem_append.mpr (Or.inr h))))
      obtain ⟨r1, r2, r3, r4⟩ := ih (nb :: stack) (visited ++ [nb]) hnd' hv'
      refine ⟨r1, r2, (List.prefix_append visited [nb]).trans r3, ?_⟩
      intro x hx
      rcases r4 x hx with h | h
      · rcases List.mem_cons.mp h with h | h
        · subst h; exact Or.inr hnbv
        · exact Or.inl h
      · exact Or.inr fun hc => h (List.mem_append.mpr (Or.inl hc))

theorem dfsWalk_spec (neigh : String → List String) (blocked : String → Bool) :
    ∀ (fuel : Nat) (stack : List String) (visited : JSet) (acc : List String),
    (acc ++ stack).Nodup → (∀ x ∈ acc ++ stack, x ∈ visited) →
    (dfsWalk neigh blocked fuel stack visited acc).1.Nodup ∧
      (∀ x ∈ (dfsWalk neigh blocked fuel stack visited acc).1,
        x ∈ (dfsWalk neigh blocked fuel stack visited acc).2) ∧
      visited <+: (dfsWalk neigh blocked fuel stack visited acc).2 ∧
      (∀ x ∈ (dfsWalk neigh blocked fuel stack visited acc).1,
        x ∈ visited → x ∈ acc ++ stack) := by
  intro fuel
  induction fuel with
  | zero =>
    intro stack visited acc hnd hv
    refine ⟨(List.nodup_append.mp hnd).1, ?_, List.prefix_refl _, ?_⟩
    · intro x hx
      exact hv x (List.mem_append.mpr (Or.inl hx))
    · intro x hx _
      exact List.mem_append.mpr (Or.inl hx)
  | succ fuel ih =>
    intro stack visited acc hnd hv
    cases stack with
    | nil =>
      refine ⟨by simpa using hnd, ?_, List.prefix_refl _, ?_⟩
      · intro x hx
        exact hv x (by simpa using hx)
      · intro x hx _
        simpa using hx
    | cons cur rest =>
      show (dfsWalk neigh blocked (fuel + 1) (cur :: rest) visited acc).1.Nodup ∧ _
      rw [dfsWalk]
      have hshift : acc ++ cur :: rest = (acc ++ [cur]) ++ rest := by simp
      have hnd1 : ((acc ++ [cur]) ++ rest).Nodup := hshift ▸ hnd
      have hv1 : ∀ x ∈ (acc ++ [cur]) ++ rest, x ∈ visited := fun x hx =>
        hv x (hshift ▸ hx)
      obtain ⟨p1, p2, p3, p4⟩ :=
        pushFold_spec blocked (neigh cur) rest visited (acc ++ [cur]) hnd1 hv1
      set step := (neigh cur).foldl
        (fun (sv : List String × JSet) nb =>
          if nb ∈ sv.2 ∨ blocked nb = true then sv else (nb :: sv.1, sv.2 ++ [nb]))
        (rest, visited) with hstep
      obtain ⟨r1, r2, r3, r4⟩ := ih step.1 step.2 (acc ++ [cur]) p1 p2
      refine ⟨r1, r2, p3.trans r3, ?_⟩
      intro x hx hxv
      have hxv' : x ∈ step.2 := p3.subset hxv
      have := r4 x hx hxv'
      rcases List.mem_append.mp this with h | h
      · exact hshift ▸ List.mem_append.mpr (Or.inl h)
      · rcases p4 x h with h2 | h2
        · exact hshift ▸ List.mem_append.mpr (Or.inr h2)
        · exact absurd hxv h2

theorem dfsAll_flatten_nodup (neigh : String → List String) (fuel : Nat)
    (order : List String) :
    (dfsAll neigh fuel order).1.flatten.Nodup ∧
      (∀ x ∈ (dfsAll neigh fuel order).1.flatten, x ∈ (dfsAll neigh fuel order).2) := by
  unfold dfsAll
  suffices h : ∀ (st : List (List String) × JSet),
      st.1.flatten.Nodup → (∀ x ∈ st.1.flatten, x ∈ st.2) →
      (order.foldl
        (fun (st : List (List String) × JSet) v =>
          if v ∈ st.2 then st
          else
            let res := dfsWalk neigh (fun _ => false) fuel [v] (st.2 ++ [v]) []
            (st.1 ++ [res.1], res.2)) st).1.flatten.Nodup ∧
      (∀ x ∈ (order.foldl
        (fun (st : List (List String) × JSet) v =>
          if v ∈ st.2 then st
          else
            let res := dfsWalk neigh (fun _ => false) fuel [v] (st.2 ++ [v]) []
            (st.1 ++ [res.1], res.2)) st).1.flatten,
        x ∈ (order.foldl
        (fun (st : List (List String) × JSet) v =>
          if v ∈ st.2 then st
          else
            let res := dfsWalk neigh (fun _ => false) fuel [v] (st.2 ++ [v]) []
            (st.1 ++ [res.1], res.2)) st).2) by
    exact h ([], []) (by simp) (by simp)
  induction order with
  | nil => intro st h1 h2; exact ⟨h1, h2⟩
  | cons v order ih =>
    intro st h1 h2
    simp only [List.foldl_cons]
    by_cases hvv : v ∈ st.2
    · rw [if_pos hvv]
      exact ih st h1 h2
    · rw [if_neg hvv]
      obtain ⟨w1, w2, w3, w4⟩ := dfsWalk_spec neigh (fun _ => false) fuel
        [v] (st.2 ++ [v]) [] (by simp) (by simp)
      set res := dfsWalk neigh (fun _ => false) fuel [v] (st.2 ++ [v]) [] with hres
      apply ih
      · simp only [List.flatten_append, List.flatten_cons, List.flatten_nil,
          List.append_nil]
        rw [List.nodup_append]
        refine ⟨h1, w1, ?_⟩
        intro x hx hxr
        have hxv : x ∈ st.2 := h2 x hx
        have : x ∈ ([] : List String) ++ [v] :=
          w4 x hxr (List.mem_append.mpr (Or.inl hxv))
        have hxeqv : x = v := by simpa using this
        exact hvv (hxeqv ▸ hxv)
      · intro x hx
        simp only [List.flatten_append, List.flatten_cons, List.flatten_nil,
          List.append_nil] at hx
        rcases List.mem_append.mp hx with h | h
        · exact w3.subset ((List.prefix_append st.2 [v]).subset (h2 x h))
        · exact w2 x h

/-! ### Collected node ids are globally distinct -/

theorem filterMap_findNode_ids (g : Graph) (comp : List String) :
    ((comp.filterMap (fun cid => g.findNode cid)).map (fun n => n.id)).Sublist comp := by
  induction comp with
  | nil => simp
  | cons cid rest ih =>
    cases hfind : g.findNode cid with
    | none =>
      simp only [List.filterMap_cons, hfind]
      exact ih.trans (List.sublist_cons_self cid rest)
    | some n =>
      have hid : n.id = cid := by
        have := List.find?_some hfind
        simpa using this
      simp only [List.filterMap_cons, hfind, List.map_cons, hid]
      exact ih.cons₂ cid

theorem sublist_flatten_of_sublist {α : Type} {l₁ l₂ : List (List α)}
    (h : l₁.Sublist l₂) : l₁.flatten.Sublist l₂.flatten := by
  induction h with
  | slnil => simp
  | cons c _ ih =>
    simp only [List.flatten_cons]
    exact ih.trans (List.sublist_append_right c _)
  | cons₂ c _ ih =>
    simp only [List.flatten_cons]
    exact ih.append_left c

theorem pointwise_ids_sublist (g : Graph) (A : List (List String)) :
    ((A.map (fun comp => comp.filterMap (fun cid => g.findNode cid))).map
      (fun c => c.map (fun n => n.id))).flatten.Sublist A.flatten := by
  induction A with
  | nil => simp
  | cons c rest ih =>
    simp only [List.map_cons, List.flatten_cons]
    exact (filterMap_findNode_ids g c).append ih

theorem spreadComponents_ids_nodup (g : Graph) :
    ((spreadComponents g).map (fun c => c.map (fun n => n.id))).flatten.Nodup := by
  unfold spreadComponents
  set adj := allEdgeAdj g.edges
  set neigh := fun v => sortIds (adj.getD v [])
  set order := (jsSort (fun a b => !strLtB b.id a.id) g.nodes).map (fun n => n.id)
  have hall := (dfsAll_flatten_nodup neigh (dfsFuel g) order).1
  set A := (dfsAll neigh (dfsFuel g) order).1 with hA
  have hsub1 : (((A.map (fun comp => comp.filterMap (fun cid => g.findNode cid))).filter
      (fun comp => !comp.isEmpty)).map (fun c => c.map (fun n => n.id))).flatten.Sublist
      ((A.map (fun comp => comp.filterMap (fun cid => g.findNode cid))).map
        (fun c => c.map (fun n => n.id))).flatten :=
    sublist_flatten_of_sublist ((List.filter_sublist _).map _)
  exact ((hsub1.trans (pointwise_ids_sublist g A)).nodup hall)

/-! ### Folds of `set` over nodes with distinct ids -/

theorem foldl_set_get_of_ne {β : Type} (l : List Node) (val : Node → β)
    (m : JMap β) (k : String) (h : ∀ a ∈ l, a.id ≠ k) :
    (l.foldl (fun m a => m.set a.id (val a)) m).get k = m.get k := by
  induction l generalizing m with
  | nil => rfl
  | cons a rest ih =>
    simp only [List.foldl_cons]
    rw [ih _ (fun b hb => h b (List.mem_cons_of_mem a hb)),
      JMap.get_set_ne _ _ _ _ (fun hk => h a (List.mem_cons_self a rest) hk.symm)]

theorem foldl_set_get_of_mem {β : Type} (l : List Node) (val : Node → β)
    (m : JMap β) (a : Node) (ha : a ∈ l)
    (hnd : (l.map (fun n => n.id)).Nodup) :
    (l.foldl (fun m a => m.set a.id (val a)) m).get a.id = some (val a) := by
  induction l generalizing m with
  | nil => simp at ha
  | cons b rest ih =>
    simp only [List.map_cons, List.nodup_cons] at hnd
    rcases List.mem_cons.mp ha with h | h
    · subst h
      simp only [List.foldl_cons]
      rw [foldl_set_get_of_ne rest val _ a.id
        (fun c hc hck => hnd.1 (hck ▸ List.mem_map_of_mem (fun n => n.id) hc)),
        JMap.get_set_self]
    · simp only [List.foldl_cons]
      exact ih _ h hnd.2

/-! ### The value placed for each member of a spread component -/

theorem spreadPlaceComp_get_ne (T : JsMath) (dcX dcY orbitR gap totalSpan : ℚ)
    (st : JMap Point × ℚ) (meta : CompMeta) (k : String)
    (hk : ∀ a ∈ meta.comp, a.id ≠ k) :
    ((spreadPlaceComp T dcX dcY orbitR gap totalSpan st meta).1).get k = st.1.get k := by
  unfold spreadPlaceComp
  exact foldl_set_get_of_ne meta.comp _ st.1 k hk

theorem spreadFold_get_ne (T : JsMath) (dcX dcY orbitR gap totalSpan : ℚ)
    (metas : List CompMeta) (st : JMap Point × ℚ) (k : String)
    (h : ∀ mt ∈ metas, ∀ a ∈ mt.comp, a.id ≠ k) :
    ((metas.foldl (spreadPlaceComp T dcX dcY orbitR gap totalSpan) st).1).get k
      = st.1.get k := by
  induction metas generalizing st with
  | nil => rfl
  | cons mt rest ih =>
    simp only [List.foldl_cons]
    rw [ih _ (fun mt' hmt' => h mt' (List.mem_cons_of_mem mt hmt')),
      spreadPlaceComp_get_ne T dcX dcY orbitR gap totalSpan st mt k
        (h mt (List.mem_cons_self mt rest))]

theorem spreadPlaceComp_get_mem (T : JsMath) (dcX dcY orbitR gap totalSpan : ℚ)
    (st : JMap Point × ℚ) (meta : CompMeta) (n : Node) (hn : n ∈ meta.comp)
    (hnd : (meta.comp.map (fun n => n.id)).Nodup) :
    ((spreadPlaceComp T dcX dcY orbitR gap totalSpan st meta).1).get n.id
      = some (rigidTarget
          (T.cos (st.2 + ((meta.radius * 2 + gap) / totalSpan) * jsPI * 2 / 2 + jsPI / 2))
          (T.sin (st.2 + ((meta.radius * 2 + gap) / totalSpan) * jsPI * 2 / 2 + jsPI / 2))
          (dcX + orbitR * T.cos (st.2 + ((meta.radius * 2 + gap) / totalSpan) * jsPI * 2 / 2))
          (dcY + orbitR * T.sin (st.2 + ((meta.radius * 2 + gap) / totalSpan) * jsPI * 2 / 2))
          meta.cx meta.cy n) := by
  unfold spreadPlaceComp
  exact foldl_set_get_of_mem meta.comp _ st.1 n hn hnd

theorem spreadFold_pair (T : JsMath) (dcX dcY orbitR gap totalSpan : ℚ)
    (metas : List CompMeta) (meta : CompMeta) (a b : Node)
    (hm : meta ∈ metas) (ha : a ∈ meta.comp) (hb : b ∈ meta.comp)
    (hnd : (metas.map (fun mt => mt.comp.map (fun n => n.id))).flatten.Nodup) :
    ∀ st : JMap Point × ℚ, ∃ θ tcx tcy,
      ((metas.foldl (spreadPlaceComp T dcX dcY orbitR gap totalSpan) st).1).get a.id
          = some (rigidTarget (T.cos θ) (T.sin θ) tcx tcy meta.cx meta.cy a) ∧
        ((metas.foldl (spreadPlaceComp T dcX dcY orbitR gap totalSpan) st).1).get b.id
          = some (rigidTarget (T.cos θ) (T.sin θ) tcx tcy meta.cx meta.cy b) := by
  induction metas with
  | nil => simp at hm
  | cons mt rest ih =>
    intro st
    simp only [List.map_cons, List.flatten_cons, List.nodup_append] at hnd
    obtain ⟨hnd1, hnd2, hdisj⟩ := hnd
    rcases List.mem_cons.mp hm with hmeq | hmem
    · subst hmeq
      simp only [List.foldl_cons]
      have hrest : ∀ k : String, k ∈ meta.comp.map (fun n => n.id) →
          ∀ mt' ∈ rest, ∀ n' ∈ mt'.comp, n'.id ≠ k := by
        intro k hk mt' hmt' n' hn' hne
        exact hdisj hk (hne ▸ List.mem_flatten.mpr
          ⟨mt'.comp.map (fun n => n.id), List.mem_map_of_mem _ hmt',
            List.mem_map_of_mem _ hn'⟩)
      refine ⟨st.2 + ((meta.radius * 2 + gap) / totalSpan) * jsPI * 2 / 2 + jsPI / 2,
        dcX + orbitR * T.cos (st.2 + ((meta.radius * 2 + gap) / totalSpan) * jsPI * 2 / 2),
        dcY + orbitR * T.sin (st.2 + ((meta.radius * 2 + gap) / totalSpan) * jsPI * 2 / 2),
        ?_, ?_⟩
      · rw [spreadFold_get_ne T dcX dcY orbitR gap totalSpan rest _ a.id
          (hrest a.id (List.mem_map_of_mem _ ha)),
          spreadPlaceComp_get_mem T dcX dcY orbitR gap totalSpan st meta a ha hnd1]
      · rw [spreadFold_get_ne T dcX dcY orbitR gap totalSpan rest _ b.id
          (hrest b.id (List.mem_map_of_mem _ hb)),
          spreadPlaceComp_get_mem T dcX dcY orbitR gap totalSpan st meta b hb hnd1]
    · simp only [List.foldl_cons]
      exact ih hmem hnd2 _

/-- Observer for statements: the target the spread assigns to an id
(`(0,0)` when the spread was a no-op or the id is absent). -/
def spreadTargetOf (T : JsMath) (g : Graph) (id : String) : Point :=
  ((spreadDisconnectedComponents T g).getD JMap.empty).getD id (Point.mk 0 0)

/-- **C4.** Component spread applies a rigid transform per component:
for any two nodes `a`, `b` of the same connected component, the
(squared, hence also the plain) Euclidean distance between their
target positions equals the distance between their old model
positions.  The only analytic fact used is the Pythagorean identity
for the `Math.cos`/`Math.sin` the code rotates with. -/
theorem spread_rigid_distance_preserving (T : JsMath) (g : Graph)
    (hT : ∀ θ : ℚ, T.cos θ ^ 2 + T.sin θ ^ 2 = 1)
    (comp : List Node) (hc : comp ∈ spreadComponents g)
    (a b : Node) (ha : a ∈ comp) (hb : b ∈ comp)
    (hs : (spreadDisconnectedComponents T g).isSome = true) :
    ((spreadTargetOf T g a.id).x - (spreadTargetOf T g b.id).x) ^ 2
        + ((spreadTargetOf T g a.id).y - (spreadTargetOf T g b.id).y) ^ 2
      = (a.x - b.x) ^ 2 + (a.y - b.y) ^ 2 ∧
    Real.sqrt ((((spreadTargetOf T g a.id).x - (spreadTargetOf T g b.id).x) ^ 2
        + ((spreadTargetOf T g a.id).y - (spreadTargetOf T g b.id).y) ^ 2 : ℚ) : ℝ)
      = Real.sqrt (((a.x - b.x) ^ 2 + (a.y - b.y) ^ 2 : ℚ) : ℝ) := by
  have hsome : spreadDisconnectedComponents T g = some (spreadTargets T g) := by
    unfold spreadDisconnectedComponents at hs ⊢
    split_ifs at hs ⊢ with h1 h2
    · simp at hs
    · simp at hs
    · rfl
  have hmetasnd : (((spreadComponents g).map (fun comp => spreadCompMeta T comp)).map
      (fun mt => mt.comp.map (fun n => n.id))).flatten.Nodup := by
    rw [List.map_map]
    exact spreadComponents_ids_nodup g
  obtain ⟨θ, tcx, tcy, hga, hgb⟩ :=
    spreadFold_pair T (g.width / 2) (g.height / 2)
      (spreadOrbitRadius ((spreadComponents g).map (fun comp => spreadCompMeta T comp)) 50
        (((spreadComponents g).map (fun comp => spreadCompMeta T comp)).foldl
          (fun s c => s + (c.radius * 2 + 50)) 0))
      50
      (((spreadComponents g).map (fun comp => spreadCompMeta T comp)).foldl
        (fun s c => s + (c.radius * 2 + 50)) 0)
      ((spreadComponents g).map (fun comp => spreadCompMeta T comp))
      (spreadCompMeta T comp) a b
      (List.mem_map_of_mem _ hc) ha hb hmetasnd
      (JMap.empty, -(jsPI / 2))
  have hta : spreadTargetOf T g a.id
      = rigidTarget (T.cos θ) (T.sin θ) tcx tcy
          (spreadCompMeta T comp).cx (spreadCompMeta T comp).cy a := by
    unfold spreadTargetOf
    rw [hsome]
    show (spreadTargets T g).getD a.id (Point.mk 0 0) = _
    unfold JMap.getD
    rw [show (spreadTargets T g).get a.id
        = some (rigidTarget (T.cos θ) (T.sin θ) tcx tcy
            (spreadCompMeta T comp).cx (spreadCompMeta T comp).cy a) from hga]
    rfl
  have htb : spreadTargetOf T g b.id
      = rigidTarget (T.cos θ) (T.sin θ) tcx tcy
          (spreadCompMeta T comp).cx (spreadCompMeta T comp).cy b := by
    unfold spreadTargetOf
    rw [hsome]
    show (spreadTargets T g).getD b.id (Point.mk 0 0) = _
    unfold JMap.getD
    rw [show (spreadTargets T g).get b.id
        = some (rigidTarget (T.cos θ) (T.sin θ) tcx tcy
            (spreadCompMeta T comp).cx (spreadCompMeta T comp).cy b) from hgb]
    rfl
  have hmain : ((spreadTargetOf T g a.id).x - (spreadTargetOf T g b.id).x) ^ 2
      + ((spreadTargetOf T g a.id).y - (spreadTargetOf T g b.id).y) ^ 2
      = (a.x - b.x) ^ 2 + (a.y - b.y) ^ 2 := by
    rw [hta, htb]
    unfold rigidTarget
    have hcs := hT θ
    ring_nf
    ring_nf at hcs
    nlinarith [hcs, sq_nonneg (a.x - b.x), sq_nonneg (a.y - b.y)]
  refine ⟨hmain, ?_⟩
  have hcast : ((((spreadTargetOf T g a.id).x - (spreadTargetOf T g b.id).x) ^ 2
      + ((spreadTargetOf T g a.id).y - (spreadTargetOf T g b.id).y) ^ 2 : ℚ) : ℝ)
      = (((a.x - b.x) ^ 2 + (a.y - b.y) ^ 2 : ℚ) : ℝ) := by
    exact_mod_cast congrArg (fun q : ℚ => (q : ℝ)) hmain
  rw [hcast]

/-! ### Concrete inputs used by witnesses and counterexamples -/

def nW1 : Node := { id := "c1", nodeType := "entity", x := 0, y := 0, bw := 40, bh := 40 }

def nW2 : Node := { id := "c2", nodeType := "entity", x := 300, y := 0, bw := 40, bh := 40 }

def nW3 : Node := { id := "d1", nodeType := "entity", x := 0, y := 300, bw := 40, bh := 40 }

def gW4 : Graph :=
  { nodes := [nW1, nW2, nW3], edges := [⟨"c1", "c2"⟩], width := 1200, height := 800 }

/-- A concrete `Math` record with `cos = 1`, `sin = 0` (which satisfies
the Pythagorean identity exactly). -/
def TW4 : JsMath :=
  { sin := fun _ => 0, cos := fun _ => 1, sqrt := fun _ => 0,
    atan2 := fun _ _ => 0, hypot := fun _ _ => 0 }

theorem spread_rigid_distance_preserving_witness :
    [nW1, nW2] ∈ spreadComponents gW4 ∧ nW1 ∈ [nW1, nW2] ∧ nW2 ∈ [nW1, nW2] ∧
      (spreadDisconnectedComponents TW4 gW4).isSome = true ∧
      ((spreadTargetOf TW4 gW4 nW1.id).x - (spreadTargetOf TW4 gW4 nW2.id).x) ^ 2
          + ((spreadTargetOf TW4 gW4 nW1.id).y - (spreadTargetOf TW4 gW4 nW2.id).y) ^ 2
        = (nW1.x - nW2.x) ^ 2 + (nW1.y - nW2.y) ^ 2 :=
  ⟨by decide, by decide, by decide, by decide,
    (spread_rigid_distance_preserving TW4 gW4 (fun θ => by norm_num [TW4])
      [nW1, nW2] (by decide) nW1 nW2 (by decide) (by decide) (by decide)).1⟩

/-! ## C8: the component-spread orbit radius -/

/-- The orbit-radius formula exactly as the claim states it
("clamp(totalSpan ÷ 2π, max-component-radius+gap+40, 520)", i.e. the
larger of span/2π and maxRadius+gap+40, capped at 520).  This follows
the claim's words and is the comparison point; the source additionally
takes a 240 floor. -/
def specClaimedOrbitRadius (metas : List CompMeta) (gap totalSpan : ℚ) : ℚ :=
  min (max (totalSpan / (2 * jsPI))
    (listMax (metas.map CompMeta.radius) + gap + 40)) 520

def node8a : Node := { id := "a", nodeType := "entity", x := 0, y := 0, bw := 60, bh := 80 }

def node8b : Node :=
  { id := "b", nodeType := "entity", x := 1000, y := 1000, bw := 60, bh := 80 }

def graph8 : Graph :=
  { nodes := [node8a, node8b], edges := [], width := 1200, height := 800 }

/-- A concrete `Math` record whose `sqrt` is exact at the one value
this example takes it at (`√10000 = 100`). -/
def tableT8 : JsMath :=
  { sin := fun _ => 0, cos := fun _ => 0,
    sqrt := fun q => if q = 10000 then 100 else 0,
    atan2 := fun _ _ => 0, hypot := fun _ _ => 0 }

/-- **C8, counterexample.**  Two single-node components of bounding
box 60×80 (bounding-circle radius 90) give totalSpan 460; the code's
orbit radius is the 240 floor, while the claimed
`clamp(totalSpan/2π, maxRadius+gap+40, 520)` evaluates to 180.  The
claim omits the 240 minimum the source takes. -/
theorem spread_orbit_claim_counterexample :
    spreadOrbitRadius ((spreadComponents graph8).map (spreadCompMeta tableT8)) 50
        (((spreadComponents graph8).map (spreadCompMeta tableT8)).foldl
          (fun s c => s + (c.radius * 2 + 50)) 0) = 240 ∧
      specClaimedOrbitRadius ((spreadComponents graph8).map (spreadCompMeta tableT8)) 50
        (((spreadComponents graph8).map (spreadCompMeta tableT8)).foldl
          (fun s c => s + (c.radius * 2 + 50)) 0) = 180 ∧
      (spreadComponents graph8).length = 2 := by
  have hc : spreadComponents graph8 = [[node8a], [node8b]] := by decide
  refine ⟨?_, ?_, by rw [hc]; rfl⟩
  · rw [hc]
    simp only [List.map, spreadCompMeta, listMin, listMax, List.foldl, node8a, node8b]
    norm_num [tableT8, spreadOrbitRadius, listMax, jsPI]
  · rw [hc]
    simp only [List.map, spreadCompMeta, listMin, listMax, List.foldl, node8a, node8b]
    norm_num [tableT8, specClaimedOrbitRadius, listMax, jsPI]

/-- **C8, amended.**  The orbit radius of component spread is
`clamp(totalSpan/2π, max(maxComponentRadius+gap+40, 240), 520)`: the
claimed formula with the 240 floor restored.  Consequently it always
lies in `[240, 520]`, and it agrees with the claimed formula exactly
when `maxComponentRadius+gap+40` already reaches 240. -/
theorem spread_orbitRadius_amended (metas : List CompMeta) (gap totalSpan : ℚ) :
    spreadOrbitRadius metas gap totalSpan
        = min (max (totalSpan / (2 * jsPI))
            (max (listMax (metas.map CompMeta.radius) + gap + 40) 240)) 520
      ∧ 240 ≤ spreadOrbitRadius metas gap totalSpan
      ∧ spreadOrbitRadius metas gap totalSpan ≤ 520
      ∧ (240 ≤ listMax (metas.map CompMeta.radius) + gap + 40 →
          spreadOrbitRadius metas gap totalSpan
            = specClaimedOrbitRadius metas gap totalSpan) := by
  refine ⟨rfl, ?_, min_le_right _ _, ?_⟩
  · unfold spreadOrbitRadius
    exact le_min (le_max_of_le_right (le_max_right _ _)) (by norm_num)
  · intro h
    unfold spreadOrbitRadius specClaimedOrbitRadius
    rw [max_eq_left h]

theorem spread_orbitRadius_amended_witness :
    (240 : ℚ) ≤ listMax (([({ comp := [], radius := 300, cx := 0, cy := 0 } :
        CompMeta)]).map CompMeta.radius) + 50 + 40 ∧
      spreadOrbitRadius [{ comp := [], radius := 300, cx := 0, cy := 0 }] 50 800
        = specClaimedOrbitRadius [{ comp := [], radius := 300, cx := 0, cy := 0 }] 50 800 :=
  ⟨by norm_num [listMax], (spread_orbitRadius_amended _ _ _).2.2.2 (by norm_num [listMax])⟩

/-! ## Arrange (radial satellite) layout (`js/layout/arrangeLayout.js`) -/

/-- `let dist = Math.hypot(dx, dy); if (dist === 0) dist = 0.01;` —
the epsilon substitution of the overlap-resolution passes. -/
def distSafe (T : JsMath) (dx dy : ℚ) : ℚ :=
  if T.hypot dx dy = 0 then 1 / 100 else T.hypot dx dy

/-- `Math.hypot(dx, dy) || 1` — the substitution of the spring /
clearance / midpoint-offset computations. -/
def distOr1 (T : JsMath) (dx dy : ℚ) : ℚ := jsOrQ (T.hypot dx dy) 1

/-- A satellite of an entity in arrange layout: an owned attribute or
a touching relationship (with the other connected entity, if any). -/
structure Satellite where
  snode : Node
  stype : String
  other : Option String := none
deriving DecidableEq, Repr

/-- The per-entity record built by arrange layout (the write-only
`rels` list is kept for fidelity). -/
structure EntityInfo where
  node : Node
  attrs : List Node
  rels : List (String × Option String)
  satellites : List Satellite
deriving DecidableEq, Repr

/-- `relationshipConnections`: relationship id → entity ids connected
to it by an entity–relationship edge, in edge order (the source stores
the canonical node objects of `nodeMap`; identity on those objects is
identity of ids). -/
def relConnectionsOf (g : Graph) : JMap JSet :=
  g.edges.foldl
    (fun m e =>
      match (nodeMapOf g).get e.source, (nodeMapOf g).get e.target with
      | some sn, some tn =>
        if sn.nodeType = "relationship" ∧ tn.nodeType = "entity" then
          let m1 := if m.contains e.source then m else m.set e.source []
          m1.set e.source ((m1.getD e.source []).addJ e.target)
        else if tn.nodeType = "relationship" ∧ sn.nodeType = "entity" then
          let m1 := if m.contains e.target then m else m.set e.target []
          m1.set e.target ((m1.getD e.target []).addJ e.source)
        else m
      | _, _ => m)
    JMap.empty

/-- `entityInfo`: per entity, its node, owned attributes, touching
relationships and the satellite list (attributes first, then
relationships, each in input order). -/
def entityInfoOf (g : Graph) : JMap EntityInfo :=
  let entityNodes := g.nodes.filter (fun n => n.nodeType == "entity")
  let attributeNodes := g.nodes.filter (fun n => n.nodeType == "attribute")
  let relationshipNodes := g.nodes.filter (fun n => n.nodeType == "relationship")
  let m0 : JMap EntityInfo := entityNodes.foldl
    (fun m e => m.set e.id { node := e, attrs := [], rels := [], satellites := [] })
    JMap.empty
  let m1 := attributeNodes.foldl
    (fun m a =>
      match a.parentEntity with
      | none => m
      | some pid =>
        match m.get pid with
        | none => m
        | some info =>
          m.set pid { info with
            attrs := info.attrs ++ [a]
            satellites := info.satellites ++ [{ snode := a, stype := "attr" }] })
    m0
  relationshipNodes.foldl
    (fun m r =>
      match (relConnectionsOf g).get r.id with
      | none => m
      | some connected =>
        connected.foldl
          (fun m eid =>
            match m.get eid with
            | none => m
            | some info =>
              let other := connected.find? (fun x => x ≠ eid)
              m.set eid { info with
                rels := info.rels ++ [(r.id, other)]
                satellites := info.satellites ++
                  [{ snode := r, stype := "rel", other := other }] })
          m)
    m1

/-- Base satellite-ring radius and system radius per entity (§4.5
step 2): ring = entity radius + max satellite radius + 25, grown so
satellites spaced `2·maxSat+18` apart fit the circumference; system
radius = ring + max satellite radius. -/
def arrangeRings (T : JsMath) (g : Graph) : JMap ℚ × JMap ℚ :=
  (entityInfoOf g).foldl
    (fun (st : JMap ℚ × JMap ℚ) p =>
      let info := p.2
      let entityRadius := getRadiusT T info.node
      let maxSatelliteRadius :=
        if info.satellites.length > 0 then
          listMax (info.satellites.map (fun s => getRadiusT T s.snode))
        else 30
      let ringR0 := entityRadius + maxSatelliteRadius + 25
      let ringR :=
        if info.satellites.length > 1 then
          let requiredArcLength := maxSatelliteRadius * 2 + 18
          let totalCircumference := (info.satellites.length : ℚ) * requiredArcLength
          max ringR0 (totalCircumference / (2 * jsPI))
        else ringR0
      (st.1.set info.node.id ringR, st.2.set info.node.id (ringR + maxSatelliteRadius)))
    (JMap.empty, JMap.empty)

/-- Fold over the strict upper-triangle pairs of a list (the
`for i; for j = i+1` double loops). -/
def pairFold {α β : Type} (f : β → α → α → β) : β → List α → β
  | st, [] => st
  | st, a :: rest => pairFold f (rest.foldl (fun st b => f st a b) st) rest

/-- One spring-attraction update along a two-entity relationship (§4.5
step 3a); the state is (positions, maxMove). -/
def arrangeSpringStep (T : JsMath) (relConn : JMap JSet) (sysR : JMap ℚ)
    (st : JMap Point × ℚ) (r : Node) : JMap Point × ℚ :=
  match relConn.get r.id with
  | none => st
  | some connected =>
    if connected.length ≠ 2 then st
    else
      match connected with
      | idA :: idB :: _ =>
        match st.1.get idA, st.1.get idB with
        | some posA, some posB =>
          let dx := posB.x - posA.x
          let dy := posB.y - posA.y
          let dist := distOr1 T dx dy
          let rA := sysR.getD idA 0
          let rB := sysR.getD idB 0
          let desired := rA + rB + 50
          let diff := desired - dist
          if |diff| < 1 then st
          else
            let nx := dx / dist
            let ny := dy / dist
            let move := diff * (2/10) / 2
            ((st.1.set idA (Point.mk (posA.x - nx * move) (posA.y - ny * move))).set idB
              (Point.mk (posB.x + nx * move) (posB.y + ny * move)),
              max st.2 |move|)
        | _, _ => st
      | _ => st

/-- One pairwise entity repulsion update (§4.5 step 3b). -/
def arrangeRepelStep (T : JsMath) (sysR : JMap ℚ)
    (st : JMap Point × ℚ) (idA idB : String) : JMap Point × ℚ :=
  match st.1.get idA, st.1.get idB with
  | some posA, some posB =>
    let dx := posB.x - posA.x
    let dy := posB.y - posA.y
    let dist := distOr1 T dx dy
    let rA := sysR.getD idA 0
    let rB := sysR.getD idB 0
    let minDesc := rA + rB + 50
    if dist < minDesc then
      let overlap := minDesc - dist
      let nx := dx / dist
      let ny := dy / dist
      let move := overlap * (5/10) * (5/10)
      ((st.1.set idA (Point.mk (posA.x - nx * move) (posA.y - ny * move))).set idB
        (Point.mk (posB.x + nx * move) (posB.y + ny * move)),
        max st.2 move)
    else st
  | _, _ => st

/-- One full relaxation iteration: springs over all relationships,
then repulsion over all entity pairs. -/
def arrangeRelaxIter (T : JsMath) (g : Graph) (relConn : JMap JSet) (sysR : JMap ℚ)
    (pos : JMap Point) : JMap Point × ℚ :=
  let relationshipNodes := g.nodes.filter (fun n => n.nodeType == "relationship")
  let st1 := relationshipNodes.foldl (arrangeSpringStep T relConn sysR) (pos, 0)
  pairFold (arrangeRepelStep T sysR) st1 (pos.map (fun p => p.1))

/-- The bounded relaxation loop (≤ 300 iterations, early exit when the
largest move drops below 0.5). -/
def arrangeRelax (T : JsMath) (g : Graph) (relConn : JMap JSet) (sysR : JMap ℚ) :
    Nat → JMap Point → JMap Point
  | 0, pos => pos
  | fuel + 1, pos =>
    let r := arrangeRelaxIter T g relConn sysR pos
    if r.2 < 5/10 then r.1 else arrangeRelax T g relConn sysR fuel r.1

/-- One pass of `ensureRelationshipClearance` (§4.5 step 4): push the
two entities of each relationship apart until the diamond has
`ring + diamond radius + 12` of half-span clearance. -/
def ensureRelationshipClearance (T : JsMath) (g : Graph) (relConn : JMap JSet)
    (ring : JMap ℚ) (pos : JMap Point) : JMap Point :=
  let relationshipNodes := g.nodes.filter (fun n => n.nodeType == "relationship")
  relationshipNodes.foldl
    (fun pos r =>
      match relConn.get r.id with
      | none => pos
      | some connected =>
        if connected.length ≠ 2 then pos
        else
          match connected with
          | idA :: idB :: _ =>
            match pos.get idA, pos.get idB with
            | some posA, some posB =>
              let dx := posB.x - posA.x
              let dy := posB.y - posA.y
              let dist := distOr1 T dx dy
              let relRadius := getRadiusT T r
              let minHalf := max (jsOrQ (ring.getD idA 0) 40 + relRadius + 12)
                (jsOrQ (ring.getD idB 0) 40 + relRadius + 12)
              let requiredDist := minHalf * 2
              if dist ≥ requiredDist then pos
              else
                let missing := requiredDist - dist
                let nx := dx / dist
                let ny := dy / dist
                (pos.set idA (Point.mk (posA.x - nx * missing / 2)
                    (posA.y - ny * missing / 2))).set idB
                  (Point.mk (posB.x + nx * missing / 2) (posB.y + ny * missing / 2))
            | _, _ => pos
          | _ => pos)
    pos

/-- A free angular segment (`{start, end}`; `end` is a Lean keyword). -/
structure Seg where
  start : ℚ
  stop : ℚ
deriving DecidableEq, Repr

/-- `Math.round` (round half toward +∞, as JS). -/
def jsRound (q : ℚ) : Int := ⌊q + 1/2⌋

/-- §4.5 step 5: carve the circle into free segments by removing
half-gap wedges of 0.175 rad around each avoided angle; if nothing
remains free, reset to the full circle. -/
def freeSegments (avoidAngles : List ℚ) : List Seg :=
  let segments :=
    if avoidAngles.isEmpty then [⟨0, jsPI * 2⟩]
    else
      let sortedAngles := jsSort (fun a b => decide (a ≤ b)) avoidAngles
      (List.range sortedAngles.length).foldl
        (fun segs i =>
          let curr := sortedAngles.getD i 0
          let next := sortedAngles.getD ((i + 1) % sortedAngles.length) 0
            + (if i = sortedAngles.length - 1 then jsPI * 2 else 0)
          let a := curr + 7/40
          let b := next - 7/40
          if b > a then segs ++ [⟨a, b⟩] else segs)
        []
  let totalFree := segments.foldl (fun s sg => s + (sg.stop - sg.start)) (0 : ℚ)
  if totalFree ≤ 0 then [⟨0, jsPI * 2⟩] else segments

/-- One step of the `maxIdx` scan: the state is (best index so far,
best length so far — `none` plays `-Infinity`, current index). -/
def segLongestStep : (Nat × Option ℚ × Nat) → Seg → (Nat × Option ℚ × Nat)
  | (_, none, k), s => (k, some (s.stop - s.start), k + 1)
  | (i, some m, k), s =>
    if s.stop - s.start > m then (k, some (s.stop - s.start), k + 1)
    else (i, some m, k + 1)

/-- The index of the longest segment (`maxIdx` scan starting from
`maxLen = -Infinity`, strict improvement). -/
def segLongestIdx (segments : List Seg) : Nat :=
  (segments.foldl segLongestStep (0, none, 0)).1

/-- One round of `segCounts[maxIdx]++` (the under-allocation loop). -/
def bumpLongest (segments : List Seg) (counts : List Int) : List Int :=
  counts.set (segLongestIdx segments) (counts.getD (segLongestIdx segments) 0 + 1)

def bumpNTimes (segments : List Seg) : Nat → List Int → List Int
  | 0, counts => counts
  | n + 1, counts => bumpNTimes segments n (bumpLongest segments counts)

/-- First index satisfying a predicate (used for the backwards scan
of the over-allocation loop). -/
def findIdxP (p : Int → Bool) : List Int → Option Nat
  | [] => none
  | a :: rest => if p a then some 0 else (findIdxP p rest).map (· + 1)

/-- One round of the over-allocation loop: decrement the last strictly
positive count (the source scans `for i = length-1 downTo 0`). -/
def decLastPositive (counts : List Int) : List Int :=
  match findIdxP (fun c => c > 0) counts.reverse with
  | none => counts
  | some j =>
    counts.set (counts.length - 1 - j) (counts.getD (counts.length - 1 - j) 0 - 1)

def decNTimes : Nat → List Int → List Int
  | 0, counts => counts
  | n + 1, counts => decNTimes n (decLastPositive counts)

/-- §4.5 step 5, per-segment satellite counts as the source computes
them: `max(0, round(count·len/totalAngle))` per segment, then hand any
deficit to the longest segment one unit at a time, and remove any
surplus from the last non-zero segment. -/
def arrangeSegCounts (segments : List Seg) (totalCount : Int) : List Int :=
  let totalAngle := segments.foldl (fun s sg => s + (sg.stop - sg.start)) (0 : ℚ)
  let counts := segments.map
    (fun sg => max 0 (jsRound ((totalCount : ℚ) * (sg.stop - sg.start) / totalAngle)))
  let allocated := counts.foldl (· + ·) 0
  decNTimes (allocated - totalCount).toNat
    (bumpNTimes segments (totalCount - allocated).toNat counts)

/-- §4.5 step 5, placement: per entity, set every orbital satellite at
its segment's evenly subdivided angle on the satellite ring.  The
state is (targets, entityOrbitRadius). -/
def arrangeSatellites (T : JsMath) (entityPositions : JMap Point) (ring : JMap ℚ)
    (st : JMap Point × JMap ℚ) (p : String × EntityInfo) : JMap Point × JMap ℚ :=
  let info := p.2
  let model := info.node
  let center := entityPositions.getD model.id (Point.mk model.x model.y)
  let ringRadius := ring.getD model.id 0
  let orbitOut := st.2.set model.id ringRadius
  if info.satellites.isEmpty then (st.1, orbitOut)
  else
    let avoidAngles := info.satellites.foldl
      (fun acc s =>
        if s.stype = "rel" then
          match s.other with
          | some oid =>
            match entityPositions.get oid with
            | some otherPos =>
              acc ++ [normalizeAngle
                (T.atan2 (otherPos.y - center.y) (otherPos.x - center.x))]
            | none => acc
          | none => acc
        else acc)
      []
    let segments := freeSegments avoidAngles
    let orbital := info.satellites.filter
      (fun s => s.stype = "attr" ∨ (s.stype = "rel" ∧ s.other = none))
    if orbital.isEmpty then (st.1, orbitOut)
    else
      let sortedSatellites := jsSort
        (fun s1 s2 =>
          decide (normalizeAngle (T.atan2 (s1.snode.y - center.y) (s1.snode.x - center.x))
            ≤ normalizeAngle (T.atan2 (s2.snode.y - center.y) (s2.snode.x - center.x))))
        orbital
      let segCounts := arrangeSegCounts segments (orbital.length : Int)
      let placed := ((segments.zip segCounts).foldl
        (fun (acc : JMap Point × Nat) (sc : Seg × Int) =>
          if sc.2 = 0 then acc
          else
            let step := (sc.1.stop - sc.1.start) / (sc.2 : ℚ)
            (List.range sc.2.toNat).foldl
              (fun (acc2 : JMap Point × Nat) i =>
                let angle := sc.1.start + step * ((i : ℚ) + 5/10)
                let useAngle := normalizeAngle angle
                let tx := center.x + ringRadius * T.cos useAngle
                let ty := center.y + ringRadius * T.sin useAngle
                match sortedSatellites.get? acc2.2 with
                | some satellite => (acc2.1.set satellite.snode.id (Point.mk tx ty), acc2.2 + 1)
                | none => (acc2.1, acc2.2 + 1))
              acc)
        (st.1, 0)).1
      (placed, orbitOut)

/-- §4.5 step 6, first half: each two-entity relationship diamond goes
to the midpoint of its entity pair; the state is
(targets, relAnchors, relRadii). -/
def arrangeRelMidpoints (T : JsMath) (g : Graph) (relConn : JMap JSet)
    (entityPositions : JMap Point)
    (st : JMap Point × JMap Point × JMap ℚ) : JMap Point × JMap Point × JMap ℚ :=
  (g.nodes.filter (fun n => n.nodeType == "relationship")).foldl
    (fun st r =>
      match relConn.get r.id with
      | none => st
      | some connected =>
        if connected.length = 2 then
          match connected with
          | idA :: idB :: _ =>
            match entityPositions.get idA, entityPositions.get idB with
            | some posA, some posB =>
              let mid := Point.mk ((posA.x + posB.x) / 2) ((posA.y + posB.y) / 2)
              (st.1.set r.id mid, st.2.1.set r.id mid, st.2.2.set r.id (getRadiusT T r))
            | _, _ => st
          | _ => st
        else st)
    st

/-- The `idA__idB` pair key (JS `<` on id strings). -/
def groupKey (idA idB : String) : String :=
  if strLtB idA idB then idA ++ "__" ++ idB else idB ++ "__" ++ idA

structure GroupItem where
  relNode : Node
  relRadius : ℚ
  entA : String
  entB : String
deriving DecidableEq, Repr

/-- Group the two-entity relationships by unordered entity pair. -/
def groupedRelationsOf (T : JsMath) (g : Graph) (relConn : JMap JSet) :
    JMap (List GroupItem) :=
  (g.nodes.filter (fun n => n.nodeType == "relationship")).foldl
    (fun m r =>
      match relConn.get r.id with
      | none => m
      | some connected =>
        if connected.length = 2 then
          match connected with
          | idA :: idB :: _ =>
            let key := groupKey idA idB
            let m1 := if m.contains key then m else m.set key []
            m1.set key ((m1.getD key []) ++
              [{ relNode := r, relRadius := getRadiusT T r, entA := idA, entB := idB }])
          | _ => m
        else m)
    JMap.empty

/-- §4.5 step 6, second half: when several relationships share an
entity pair, spread them symmetrically along the perpendicular of the
pair axis, ordered by id.  State: (targets, relAnchors). -/
def arrangeGroupOffsets (T : JsMath) (entityPositions : JMap Point)
    (st : JMap Point × JMap Point) (group : String × List GroupItem) :
    JMap Point × JMap Point :=
  let list := group.2
  if list.length ≤ 1 then st
  else
    match list with
    | [] => st
    | sample :: _ =>
      match entityPositions.get sample.entA, entityPositions.get sample.entB with
      | some posA, some posB =>
        let dx := posB.x - posA.x
        let dy := posB.y - posA.y
        let dist := distOr1 T dx dy
        let nx := dx / dist
        let ny := dy / dist
        let px := -ny
        let py := nx
        let baseX := jsOrQ (match st.1.get sample.relNode.id with
          | some t => t.x | none => 0) ((posA.x + posB.x) / 2)
        let baseY := jsOrQ (match st.1.get sample.relNode.id with
          | some t => t.y | none => 0) ((posA.y + posB.y) / 2)
        let maxRadius := listMax (list.map (fun it => it.relRadius))
        let offsetStep := maxRadius * 2 + 16
        let sorted := jsSort (fun a b => !strLtB b.relNode.id a.relNode.id) list
        let mid := ((sorted.length : ℚ) - 1) / 2
        ((sorted.foldl
          (fun (acc : (JMap Point × JMap Point) × Nat) item =>
            let offsetIndex := (acc.2 : ℚ) - mid
            let ox := px * offsetIndex * offsetStep
            let oy := py * offsetIndex * offsetStep
            let newPos := Point.mk (baseX + ox) (baseY + oy)
            ((acc.1.1.set item.relNode.id newPos, acc.1.2.set item.relNode.id newPos),
              acc.2 + 1))
          (st, 0)).1)
      | _, _ => st

/-- `entityCollisionRadius`: ring (orbit radius, else base ring, else
60) plus 20, per entity. -/
def entityCollisionRadiusOf (g : Graph) (orbitMap ringMap : JMap ℚ) : JMap ℚ :=
  (g.nodes.filter (fun n => n.nodeType == "entity")).foldl
    (fun m en =>
      m.set en.id (jsOrQ (orbitMap.getD en.id 0) (jsOrQ (ringMap.getD en.id 0) 60) + 20))
    JMap.empty

/-- §4.5 step 7, phase 1: pairwise repulsion among the anchored
relationship diamonds (min distance = sum of radii + 14). -/
def arrangeRelPairPhase (T : JsMath) (g : Graph) (relRadii : JMap ℚ)
    (pos : JMap Point) : JMap Point :=
  pairFold
    (fun pos (ra rb : Node) =>
      match pos.get ra.id with
      | none => pos
      | some posA =>
        match pos.get rb.id with
        | none => pos
        | some posB =>
          let rA := jsOrQ (relRadii.getD ra.id 0) 30
          let rB := jsOrQ (relRadii.getD rb.id 0) 30
          let dx := posB.x - posA.x
          let dy := posB.y - posA.y
          let dist := distSafe T dx dy
          let minDist := rA + rB + 14
          if dist < minDist then
            let push := (minDist - dist) / 2
            let nx := dx / dist
            let ny := dy / dist
            (pos.set ra.id (Point.mk (posA.x - nx * push) (posA.y - ny * push))).set rb.id
              (Point.mk (posB.x + nx * push) (posB.y + ny * push))
          else pos)
    pos (g.nodes.filter (fun n => n.nodeType == "relationship"))

/-- §4.5 step 7, phase 2: push each diamond out of any connected
entity's collision ring. -/
def arrangeRelEntityPhase (T : JsMath) (g : Graph) (relConn : JMap JSet)
    (entityPositions : JMap Point) (collR : JMap ℚ) (pos : JMap Point) : JMap Point :=
  (pos.map (fun p => p.1)).foldl
    (fun pos rid =>
      let connected? := match g.findNode rid with
        | some _ => relConn.get rid
        | none => none
      match connected? with
      | none => pos
      | some connected =>
        connected.foldl
          (fun pos eid =>
            match (nodeMapOf g).get eid with
            | none => pos
            | some em =>
              match pos.get rid with
              | none => pos
              | some p =>
                let center := entityPositions.getD eid (Point.mk em.x em.y)
                let limit := jsOrQ (collR.getD eid 0) 80
                let dx := p.x - center.x
                let dy := p.y - center.y
                let dist := distSafe T dx dy
                if dist < limit then
                  let push := limit - dist
                  let nx := dx / dist
                  let ny := dy / dist
                  pos.set rid (Point.mk (p.x + nx * push) (p.y + ny * push))
                else pos)
          pos)
    pos

/-- §4.5 step 7, phase 3: 15% pull back toward the anchor midpoint. -/
def arrangeRelAnchorPhase (relAnchors : JMap Point) (pos : JMap Point) : JMap Point :=
  (pos.map (fun p => p.1)).foldl
    (fun pos rid =>
      match relAnchors.get rid with
      | none => pos
      | some anchor =>
        match pos.get rid with
        | none => pos
        | some p =>
          pos.set rid (Point.mk (p.x * (85/100) + anchor.x * (15/100))
            (p.y * (85/100) + anchor.y * (15/100))))
    pos

/-- The 80 fixed iterations of §4.5 step 7. -/
def arrangeRelAdjust (T : JsMath) (g : Graph) (relConn : JMap JSet)
    (relAnchors : JMap Point) (relRadii : JMap ℚ) (entityPositions : JMap Point)
    (collR : JMap ℚ) : Nat → JMap Point → JMap Point
  | 0, pos => pos
  | fuel + 1, pos =>
    arrangeRelAdjust T g relConn relAnchors relRadii entityPositions collR fuel
      (arrangeRelAnchorPhase relAnchors
        (arrangeRelEntityPhase T g relConn entityPositions collR
          (arrangeRelPairPhase T g relRadii pos)))

/-- §4.5 step 8, fill: every node not yet in the target map gets its
last-known model position (or `(0,0)` without one). -/
def arrangeFill (g : Graph) (targets : JMap Point) : JMap Point :=
  g.nodes.foldl
    (fun t n =>
      if t.contains n.id then t
      else
        t.set n.id (Point.mk
          (jsOrQ (match g.findNode n.id with | some m => m.x | none => 0) 0)
          (jsOrQ (match g.findNode n.id with | some m => m.y | none => 0) 0)))
    targets

/-- One pairwise update of the final global separation (min distance
= sum of radii + 8, half-push each). -/
def sepPairStep (T : JsMath) (st : JMap Point × ℚ) (a b : String × ℚ) :
    JMap Point × ℚ :=
  match st.1.get a.1 with
  | none => st
  | some pa =>
    match st.1.get b.1 with
    | none => st
    | some pb =>
      let dx := pb.x - pa.x
      let dy := pb.y - pa.y
      let dist := distSafe T dx dy
      let minDist := a.2 + b.2 + 8
      if dist < minDist then
        let push := (minDist - dist) / 2
        let nx := dx / dist
        let ny := dy / dist
        ((st.1.set a.1 (Point.mk (pa.x - nx * push) (pa.y - ny * push))).set b.1
          (Point.mk (pb.x + nx * push) (pb.y + ny * push)),
          max st.2 push)
      else st

/-- The ≤ 400 iterations of the final global separation (early exit
below 0.3). -/
def sepLoop (T : JsMath) (meta : List (String × ℚ)) :
    Nat → JMap Point → JMap Point
  | 0, targets => targets
  | fuel + 1, targets =>
    if (pairFold (sepPairStep T) (targets, 0) meta).2 < 3/10 then
      (pairFold (sepPairStep T) (targets, 0) meta).1
    else sepLoop T meta fuel (pairFold (sepPairStep T) (targets, 0) meta).1

/-- §4.5 step 8 (`applyGlobalSeparation`): fill missing targets from
last-known positions, then up to 400 iterations of pairwise
repulsion over every node. -/
def applyGlobalSeparation (T : JsMath) (g : Graph) (targets : JMap Point) : JMap Point :=
  let meta := g.nodes.map (fun n => (n.id, getRadiusT T n))
  sepLoop T meta 400 (arrangeFill g targets)

/-- The complete arrange-layout target map (§4.5 steps 1–8). -/
def arrangeTargets (T : JsMath) (g : Graph) : JMap Point :=
  let relConn := relConnectionsOf g
  let rings := arrangeRings T g
  let ring := rings.1
  let sysR := rings.2
  let entityNodes := g.nodes.filter (fun n => n.nodeType == "entity")
  let pos0 : JMap Point := entityNodes.foldl
    (fun m n => m.set n.id (Point.mk n.x n.y)) JMap.empty
  let pos1 := arrangeRelax T g relConn sysR 300 pos0
  let pos2 := ensureRelationshipClearance T g relConn ring
    (ensureRelationshipClearance T g relConn ring
      (ensureRelationshipClearance T g relConn ring pos1))
  let targets0 : JMap Point := pos2.foldl (fun t p => t.set p.1 p.2) JMap.empty
  let satRes := (entityInfoOf g).foldl (arrangeSatellites T pos2 ring)
    (targets0, JMap.empty)
  let midRes := arrangeRelMidpoints T g relConn pos2 (satRes.1, JMap.empty, JMap.empty)
  let grouped := groupedRelationsOf T g relConn
  let goRes := grouped.foldl (arrangeGroupOffsets T pos2) (midRes.1, midRes.2.1)
  let relAnchors := goRes.2
  let relRadii := midRes.2.2
  let targets4 :=
    if relAnchors.length ≠ 0 then
      let relPositions0 := relAnchors.foldl
        (fun m p => m.set p.1 (match goRes.1.get p.1 with | some t => t | none => p.2))
        JMap.empty
      let collR := entityCollisionRadiusOf g satRes.2 ring
      let relPositions1 := arrangeRelAdjust T g relConn relAnchors relRadii pos2 collR
        80 relPositions0
      relPositions1.foldl (fun t p => t.set p.1 p.2) goRes.1
    else goRes.1
  applyGlobalSeparation T g targets4

/-- `arrangeLayout(graph)`: no-op (`none`) on an empty node set, else
the computed target map. -/
def arrangeLayout (T : JsMath) (g : Graph) : Option (JMap Point) :=
  if g.nodes.isEmpty then none else some (arrangeTargets T g)

/-! ### Completeness of the arrange target map -/

theorem foldl_preserves {α β : Type} (f : β → α → β) (P : β → Prop)
    (hf : ∀ st a, P st → P (f st a)) : ∀ (l : List α) (st : β), P st → P (l.foldl f st) := by
  intro l
  induction l with
  | nil => intro st h; exact h
  | cons a rest ih => intro st h; exact ih _ (hf st a h)

theorem pairFold_preserves {α β : Type} (f : β → α → α → β) (P : β → Prop)
    (hf : ∀ st a b, P st → P (f st a b)) :
    ∀ (l : List α) (st : β), P st → P (pairFold f st l) := by
  intro l
  induction l with
  | nil => intro st h; exact h
  | cons a rest ih =>
    intro st h
    exact ih _ (foldl_preserves (fun st b => f st a b) P (fun st b => hf st a b) rest st h)

theorem sepPairStep_preserves_contains (T : JsMath) (k : String)
    (st : JMap Point × ℚ) (a b : String × ℚ) (h : st.1.contains k = true) :
    (sepPairStep T st a b).1.contains k = true := by
  unfold sepPairStep
  cases st.1.get a.1 with
  | none => exact h
  | some pa =>
    cases st.1.get b.1 with
    | none => exact h
    | some pb =>
      simp only
      split
      · exact JMap.contains_set_mono _ _ _ _ (JMap.contains_set_mono _ _ _ _ h)
      · exact h

theorem sepLoop_preserves_contains (T : JsMath) (meta : List (String × ℚ)) (k : String) :
    ∀ (fuel : Nat) (targets : JMap Point), targets.contains k = true →
      (sepLoop T meta fuel targets).contains k = true := by
  intro fuel
  induction fuel with
  | zero => intro t h; exact h
  | succ fuel ih =>
    intro t h
    unfold sepLoop
    have hp : (pairFold (sepPairStep T) (t, (0:ℚ)) meta).1.contains k = true :=
      pairFold_preserves (sepPairStep T) (fun st => st.1.contains k = true)
        (fun st a b => sepPairStep_preserves_contains T k st a b) meta (t, 0) h
    split
    · exact hp
    · exact ih _ hp

theorem arrangeFill_contains (g : Graph) (targets : JMap Point) :
    ∀ n ∈ g.nodes, (arrangeFill g targets).contains n.id = true := by
  unfold arrangeFill
  suffices h : ∀ (l : List Node) (t : JMap Point) (n : Node), n ∈ l →
      (l.foldl (fun t n =>
        if t.contains n.id then t
        else t.set n.id (Point.mk
          (jsOrQ (match g.findNode n.id with | some m => m.x | none => 0) 0)
          (jsOrQ (match g.findNode n.id with | some m => m.y | none => 0) 0))) t).contains
        n.id = true by
    intro n hn
    exact h g.nodes targets n hn
  intro l
  induction l with
  | nil => intro t n hn; simp at hn
  | cons m rest ih =>
    intro t n hn
    simp only [List.foldl_cons]
    rcases List.mem_cons.mp hn with h | h
    · subst h
      apply foldl_preserves _ (fun t => JMap.contains t n.id = true)
      · intro st a hst
        dsimp only
        split
        · exact hst
        · exact JMap.contains_set_mono _ _ _ _ hst
      · dsimp only
        split
        · next hc => exact hc
        · exact JMap.contains_set_self _ _ _
    · exact ih _ n h

/-- Every node id of the input has an entry in the arrange target
map (the fill of `applyGlobalSeparation` plus preservation through
the separation iterations). -/
theorem arrangeTargets_contains (T : JsMath) (g : Graph) :
    ∀ n ∈ g.nodes, (arrangeTargets T g).contains n.id = true := by
  intro n hn
  unfold arrangeTargets applyGlobalSeparation
  exact sepLoop_preserves_contains T _ n.id 400 _ (arrangeFill_contains g _ n hn)

/-! ## C7: arrange satellite allocation -/

theorem sum_set_getD (l : List Int) (i : Nat) (v : Int) (hi : i < l.length) :
    (l.set i v).sum = l.sum - l.getD i 0 + v := by
  induction l generalizing i with
  | nil => simp at hi
  | cons a rest ih =>
    cases i with
    | zero => simp [List.getD]; ring
    | succ i =>
      simp only [List.set_cons_succ, List.sum_cons, List.getD_cons_succ]
      rw [ih i (by simpa using hi)]
      ring

theorem findIdxP_some_getD (p : Int → Bool) (l : List Int) (j : Nat)
    (h : findIdxP p l = some j) : p (l.getD j 0) = true := by
  induction l generalizing j with
  | nil => simp [findIdxP] at h
  | cons a rest ih =>
    rw [findIdxP] at h
    by_cases hp : p a
    · rw [if_pos hp] at h
      cases h
      simpa using hp
    · rw [if_neg hp] at h
      cases hj : findIdxP p rest with
      | none => rw [hj] at h; simp at h
      | some j' =>
        rw [hj] at h
        simp only [Option.map_some'] at h
        cases h
        simpa using ih j' hj

theorem findIdxP_some_lt (p : Int → Bool) (l : List Int) (j : Nat)
    (h : findIdxP p l = some j) : j < l.length := by
  induction l generalizing j with
  | nil => simp [findIdxP] at h
  | cons a rest ih =>
    rw [findIdxP] at h
    by_cases hp : p a
    · rw [if_pos hp] at h
      cases h
      simp
    · rw [if_neg hp] at h
      cases hj : findIdxP p rest with
      | none => rw [hj] at h; simp at h
      | some j' =>
        rw [hj] at h
        simp only [Option.map_some'] at h
        cases h
        simpa [Nat.succ_lt_succ_iff] using ih j' hj

theorem findIdxP_none_iff (p : Int → Bool) (l : List Int) :
    findIdxP p l = none ↔ ∀ x ∈ l, p x = false := by
  induction l with
  | nil => simp [findIdxP]
  | cons a rest ih =>
    rw [findIdxP]
    by_cases hp : p a
    · simp [hp]
    · simp only [if_neg hp]
      cases hj : findIdxP p rest with
      | none =>
        simp only [Option.map_none']
        constructor
        · intro _ x hx
          rcases List.mem_cons.mp hx with h | h
          · subst h; exact Bool.eq_false_iff.mpr hp
          · exact (ih.mp hj) x h
        · intro _; trivial
      | some j' =>
        simp only [Option.map_some']
        constructor
        · intro h; simp at h
        · intro hall
          have : findIdxP p rest = none := ih.mpr (fun x hx => hall x (List.mem_cons_of_mem a hx))
          rw [this] at hj
          simp at hj

theorem getD_reverse (l : List Int) (j : Nat) (hj : j < l.length) :
    l.reverse.getD j 0 = l.getD (l.length - 1 - j) 0 := by
  rw [List.getD_eq_getElem?_getD, List.getD_eq_getElem?_getD]
  congr 1
  rw [List.getElem?_reverse hj]

theorem segLongestIdx_lt (segments : List Seg) (hseg : segments ≠ []) :
    segLongestIdx segments < segments.length := by
  unfold segLongestIdx
  suffices h : ∀ (l : List Seg) (i : Nat) (ml : Option ℚ) (k : Nat),
      (ml.isSome = true → i < k) → (l ≠ [] ∨ ml.isSome = true) →
      (l.foldl segLongestStep (i, ml, k)).1 < k + l.length by
    simpa using h segments 0 none 0 (by simp) (Or.inl hseg)
  intro l
  induction l with
  | nil =>
    intro i ml k h1 h2
    rcases h2 with h2 | h2
    · exact absurd rfl h2
    · simpa using h1 h2
  | cons s rest ih =>
    intro i ml k h1 _
    simp only [List.foldl_cons, List.length_cons]
    cases ml with
    | none =>
      rw [segLongestStep]
      have := ih k (some (s.stop - s.start)) (k + 1) (fun _ => Nat.lt_succ_self k)
        (Or.inr rfl)
      omega
    | some m =>
      rw [segLongestStep]
      by_cases hgt : s.stop - s.start > m
      · rw [if_pos hgt]
        have := ih k (some (s.stop - s.start)) (k + 1) (fun _ => Nat.lt_succ_self k)
          (Or.inr rfl)
        omega
      · rw [if_neg hgt]
        have := ih i (some m) (k + 1)
          (fun _ => Nat.lt_succ_of_lt (h1 rfl)) (Or.inr rfl)
        omega

theorem foldl_add_eq_sum (l : List Int) : ∀ acc : Int, l.foldl (· + ·) acc = acc + l.sum := by
  induction l with
  | nil => intro acc; simp
  | cons a rest ih =>
    intro acc
    simp only [List.foldl_cons, List.sum_cons]
    rw [ih]
    ring

theorem bumpLongest_props (segments : List Seg) (counts : List Int)
    (hseg : segments ≠ []) (hlen : counts.length = segments.length)
    (hnn : ∀ c ∈ counts, 0 ≤ c) :
    (bumpLongest segments counts).sum = counts.sum + 1 ∧
      (bumpLongest segments counts).length = counts.length ∧
      (∀ c ∈ bumpLongest segments counts, 0 ≤ c) := by
  unfold bumpLongest
  have hidx : segLongestIdx segments < counts.length := by
    rw [hlen]; exact segLongestIdx_lt segments hseg
  refine ⟨?_, List.length_set _ _ _, ?_⟩
  · rw [sum_set_getD _ _ _ hidx]; ring
  · intro c hc
    rcases List.mem_or_eq_of_mem_set hc with h | h
    · exact hnn c h
    · have : counts.getD (segLongestIdx segments) 0 ∈ counts := by
        rw [List.getD_eq_getElem?_getD, List.getElem?_eq_getElem hidx]
        exact List.getElem_mem hidx
      have := hnn _ this
      omega

theorem bumpNTimes_props (segments : List Seg) (hseg : segments ≠ []) :
    ∀ (n : Nat) (counts : List Int), counts.length = segments.length →
      (∀ c ∈ counts, 0 ≤ c) →
      (bumpNTimes segments n counts).sum = counts.sum + n ∧
        (bumpNTimes segments n counts).length = counts.length ∧
        (∀ c ∈ bumpNTimes segments n counts, 0 ≤ c) := by
  intro n
  induction n with
  | zero => intro counts h1 h2; exact ⟨by simp [bumpNTimes], rfl, h2⟩
  | succ n ih =>
    intro counts h1 h2
    rw [bumpNTimes]
    obtain ⟨b1, b2, b3⟩ := bumpLongest_props segments counts hseg h1 h2
    obtain ⟨i1, i2, i3⟩ := ih (bumpLongest segments counts) (b2.trans h1) b3
    refine ⟨?_, i2.trans b2, i3⟩
    rw [i1, b1]
    push_cast
    ring

theorem decLastPositive_props (counts : List Int)
    (hnn : ∀ c ∈ counts, 0 ≤ c) (hpos : 0 < counts.sum) :
    (decLastPositive counts).sum = counts.sum - 1 ∧
      (decLastPositive counts).length = counts.length ∧
      (∀ c ∈ decLastPositive counts, 0 ≤ c) := by
  have hex : ∃ x ∈ counts, (0 : Int) < x := by
    by_contra hno
    push_neg at hno
    have : counts.sum = 0 := List.sum_eq_zero (fun x hx => le_antisymm (hno x hx) (hnn x hx))
    omega
  obtain ⟨x, hx, hxpos⟩ := hex
  have hfind : findIdxP (fun c => c > 0) counts.reverse ≠ none := by
    intro hcon
    have := (findIdxP_none_iff _ _).mp hcon x (List.mem_reverse.mpr hx)
    simp [hxpos] at this
  cases hj : findIdxP (fun c => c > 0) counts.reverse with
  | none => exact absurd hj hfind
  | some j =>
    have hjl : j < counts.length := by
      have := findIdxP_some_lt _ _ _ hj
      simpa using this
    have hval : counts.getD (counts.length - 1 - j) 0 > 0 := by
      have := findIdxP_some_getD _ _ _ hj
      rw [getD_reverse counts j hjl] at this
      simpa using this
    have hidx : counts.length - 1 - j < counts.length := by omega
    unfold decLastPositive
    rw [hj]
    refine ⟨?_, List.length_set _ _ _, ?_⟩
    · rw [sum_set_getD _ _ _ hidx]; ring
    · intro c hc
      rcases List.mem_or_eq_of_mem_set hc with h | h
      · exact hnn c h
      · omega

theorem decNTimes_props :
    ∀ (n : Nat) (counts : List Int), (∀ c ∈ counts, 0 ≤ c) →
      (n : Int) ≤ counts.sum →
      (decNTimes n counts).sum = counts.sum - n ∧
        (decNTimes n counts).length = counts.length ∧
        (∀ c ∈ decNTimes n counts, 0 ≤ c) := by
  intro n
  induction n with
  | zero => intro counts h1 _; exact ⟨by simp [decNTimes], rfl, h1⟩
  | succ n ih =>
    intro counts h1 h2
    rw [decNTimes]
    have hpos : 0 < counts.sum := by push_cast at h2; omega
    obtain ⟨d1, d2, d3⟩ := decLastPositive_props counts h1 hpos
    obtain ⟨i1, i2, i3⟩ := ih (decLastPositive counts) d3 (by rw [d1]; push_cast at h2 ⊢; omega)
    refine ⟨?_, i2.trans d2, i3⟩
    rw [i1, d1]
    push_cast
    ring

/-- Largest-remainder rounding as the claim words it ("floor each
segment's proportional share, then hand out the remaining units by
descending fractional part", ties broken stably, cycling as in the
force-align `computeExtraAngles`).  This definition follows the
claim's words and is the comparison point for the arrange allocation. -/
def largestRemainderCounts (segments : List Seg) (totalCount : Int) : List Int :=
  let totalAngle := segments.foldl (fun s sg => s + (sg.stop - sg.start)) (0:ℚ)
  let ideals := segments.map (fun sg => (totalCount : ℚ) * (sg.stop - sg.start) / totalAngle)
  let floors := ideals.map (fun q => (⌊q⌋ : Int))
  let remaining := totalCount - floors.foldl (· + ·) 0
  let order := jsSort (fun i j =>
      decide ((ideals.getD j 0 - (⌊ideals.getD j 0⌋ : ℚ))
        ≤ (ideals.getD i 0 - (⌊ideals.getD i 0⌋ : ℚ))))
    (List.range segments.length)
  (List.range remaining.toNat).foldl
    (fun counts k =>
      match order.get? (k % order.length) with
      | some idx => counts.set idx (counts.getD idx 0 + 1)
      | none => counts)
    floors

/-- **C7, counterexample.**  An entity with three anchored
relationships at angles `0`, `1.25`, `2.5` and two orbital satellites:
the free segments have lengths `0.9`, `0.9`, `2π−2.85`.  The source's
allocation rounds each share (`0.344, 0.344, 1.312 → 0, 0, 1`) and
gives the deficit to the longest segment, producing `[0, 0, 2]`;
largest-remainder rounding as claimed floors the shares and hands the
remainder to the largest fractional part, producing `[1, 0, 1]`. -/
theorem arrange_segCounts_not_largest_remainder :
    freeSegments [0, 5/4, 5/2]
        = [⟨7/40, 43/40⟩, ⟨57/40, 93/40⟩, ⟨107/40, jsPI*2 - 7/40⟩] ∧
      arrangeSegCounts [⟨7/40, 43/40⟩, ⟨57/40, 93/40⟩, ⟨107/40, jsPI*2 - 7/40⟩] 2
        = [0, 0, 2] ∧
      largestRemainderCounts [⟨7/40, 43/40⟩, ⟨57/40, 93/40⟩, ⟨107/40, jsPI*2 - 7/40⟩] 2
        = [1, 0, 1] ∧
      ([0, 0, 2] : List Int) ≠ [1, 0, 1] := by
  refine ⟨?_, ?_, ?_, by decide⟩
  · norm_num [freeSegments, jsSort, insertLe, List.range_succ, jsPI]
  · norm_num [arrangeSegCounts, jsRound, jsPI, bumpNTimes, decNTimes, bumpLongest,
      segLongestIdx, segLongestStep, decLastPositive]
  · norm_num [largestRemainderCounts, jsSort, insertLe, jsPI, List.range_succ]

/-- **C7, amended.**  The per-segment counts of arrange step 5 are
produced by rounding each proportional share and then repairing the
total (deficit to the longest segment, surplus from the last non-zero
segment) — not by largest-remainder rounding; the counts are
non-negative and sum exactly to the number of orbital satellites. -/
theorem arrangeSegCounts_sum (segments : List Seg) (totalCount : Int)
    (hseg : segments ≠ []) (htc : 0 ≤ totalCount) :
    (arrangeSegCounts segments totalCount).sum = totalCount ∧
      ∀ c ∈ arrangeSegCounts segments totalCount, 0 ≤ c := by
  simp only [arrangeSegCounts]
  set totalAngle := segments.foldl (fun s sg => s + (sg.stop - sg.start)) (0:ℚ) with hta
  set counts := segments.map
    (fun sg => max 0 (jsRound ((totalCount : ℚ) * (sg.stop - sg.start) / totalAngle)))
    with hcounts
  have hlen : counts.length = segments.length := List.length_map _ _
  have hnn : ∀ c ∈ counts, 0 ≤ c := by
    intro c hc
    rw [hcounts] at hc
    rcases List.mem_map.mp hc with ⟨sg, _, heq⟩
    rw [← heq]
    exact le_max_left 0 _
  rw [foldl_add_eq_sum, zero_add]
  by_cases hcase : counts.sum ≤ totalCount
  · obtain ⟨b1, b2, b3⟩ := bumpNTimes_props segments hseg (totalCount - counts.sum).toNat
      counts hlen hnn
    have hd0 : (counts.sum - totalCount).toNat = 0 := by omega
    rw [hd0]
    have hs : (bumpNTimes segments (totalCount - counts.sum).toNat counts).sum
        = totalCount := by
      rw [b1, Int.toNat_of_nonneg (by omega)]
      ring
    exact ⟨by simpa [decNTimes] using hs, by simpa [decNTimes] using b3⟩
  · push_neg at hcase
    have hb0 : (totalCount - counts.sum).toNat = 0 := by omega
    rw [hb0]
    have hle : ((counts.sum - totalCount).toNat : Int) ≤ counts.sum := by
      rw [Int.toNat_of_nonneg (by omega)]
      omega
    obtain ⟨d1, d2, d3⟩ := decNTimes_props (counts.sum - totalCount).toNat counts
      (by simpa [bumpNTimes] using hnn) (by simpa [bumpNTimes] using hle)
    refine ⟨?_, by simpa [bumpNTimes] using d3⟩
    have : ((counts.sum - totalCount).toNat : Int) = counts.sum - totalCount :=
      Int.toNat_of_nonneg (by omega)
    simp only [bumpNTimes] at d1 ⊢
    rw [d1, this]
    ring

theorem arrangeSegCounts_sum_witness :
    ([(⟨0, 1⟩ : Seg)] ≠ []) ∧ ((0 : Int) ≤ 1) ∧
      (arrangeSegCounts [⟨0, 1⟩] 1).sum = 1 :=
  ⟨by decide, by decide, (arrangeSegCounts_sum [⟨0, 1⟩] 1 (by decide) (by decide)).1⟩

/-! ## Force-align (chain) layout (`js/layout/forceAlignLayout.js`) -/

def isCore (t : String) : Bool := t == "entity" || t == "relationship"

def coreNodesOf (g : Graph) : List Node := g.nodes.filter (fun n => isCore n.nodeType)

def attributeNodesOf (g : Graph) : List Node :=
  g.nodes.filter (fun n => n.nodeType == "attribute")

/-- `entityAttrs`: owning entity id → its attribute nodes, in input
order (attributes with a falsy `parentEntity` are skipped). -/
def entityAttrsOf (g : Graph) : JMap (List Node) :=
  (attributeNodesOf g).foldl
    (fun m a =>
      match a.parentEntity with
      | none => m
      | some pid =>
        if pid = "" then m
        else
          let m1 := if m.contains pid then m else m.set pid []
          m1.set pid ((m1.getD pid []) ++ [a]))
    JMap.empty

/-- `coreAdj`: undirected adjacency restricted to edges whose both
endpoints resolve to entity/relationship nodes. -/
def coreAdjOf (g : Graph) : JMap JSet :=
  g.edges.foldl
    (fun m e =>
      match (nodeMapOf g).get e.source, (nodeMapOf g).get e.target with
      | some sn, some tn =>
        if isCore sn.nodeType ∧ isCore tn.nodeType then
          let m1 := if m.contains e.source then m else m.set e.source []
          let m2 := if m1.contains e.target then m1 else m1.set e.target []
          let m3 := m2.set e.source ((m2.getD e.source []).addJ e.target)
          m3.set e.target ((m3.getD e.target []).addJ e.source)
        else m
      | _, _ => m)
    JMap.empty

/-- The core-subgraph partition of force-align: unlike §4.2, the
starts are the core nodes in input order and neighbours are visited in
adjacency insertion order (no sorting), and empty components are not
filtered (each component contains at least its start). -/
def coreComponents (g : Graph) : List (List String) :=
  (dfsAll (fun v => (coreAdjOf g).getD v []) (dfsFuel g)
    ((coreNodesOf g).map (fun n => n.id))).1

/-- One BFS (`bfsFarthest`): explore `allowed` from `start` with a
FIFO queue, recording distances and predecessors.  The fuel is one pop
per allowed node plus the start, which cannot be exhausted since every
enqueued node enters `dist` exactly once. -/
def bfsLoop (adj : JMap JSet) (allowed : JSet) :
    Nat → List String → JMap Nat → JMap String → JMap Nat × JMap String
  | 0, _, dist, prev => (dist, prev)
  | _ + 1, [], dist, prev => (dist, prev)
  | fuel + 1, cur :: queue, dist, prev =>
    let step := (adj.getD cur []).foldl
      (fun (s : List String × JMap Nat × JMap String) nb =>
        if !(JSet.hasJ allowed nb) || s.2.1.contains nb then s
        else (s.1 ++ [nb], s.2.1.set nb ((s.2.1.get cur).getD 0 + 1), s.2.2.set nb cur))
      (queue, dist, prev)
    bfsLoop adj allowed fuel step.1 step.2.1 step.2.2

/-- `bfsFarthest(start, allowed)`: run the BFS, then scan the distance
map in insertion order for the strictly farthest node. -/
def bfsFarthest (adj : JMap JSet) (allowed : JSet) (start : String) :
    String × JMap Nat × JMap String :=
  let r := bfsLoop adj allowed (allowed.length + 1) [start] (JMap.empty.set start 0)
    JMap.empty
  let farthest := r.1.foldl
    (fun f p => if p.2 > (r.1.get f).getD 0 then p.1 else f) start
  (farthest, r.1, r.2)

/-- The `while (cur !== undefined)` backtrack along `prev`, embedded
with fuel; `none` only on fuel exhaustion, which the development shows
unreachable for BFS predecessor maps. -/
def backtrackPrev (prev : JMap String) : Nat → String → List String → Option (List String)
  | 0, _, _ => none
  | fuel + 1, cur, acc =>
    match prev.get cur with
    | none => some (cur :: acc)
    | some p => backtrackPrev prev fuel p (cur :: acc)

/-- `findLongestPath(ids)`: double BFS, then backtrack from the second
farthest node (`[ids[0]]` when the backtrack yields nothing). -/
def findLongestPath (adj : JMap JSet) (ids : List String) : List String :=
  let allowed : JSet := ids.foldl JSet.addJ []
  let first := ids.headD ""
  let r1 := bfsFarthest adj allowed first
  let r2 := bfsFarthest adj allowed r1.1
  let path := (backtrackPrev r2.2.2 (r2.2.2.length + 1) r2.1 []).getD []
  if path.isEmpty then [first] else path

/-- An arc of `computeExtraAngles` (`{start, length, extras,
fraction}`). -/
structure Arc where
  start : ℚ
  len : ℚ
  extras : Int
  fraction : ℚ
deriving DecidableEq, Repr

/-- Floor each arc's proportional share of `extraCount` and record the
fractional part (`remaining` is the leftover). -/
def arcsWithShares (arcs : List Arc) (totalLen : ℚ) (extraCount : Int) :
    List Arc × Int :=
  let shared := arcs.map (fun arc =>
    let ideal := (arc.len / totalLen) * (extraCount : ℚ)
    { arc with extras := ⌊ideal⌋, fraction := ideal - (⌊ideal⌋ : ℚ) })
  (shared, extraCount - shared.foldl (fun s a => s + a.extras) 0)

/-- Hand out `remaining` extra units cycling over the
fraction-descending arc order (`arcs[i % arcs.length].extras += 1`). -/
def distributeRemaining (arcs : List Arc) (remaining : Nat) : List Arc :=
  (List.range remaining).foldl
    (fun arcs i =>
      let idx := i % arcs.length
      arcs.set idx
        (let a := arcs.getD idx ⟨0, 0, 0, 0⟩
         { a with extras := a.extras + 1 }))
    arcs

/-- Subdivide each arc evenly into its `extras` angles (with the
`length ≤ 1e-6` / `extras ≤ 0` guard used by the half-plane branch). -/
def arcsToAngles (arcs : List Arc) (useGuard : Bool) : List ℚ :=
  arcs.foldl
    (fun acc arc =>
      if useGuard ∧ (arc.len ≤ 1/1000000 ∨ arc.extras ≤ 0) then acc
      else
        acc ++ (List.range arc.extras.toNat).map
          (fun k => normalizeAngle (arc.start + arc.len * (((k : ℚ) + 1) / ((arc.extras : ℚ) + 1)))))
    []

/-- `computeExtraAngles(anchors, extraCount, preferredSign)`: split
the preferred half-plane (or the full circle) at the anchor angles,
allocate `extraCount` angles across the arcs by largest-remainder
rounding, and return the evenly subdivided angles, sorted. -/
def computeExtraAngles (anchors : List ℚ) (extraCount : Nat)
    (preferredSign : Int) : List ℚ :=
  if extraCount = 0 then []
  else if preferredSign ≠ 0 then
    let halfStart := if preferredSign > 0 then 0 else jsPI
    let halfEnd := halfStart + jsPI
    let anchorInHalf := jsSort (fun a b => decide (a ≤ b))
      ((anchors.map normalizeAngle).filter (fun a => halfStart ≤ a ∧ a < halfEnd))
    let points := [halfStart] ++ anchorInHalf ++ [halfEnd]
    let arcs0 := (List.range (points.length - 1)).map
      (fun i => Arc.mk (points.getD i 0)
        (points.getD (i + 1) 0 - points.getD i 0) 0 0)
    let totalLen := jsOrQ (arcs0.foldl (fun s a => s + a.len) 0) jsPI
    let shares := arcsWithShares arcs0 totalLen (extraCount : Int)
    let sortedByFraction := jsSort (fun a b => decide (b.fraction ≤ a.fraction)) shares.1
    let distributed := distributeRemaining sortedByFraction shares.2.toNat
    let byStart := jsSort (fun a b => decide (a.start ≤ b.start)) distributed
    let result := arcsToAngles byStart true
    if result.isEmpty then
      jsSort (fun a b => decide (a ≤ b))
        ((List.range extraCount).map
          (fun i => normalizeAngle (halfStart + (jsPI / ((extraCount : ℚ) + 1)) * ((i : ℚ) + 1))))
    else jsSort (fun a b => decide (a ≤ b)) result
  else if anchors.isEmpty then
    (List.range extraCount).map
      (fun i => normalizeAngle ((jsPI * 2 / (extraCount : ℚ)) * (i : ℚ)))
  else
    let sortedAnchors := jsSort (fun a b => decide (a ≤ b)) anchors
    let extended := sortedAnchors ++ [sortedAnchors.headD 0 + jsPI * 2]
    let arcs0 := (List.range sortedAnchors.length).map
      (fun i => Arc.mk (extended.getD i 0)
        (extended.getD (i + 1) 0 - extended.getD i 0) 0 0)
    let totalLen := arcs0.foldl (fun s a => s + a.len) 0
    let shares := arcsWithShares arcs0 totalLen (extraCount : Int)
    let sortedByFraction := jsSort (fun a b => decide (b.fraction ≤ a.fraction)) shares.1
    let distributed := distributeRemaining sortedByFraction shares.2.toNat
    let byStart := jsSort (fun a b => decide (a.start ≤ b.start)) distributed
    jsSort (fun a b => decide (a ≤ b)) (arcsToAngles byStart false)

/-- The entity-partner filter of a relationship's adjacency
(`neighbors.filter(... nodeType === 'entity' && id !== eid)`). -/
def entityOthers (nodeMap : JMap Node) (coreAdj : JMap JSet) (eid rid : String) :
    List String :=
  (coreAdj.getD rid []).filter
    (fun id => (match nodeMap.get id with
      | some n => n.nodeType == "entity" | none => false) && id != eid)

/-- The per-component placement fold of the dequeue body: place each
unplaced relationship component around the entity on its chosen side. -/
def entityPlaceFold (T : JsMath) (radiiCache : JMap ℚ) (entityPos : Point)
    (entityRadius : ℚ) (preferredSign : Int) (anchorAngles : List ℚ)
    (anchorAnglesWithSign : List (ℚ × Int)) (unplacedInfo : List (String × List String))
    (relComponents : List (List String)) (init : JMap Point × JMap Int × Int) :
    JMap Point × JMap Int × Int :=
  relComponents.foldl
    (fun (acc : JMap Point × JMap Int × Int) comp =>
      let cand := fun rid => jsOrI ((acc.2.1).getD rid 0)
        (((((unplacedInfo.find? (fun i => i.1 == rid)).map (fun i => i.2)).getD []).map
          (fun id => (acc.2.1).getD id 0)).find? (fun s => s ≠ 0) |>.getD 0)
      let compSign0 := ((comp.map cand).find? (fun s => s ≠ 0)).getD 0
      let compSign := if compSign0 = 0 then acc.2.2 else compSign0
      let nextAlt := if compSign0 = 0 then -acc.2.2 else acc.2.2
      let anchorsForSide := (anchorAnglesWithSign.filter
        (fun p => if compSign > 0 then p.2 ≥ 0 else p.2 ≤ 0)).map (fun p => p.1)
      let angles := computeExtraAngles
        (if anchorsForSide.isEmpty then anchorAngles else anchorsForSide)
        comp.length compSign
      let res := (sortIds comp).foldl
        (fun (acc2 : (JMap Point × JMap Int) × Nat) rid =>
          let relRadius := radiiCache.getD rid 0
          let angle := match angles.get? (acc2.2 % angles.length) with
            | some a => a
            | none => normalizeAngle
                ((jsPI * (if compSign > 0 then 5/10 else 15/10)) + (acc2.2 : ℚ) * (2/10))
          let dist := entityRadius + relRadius + 40
          let t2 := acc2.1.1.set rid (Point.mk (entityPos.x + T.cos angle * dist)
            (entityPos.y + T.sin angle * dist))
          let sign := jsOrI (jsOrI (jsSign (T.sin angle)) compSign) (jsOrI preferredSign 1)
          let sh2 := if acc2.1.2.contains rid then acc2.1.2 else acc2.1.2.set rid sign
          ((t2, sh2), acc2.2 + 1))
        ((acc.1, acc.2.1), 0)
      (res.1.1, res.1.2, nextAlt))
    init

/-- The guarded-enqueue fold of the dequeue body: reproject each placed
relationship's entity partners and push the ones that receive their
first target (`if (!targets.has(otherId)) { ... queue.push(otherId) }`). -/
def entityEnqueueFold (T : JsMath) (nodeMap : JMap Node) (coreAdj : JMap JSet)
    (radiiCache : JMap ℚ) (eid : String) (entityPos : Point) (entityRadius : ℚ)
    (relNeighbors : List String) (st : JMap Point × JMap Int) :
    JMap Point × JMap Int × List String :=
  relNeighbors.foldl
    (fun (acc : JMap Point × JMap Int × List String) rid =>
      match acc.1.get rid with
      | none => acc
      | some relPos =>
        let relRadius := radiiCache.getD rid 0
        let angle := T.atan2 (relPos.y - entityPos.y) (relPos.x - entityPos.x)
        (entityOthers nodeMap coreAdj eid rid).foldl
          (fun (acc : JMap Point × JMap Int × List String) otherId =>
            if acc.1.contains otherId then acc
            else
              let otherRadius := radiiCache.getD otherId 0
              let dist := entityRadius + relRadius + otherRadius + 80
              let t2 := acc.1.set otherId (Point.mk (entityPos.x + T.cos angle * dist)
                (entityPos.y + T.sin angle * dist))
              let sign := jsOrI (jsOrI (jsOrI (jsSign (T.sin angle)) ((acc.2.1).getD rid 0))
                ((acc.2.1).getD eid 0)) 1
              let sh2 := if (acc.2.1).contains otherId then acc.2.1
                else (acc.2.1).set otherId sign
              (t2, sh2, acc.2.2 ++ [otherId]))
          acc)
    (st.1, st.2, ([] : List String))

/-- One dequeue of the entity placement loop: group the entity's
unplaced relationship neighbours into sub-components, place each
sub-component on its side wedge, then place and enqueue the other
entities of the (now placed) relationship neighbours.  Returns the
updated targets and side hints and the list of pushed entity ids. -/
def entityBody (T : JsMath) (nodeMap : JMap Node) (coreAdj : JMap JSet)
    (radiiCache : JMap ℚ) (fuelDfs : Nat) (eid : String)
    (targets : JMap Point) (sideHint : JMap Int) :
    JMap Point × JMap Int × List String :=
  match nodeMap.get eid, targets.get eid with
  | some _, some entityPos =>
    let entityRadius := radiiCache.getD eid 0
    let preferredSign := sideHint.getD eid 0
    let nextAltSign0 : Int := if preferredSign = 0 then 1 else preferredSign
    let relNeighbors := (coreAdj.getD eid []).filter
      (fun id => match nodeMap.get id with
        | some n => n.nodeType == "relationship" | none => false)
    if relNeighbors.isEmpty then (targets, sideHint, [])
    else
      let anchorRels := relNeighbors.filter (fun rid => targets.contains rid)
      let unplacedRels := relNeighbors.filter (fun rid => !targets.contains rid)
      let anchorAngles := anchorRels.map (fun rid =>
        let rPos := targets.getD rid (Point.mk 0 0)
        normalizeAngle (T.atan2 (rPos.y - entityPos.y) (rPos.x - entityPos.x)))
      let unplacedInfo := unplacedRels.map
        (fun rid => (rid, entityOthers nodeMap coreAdj eid rid))
      let relAdj0 : JMap JSet := unplacedInfo.foldl (fun m p => m.set p.1 []) JMap.empty
      let relAdj := pairFold
        (fun (m : JMap JSet) (a b : String × List String) =>
          let shared := a.2.any (fun x => b.2.contains x)
          let cross := shared ||
            a.2.any (fun x => b.2.any (fun y => JSet.hasJ (coreAdj.getD x []) y))
          if shared || cross then
            let m1 := m.set a.1 ((m.getD a.1 []).addJ b.1)
            m1.set b.1 ((m1.getD b.1 []).addJ a.1)
          else m)
        relAdj0 unplacedInfo
      let relComponents := (dfsAll (fun v => relAdj.getD v []) fuelDfs unplacedRels).1
      let anchorAnglesWithSign := (anchorRels.zip anchorAngles).map
        (fun p => (p.2, jsOrI (sideHint.getD p.1 0) (jsSign (T.sin p.2))))
      let placed := entityPlaceFold T radiiCache entityPos entityRadius preferredSign
        anchorAngles anchorAnglesWithSign unplacedInfo relComponents
        (targets, sideHint, nextAltSign0)
      entityEnqueueFold T nodeMap coreAdj radiiCache eid entityPos entityRadius
        relNeighbors (placed.1, placed.2.1)
  | _, _ => (targets, sideHint, [])

/-- The `while (queue.length)` loop of `layoutComponent`, with fuel
and a dequeue counter; each pushed id receives a target at push time,
so (the termination theorem shows) fuel `|component|` suffices. -/
def entityLoop (T : JsMath) (nodeMap : JMap Node) (coreAdj : JMap JSet)
    (radiiCache : JMap ℚ) (fuelDfs : Nat) :
    Nat → List String → JMap Point → JMap Int → JMap Point × JMap Int × Nat
  | 0, _, targets, sideHint => (targets, sideHint, 0)
  | _ + 1, [], targets, sideHint => (targets, sideHint, 0)
  | fuel + 1, eid :: queue, targets, sideHint =>
    let r := entityBody T nodeMap coreAdj radiiCache fuelDfs eid targets sideHint
    let rest := entityLoop T nodeMap coreAdj radiiCache fuelDfs fuel
      (queue ++ r.2.2) r.1 r.2.1
    (rest.1, rest.2.1, rest.2.2 + 1)

/-- The per-component result of `layoutComponent`. -/
structure CompLayout where
  targets : JMap Point
  minX : ℚ
  maxX : ℚ
  minY : ℚ
  maxY : ℚ
  mainPathSet : JSet
deriving DecidableEq, Repr

/-- `layoutComponent(ids)`: place the main chain left-to-right at
`chainSpacing`, pre-assign branch side signs, run the entity queue,
fall back to last-known positions for anything unplaced, and compute
the radius-padded bounding box. -/
def layoutComponent (T : JsMath) (nodeMap : JMap Node) (coreAdj : JMap JSet)
    (fuelDfs : Nat) (sideHint : JMap Int) (ids : List String) :
    CompLayout × JMap Int :=
  let radiiCache := ids.foldl
    (fun m id => m.set id (((nodeMap.get id).map (getRadiusT T)).getD 0)) JMap.empty
  let maxRadius := listMax (radiiCache.map (fun p => p.2))
  let chainSpacing := max 200 (maxRadius * 2 + 40)
  let mainPath := findLongestPath coreAdj ids
  let startX := -(((mainPath.length : ℚ) - 1) * chainSpacing) / 2
  let chainSt := (mainPath.foldl
    (fun (acc : (JMap Point × JSet × JMap Int) × Nat) id =>
      ((acc.1.1.set id (Point.mk (startX + (acc.2 : ℚ) * chainSpacing) 0),
        JSet.addJ acc.1.2.1 id,
        if (match nodeMap.get id with
          | some n => n.nodeType == "entity" | none => false) = true
        then acc.1.2.2.set id 0 else acc.1.2.2),
        acc.2 + 1))
    ((JMap.empty, JSet.empty, sideHint), 0)).1
  let targets0 := chainSt.1
  let mainPathSet := chainSt.2.1
  let sideHint1 := chainSt.2.2
  let nonMain := ids.filter (fun id => !(JSet.hasJ mainPathSet id))
  let branchRes := nonMain.foldl
    (fun (acc : JSet × JMap Int × Int) id =>
      if JSet.hasJ acc.1 id then acc
      else
        let walk := dfsWalk (fun v => coreAdj.getD v [])
          (fun nb => JSet.hasJ mainPathSet nb) fuelDfs [id] (JSet.addJ acc.1 id) []
        if walk.1.isEmpty then (walk.2, acc.2)
        else
          let anchors := walk.1.foldl
            (fun s nid => (coreAdj.getD nid []).foldl
              (fun s nb => if JSet.hasJ mainPathSet nb then JSet.addJ s nb else s) s)
            JSet.empty
          let compSign1 := ((walk.1.map (fun nid => (acc.2.1).getD nid 0)).find?
            (fun s => s ≠ 0)).getD 0
          let compSign2 := if compSign1 = 0 then
              ((anchors.map (fun aid => (acc.2.1).getD aid 0)).find? (fun s => s ≠ 0)).getD 0
            else compSign1
          let compSign := if compSign2 = 0 then acc.2.2 else compSign2
          let alt2 := if compSign2 = 0 then -acc.2.2 else acc.2.2
          (walk.2, walk.1.foldl (fun sh nid => sh.set nid compSign) acc.2.1, alt2))
    (JSet.empty, sideHint1, 1)
  let sideHint2 := branchRes.2.1
  let queue := mainPath.filter (fun id => match nodeMap.get id with
    | some n => n.nodeType == "entity" | none => false)
  let loopRes := entityLoop T nodeMap coreAdj radiiCache fuelDfs ids.length queue
    targets0 sideHint2
  let targets2 := ids.foldl
    (fun t id =>
      if t.contains id then t
      else t.set id (Point.mk (jsOrQ (((nodeMap.get id).map (fun n => n.x)).getD 0) 0)
        (jsOrQ (((nodeMap.get id).map (fun n => n.y)).getD 0) 0)))
    loopRes.1
  let bounds := (targets2.foldl
    (fun (b : Option (ℚ × ℚ × ℚ × ℚ)) p =>
      let r := radiiCache.getD p.1 0
      match b with
      | none => some (p.2.x - r, p.2.x + r, p.2.y - r, p.2.y + r)
      | some q => some (min q.1 (p.2.x - r), max q.2.1 (p.2.x + r),
          min q.2.2.1 (p.2.y - r), max q.2.2.2 (p.2.y + r)))
    none).getD (0, 0, 0, 0)
  ({ targets := targets2, minX := bounds.1, maxX := bounds.2.1,
     minY := bounds.2.2.1, maxY := bounds.2.2.2, mainPathSet := mainPathSet },
    loopRes.2.1)

/-- Radius of the node behind an id (`getRadius(nodeMap.get(id))`). -/
def nodeRadiusOf (T : JsMath) (nodeMap : JMap Node) (id : String) : ℚ :=
  ((nodeMap.get id).map (getRadiusT T)).getD 0

/-- Relationship neighbours of an entity under the core adjacency. -/
def relNeighborsOf (nodeMap : JMap Node) (coreAdj : JMap JSet) (eid : String) :
    List String :=
  (coreAdj.getD eid []).filter
    (fun id => match nodeMap.get id with
      | some n => n.nodeType == "relationship" | none => false)

/-- Entity neighbours (other than `eid`, when given) of a node. -/
def entNeighborsOf (nodeMap : JMap Node) (coreAdj : JMap JSet) (rid : String) :
    List String :=
  (coreAdj.getD rid []).filter
    (fun id => match nodeMap.get id with
      | some n => n.nodeType == "entity" | none => false)

/-- §4.6 step 6a (`evenSideSpacing`): per entity, split the up/down
relationship sets evenly over their half circles with a per-entity
deterministic jitter; main-chain relationships are filtered out before
placing. -/
def evenSideSpacing (T : JsMath) (g : Graph) (nodeMap : JMap Node) (coreAdj : JMap JSet)
    (mainChainIds : JSet) (st : JMap Point × JMap Int) : JMap Point × JMap Int :=
  ((coreNodesOf g).filter (fun n => n.nodeType == "entity")).foldl
    (fun (st : JMap Point × JMap Int) en =>
      let eid := en.id
      match st.1.get eid with
      | none => st
      | some entityPos =>
        let entityRadius := nodeRadiusOf T nodeMap eid
        let relNeighbors := relNeighborsOf nodeMap coreAdj eid
        if relNeighbors.isEmpty then st
        else
          let signOf := fun (st1 : JMap Point) (sh : JMap Int) rid =>
            jsOrI (jsOrI (sh.getD rid 0)
              (match st1.get rid with
                | some pos => jsSign (pos.y - entityPos.y) | none => 0)) 1
          let up := relNeighbors.filter (fun rid => signOf st.1 st.2 rid ≥ 0)
          let down := relNeighbors.filter (fun rid => !(signOf st.1 st.2 rid ≥ 0))
          let place := fun (st : JMap Point × JMap Int) (list : List String) (sign : Int) =>
            if list.isEmpty then st
            else
              let jitter := (((deterministicHash (eid ++ "-" ++ toString sign) 0) % 1000 : ℚ)
                / 1000) * (35/100) - 175/1000
              let start := (if sign > 0 then (0:ℚ) else jsPI) + jitter
              let step := jsPI / ((list.length : ℚ) + 1)
              let maxRelR := listMax (list.map (nodeRadiusOf T nodeMap))
              let radius := entityRadius + maxRelR + 40
              ((sortIds list).foldl
                (fun (acc : (JMap Point × JMap Int) × Nat) rid =>
                  let ang := start + step * ((acc.2 : ℚ) + 1)
                  ((acc.1.1.set rid (Point.mk (entityPos.x + T.cos ang * radius)
                      (entityPos.y + T.sin ang * radius)),
                    acc.1.2.set rid sign), acc.2 + 1))
                (st, 0)).1
          place (place st (up.filter (fun id => !(JSet.hasJ mainChainIds id))) 1)
            (down.filter (fun id => !(JSet.hasJ mainChainIds id))) (-1))
    st

/-- §4.6 step 6b (`reprojectBranches`): re-project each off-chain
branch entity strictly along its relationship's current angle at the
exact combined-radius distance, preferring to extend. -/
def reprojectBranches (T : JsMath) (g : Graph) (nodeMap : JMap Node)
    (coreAdj : JMap JSet) (mainChainIds : JSet)
    (st : JMap Point × JMap Int) : JMap Point × JMap Int :=
  (((coreNodesOf g).filter (fun n => n.nodeType == "entity")).foldl
    (fun (acc : (JMap Point × JMap Int) × JSet) en =>
      let eid := en.id
      match acc.1.1.get eid with
      | none => acc
      | some ePos =>
        let eRad := nodeRadiusOf T nodeMap eid
        (relNeighborsOf nodeMap coreAdj eid).foldl
          (fun acc rid =>
            match acc.1.1.get rid with
            | none => acc
            | some rPos =>
              if JSet.hasJ mainChainIds rid then acc
              else
                let rRad := nodeRadiusOf T nodeMap rid
                let ang := T.atan2 (rPos.y - ePos.y) (rPos.x - ePos.x)
                ((entNeighborsOf nodeMap coreAdj rid).filter (fun id => id != eid)).foldl
                  (fun (acc : (JMap Point × JMap Int) × JSet) oid =>
                    if JSet.hasJ mainChainIds oid then acc
                    else
                      match nodeMap.get oid with
                      | none => acc
                      | some oNode =>
                        let oRad := getRadiusT T oNode
                        let dist := eRad + rRad + oRad + 80
                        let newPos := Point.mk (ePos.x + T.cos ang * dist)
                          (ePos.y + T.sin ang * dist)
                        let t2 := match acc.1.1.get oid with
                          | none => acc.1.1.set oid newPos
                          | some existing =>
                            if JSet.hasJ acc.2 oid then acc.1.1.set oid newPos
                            else if dist > T.hypot (existing.x - ePos.x) (existing.y - ePos.y)
                            then acc.1.1.set oid newPos
                            else acc.1.1
                        let sign := jsOrI (jsOrI (jsSign (T.sin ang)) (acc.1.2.getD rid 0))
                          (jsOrI (acc.1.2.getD eid 0) 1)
                        ((t2, acc.1.2.set oid sign), JSet.addJ acc.2 oid))
                  acc)
          acc)
    (st, JSet.empty)).1

/-- §4.6 step 6c (`enforceLocalTriplets`): for every off-chain diamond
with exactly two entity neighbours, move the farther entity onto the
nearer-anchor-through-diamond ray at the combined-radius distance. -/
def enforceLocalTriplets (T : JsMath) (g : Graph) (nodeMap : JMap Node)
    (coreAdj : JMap JSet) (mainChainIds : JSet) (targets : JMap Point) : JMap Point :=
  (coreNodesOf g).foldl
    (fun targets rn =>
      if rn.nodeType != "relationship" then targets
      else
        match entNeighborsOf nodeMap coreAdj rn.id with
        | [e1, e2] =>
          if JSet.hasJ mainChainIds e1 && JSet.hasJ mainChainIds e2
            && JSet.hasJ mainChainIds rn.id then targets
          else
            match targets.get rn.id, targets.get e1, targets.get e2 with
            | some pR, some p1, some p2 =>
              let d1 := T.hypot (pR.x - p1.x) (pR.y - p1.y)
              let d2 := T.hypot (pR.x - p2.x) (pR.y - p2.y)
              let anchor := if d1 ≤ d2 then p1 else p2
              let moveTarget := if d1 ≤ d2 then e2 else e1
              if JSet.hasJ mainChainIds moveTarget then targets
              else
                let dx := pR.x - anchor.x
                let dy := pR.y - anchor.y
                let len := distOr1 T dx dy
                let ux := dx / len
                let uy := dy / len
                let moveRad := nodeRadiusOf T nodeMap moveTarget
                targets.set moveTarget
                  (Point.mk (pR.x + ux * (moveRad + getRadiusT T rn + 20))
                    (pR.y + uy * (moveRad + getRadiusT T rn + 20)))
            | _, _, _ => targets
        | _ => targets)
    targets

/-- §4.6 step 6d (`adjustRelationshipMidpoints`): snap each off-chain
two-neighbour diamond to the exact entity-pair midpoint when the pair
is far enough apart. -/
def adjustRelationshipMidpoints (T : JsMath) (g : Graph) (nodeMap : JMap Node)
    (coreAdj : JMap JSet) (mainChainIds : JSet) (targets : JMap Point) : JMap Point :=
  (coreNodesOf g).foldl
    (fun targets rn =>
      if rn.nodeType != "relationship" then targets
      else if JSet.hasJ mainChainIds rn.id then targets
      else
        match entNeighborsOf nodeMap coreAdj rn.id with
        | [e1, e2] =>
          match targets.get e1, targets.get e2 with
          | some p1, some p2 =>
            let dist := T.hypot (p2.x - p1.x) (p2.y - p1.y)
            if dist = 0 then targets
            else
              let rRel := getRadiusT T rn
              let r1 := nodeRadiusOf T nodeMap e1
              let r2 := nodeRadiusOf T nodeMap e2
              let minSpan := r1 + r2 + rRel * 2 + 40
              if dist < minSpan then targets
              else targets.set rn.id (Point.mk ((p1.x + p2.x) / 2) ((p1.y + p2.y) / 2))
          | _, _ => targets
        | _ => targets)
    targets

/-- §4.6 step 7: place the attributes of each entity around its ring,
ordered by id, preferring angular slots at least 0.12 rad away from
every relationship anchor angle, with deterministic jitter. -/
def placeAttributes (T : JsMath) (g : Graph) (nodeMap : JMap Node)
    (coreAdj : JMap JSet) (targets : JMap Point) : JMap Point :=
  (entityAttrsOf g).foldl
    (fun targets p =>
      let eid := p.1
      let attrs := p.2
      match targets.get eid with
      | none => targets
      | some center =>
        if attrs.isEmpty then targets
        else
          let entityR := nodeRadiusOf T nodeMap eid
          let attrR := listMax (attrs.map (getRadiusT T))
          let baseRing := entityR + attrR + 8
          let relAngles := (relNeighborsOf nodeMap coreAdj eid).map
            (fun rid => match targets.get rid with
              | some rp => normalizeAngle (T.atan2 (rp.y - center.y) (rp.x - center.x))
              | none => 0)
          let step := jsPI * 2 / (attrs.length : ℚ)
          ((jsSort (fun a b => !strLtB b.id a.id) attrs).foldl
            (fun (acc : JMap Point × Nat) attrNode =>
              let seed := ((deterministicHash attrNode.id acc.2 % 1000 : ℚ)) / 1000
              let angle0 := normalizeAngle (step * (acc.2 : ℚ) + step * (35/100)
                + (seed - 5/10) * (2/10))
              let tooClose := fun (candidate : ℚ) => relAngles.any
                (fun ra =>
                  let diff := |candidate - ra|
                  decide (min diff (jsPI * 2 - diff) < 12/100))
              let angle := match (List.range attrs.length).find?
                  (fun t => !(tooClose (normalizeAngle
                    (angle0 + (t : ℚ) * (step / ((attrs.length : ℚ) + 1)))))) with
                | some t => normalizeAngle (angle0 + (t : ℚ) * (step / ((attrs.length : ℚ) + 1)))
                | none => angle0
              (acc.1.set attrNode.id (Point.mk (center.x + T.cos angle * baseRing)
                (center.y + T.sin angle * baseRing)), acc.2 + 1))
            (targets, 0)).1)
    targets

/-- §4.6 step 8 (`resolveCoreOverlaps`), one pair update: min distance
= sum of radii + 14; a main-chain node receives zero push, and its
partner absorbs the whole overlap. -/
def corePairStep (T : JsMath) (mainChainIds : JSet)
    (st : JMap Point × ℚ) (a b : String × ℚ) : JMap Point × ℚ :=
  match st.1.get a.1 with
  | none => st
  | some pa =>
    match st.1.get b.1 with
    | none => st
    | some pb =>
      let dx := pb.x - pa.x
      let dy := pb.y - pa.y
      let dist := distSafe T dx dy
      let minDist := a.2 + b.2 + 14
      if dist < minDist then
        let overlap := minDist - dist
        let pushA := if JSet.hasJ mainChainIds a.1 then 0
          else overlap / (if JSet.hasJ mainChainIds b.1 then 1 else 2)
        let pushB := if JSet.hasJ mainChainIds b.1 then 0
          else overlap / (if JSet.hasJ mainChainIds a.1 then 1 else 2)
        let nx := dx / dist
        let ny := dy / dist
        ((st.1.set a.1 (Point.mk (pa.x - nx * pushA) (pa.y - ny * pushA))).set b.1
          (Point.mk (pb.x + nx * pushB) (pb.y + ny * pushB)),
          max st.2 (max pushA pushB))
      else st

/-- The ≤ 120 iterations of `resolveCoreOverlaps` (early exit when the
largest push drops below 0.5). -/
def resolveCoreOverlaps (T : JsMath) (mainChainIds : JSet)
    (meta : List (String × ℚ)) : Nat → JMap Point → JMap Point
  | 0, targets => targets
  | fuel + 1, targets =>
    if (pairFold (corePairStep T mainChainIds) (targets, 0) meta).2 < 5/10 then
      (pairFold (corePairStep T mainChainIds) (targets, 0) meta).1
    else
      resolveCoreOverlaps T mainChainIds meta fuel
        (pairFold (corePairStep T mainChainIds) (targets, 0) meta).1

/-- §4.6 step 2 tiling: place component bounding boxes left to right
with a 240 gap, wrapping to a new row when the cursor passes
`containerWidth - 120`; returns the offset global targets and the
union of the main-chain id sets. -/
def tileComponents (containerWidth : ℚ) (layouts : List CompLayout) :
    JMap Point × JSet :=
  (layouts.foldl
    (fun (acc : (JMap Point × JSet) × ℚ × ℚ × ℚ) layout =>
      let width := (layout.maxX - layout.minX) + 240
      let height := (layout.maxY - layout.minY) + 240
      let cur := if acc.2.1 + width > containerWidth - 120
        then ((240 : ℚ), acc.2.2.1 + acc.2.2.2 + 240, (0 : ℚ))
        else acc.2
      let offsetX := cur.1 - layout.minX
      let offsetY := cur.2.1 - layout.minY
      let gt := layout.targets.foldl
        (fun (gt : JMap Point) p =>
          gt.set p.1 (Point.mk (p.2.x + offsetX) (p.2.y + offsetY)))
        acc.1.1
      let mc := layout.mainPathSet.foldl JSet.addJ acc.1.2
      ((gt, mc), cur.1 + width, cur.2.1, max cur.2.2 height))
    ((JMap.empty, JSet.empty), 240, 240, 0)).1

/-- `mainAnchorPos`: snapshot of the tiled positions of the main-chain
ids (those that have one). -/
def mainAnchorPosOf (mainChainIds : JSet) (globalTargets : JMap Point) : JMap Point :=
  mainChainIds.foldl
    (fun (m : JMap Point) id =>
      match globalTargets.get id with
      | some p => m.set id p
      | none => m)
    JMap.empty

/-- Final restore: overwrite every anchored main-chain id with its
snapshot position. -/
def restoreAnchors (mainAnchorPos : JMap Point) (targets : JMap Point) : JMap Point :=
  mainAnchorPos.foldl (fun (t : JMap Point) p => t.set p.1 p.2) targets

/-- Fill pass of force-align: any node still missing a target gets its
current model position (`x || 0`, `y || 0`). -/
def faFill (g : Graph) (targets : JMap Point) : JMap Point :=
  g.nodes.foldl
    (fun (t : JMap Point) n =>
      if t.contains n.id then t
      else t.set n.id (Point.mk (jsOrQ n.x 0) (jsOrQ n.y 0)))
    targets

/-- The observable outcome of `forceAlignLayout`: the final targets,
the main-chain id set, and the tiled anchor snapshot the chain is
restored to. -/
structure FAResult where
  targets : JMap Point
  mainChainIds : JSet
  anchors : JMap Point
deriving Repr

/-- `forceAlignLayout(graph, containerWidth)` (§4.6): guards, per-component
layout with `sideHint` threaded through, tiling, anchor snapshot, the four
adjustment passes, attribute placement, fill, overlap resolution, and the
final anchor restore. -/
def forceAlignLayout (T : JsMath) (g : Graph) (containerWidth : ℚ) : Option FAResult :=
  if g.nodes.isEmpty then none
  else
    let nodeMap := nodeMapOf g
    let coreNodes := coreNodesOf g
    if coreNodes.isEmpty then none
    else
      let coreAdj := coreAdjOf g
      if coreAdj.isEmpty then none
      else
        let layoutRes := (coreComponents g).foldl
          (fun (acc : List CompLayout × JMap Int) ids =>
            let r := layoutComponent T nodeMap coreAdj (dfsFuel g) acc.2 ids
            (acc.1 ++ [r.1], r.2))
          ([], JMap.empty)
        let tiled := tileComponents containerWidth layoutRes.1
        let mainChainIds := tiled.2
        let mainAnchorPos := mainAnchorPosOf mainChainIds tiled.1
        let st1 := evenSideSpacing T g nodeMap coreAdj mainChainIds (tiled.1, layoutRes.2)
        let st2 := reprojectBranches T g nodeMap coreAdj mainChainIds st1
        let t3 := enforceLocalTriplets T g nodeMap coreAdj mainChainIds st2.1
        let t4 := adjustRelationshipMidpoints T g nodeMap coreAdj mainChainIds t3
        let t5 := placeAttributes T g nodeMap coreAdj t4
        let t6 := faFill g t5
        let meta := coreNodes.map (fun n => (n.id, nodeRadiusOf T nodeMap n.id))
        let t7 := resolveCoreOverlaps T mainChainIds meta 120 t6
        some { targets := restoreAnchors mainAnchorPos t7,
               mainChainIds := mainChainIds,
               anchors := mainAnchorPos }

/-! ## C9: the epsilon-guarded force divisors -/

/-- **C9.** Every pairwise attraction/repulsion computation of the
arrange and force-align layouts divides by `distSafe`
(`dist === 0 ? 0.01 : dist`, used by `applyGlobalSeparation` and
`resolveCoreOverlaps`) or by `distOr1` (`Math.hypot(dx,dy) || 1`, used
by the spring, clearance, triplet and midpoint passes), and neither
divisor is ever zero — coincident points receive the epsilon
substitute, so the division-by-zero branch is unreachable for every
input. -/
theorem force_divisors_nonzero : ∀ (T : JsMath) (dx dy : ℚ),
    distSafe T dx dy ≠ 0 ∧ distOr1 T dx dy ≠ 0 := by
  intro T dx dy
  constructor
  · unfold distSafe
    split_ifs with h
    · norm_num
    · exact h
  · unfold distOr1 jsOrQ
    split_ifs with h
    · norm_num
    · exact h

/-! ## C2: determinism of the four layouts -/

/-- A degenerate `Math` record for concrete evaluation: all library
calls return `0`. -/
def T0 : JsMath :=
  { sin := fun _ => 0, cos := fun _ => 0, sqrt := fun _ => 0,
    atan2 := fun _ _ => 0, hypot := fun _ _ => 0 }

/-- A minimal concrete snapshot. -/
def gC2 : Graph := { nodes := [], edges := [], width := 0, height := 0 }

/-- **C2.** Each layout computation is a pure function of
`(nodes, edges, seed, container bounds)` (together with the `Math`
record `T`): two invocations on graphs with identical fields return
identical target maps, and the only pseudorandom source,
`deterministicRandom`, is the seeded hash/sine fraction, whose value
always lies in `[-1/2, 1/2)`. -/
theorem layout_determinism :
    ∀ (T : JsMath) (g1 g2 : Graph) (nodes : List Node) (edges : List Edge)
      (cw ch w seed extra : ℚ) (s : Int),
      g1.nodes = g2.nodes → g1.edges = g2.edges → g1.width = g2.width →
      g1.height = g2.height →
      (applyInitialComponentPositions T nodes edges cw ch s
          = applyInitialComponentPositions T nodes edges cw ch s
        ∧ spreadDisconnectedComponents T g1 = spreadDisconnectedComponents T g2
        ∧ arrangeLayout T g1 = arrangeLayout T g2
        ∧ forceAlignLayout T g1 w = forceAlignLayout T g2 w)
      ∧ (-(1/2) ≤ deterministicRandom T seed extra
        ∧ deterministicRandom T seed extra < 1/2) := by
  intro T g1 g2 nodes edges cw ch w seed extra s h1 h2 h3 h4
  obtain ⟨n1, e1, w1, ht1⟩ := g1
  obtain ⟨n2, e2, w2, ht2⟩ := g2
  simp only at h1 h2 h3 h4
  subst h1; subst h2; subst h3; subst h4
  refine ⟨⟨rfl, rfl, rfl, rfl⟩, ?_, ?_⟩
  · have h := Int.fract_nonneg (T.sin (seed + extra * 1000) * 10000)
    unfold Int.fract at h
    unfold deterministicRandom
    linarith
  · have h := Int.fract_lt_one (T.sin (seed + extra * 1000) * 10000)
    unfold Int.fract at h
    unfold deterministicRandom
    linarith

/-- **C2, witness.**  The determinism theorem applied to the concrete
snapshot `gC2` and the degenerate `Math` record. -/
theorem layout_determinism_witness :
    (gC2.nodes = gC2.nodes)
      ∧ (-(1/2) ≤ deterministicRandom T0 0 0 ∧ deterministicRandom T0 0 0 < 1/2) :=
  ⟨rfl, (layout_determinism T0 gC2 gC2 [] [] 0 0 0 0 0 0 rfl rfl rfl rfl).2⟩

/-! ## C5: the three component decompositions versus the sorted-traversal spec -/

theorem map_insertLe {α β : Type} (f : α → β) (le : β → β → Bool) (a : α) :
    ∀ (l : List α), (insertLe (fun x y => le (f x) (f y)) a l).map f
      = insertLe le (f a) (l.map f) := by
  intro l
  induction l with
  | nil => rfl
  | cons b t ih =>
    simp only [insertLe, List.map_cons]
    by_cases h : le (f a) (f b)
    · simp [h]
    · simp [h, ih]

theorem map_jsSort {α β : Type} (f : α → β) (le : β → β → Bool) :
    ∀ (l : List α), (jsSort (fun x y => le (f x) (f y)) l).map f
      = jsSort le (l.map f) := by
  intro l
  induction l with
  | nil => rfl
  | cons a t ih =>
    simp only [jsSort, List.map_cons]
    rw [← ih, map_insertLe]

theorem map_id_filterMap_find (nodes : List Node) :
    ∀ comp : List String,
      (comp.filterMap (fun cid => nodes.find? (fun n => n.id == cid))).map Node.id
        = comp.filter (fun cid => decide (cid ∈ nodes.map Node.id)) := by
  intro comp
  induction comp with
  | nil => rfl
  | cons cid rest ih =>
    simp only [List.filterMap_cons, List.filter_cons]
    cases h : nodes.find? (fun n => n.id == cid) with
    | none =>
      have hnotmem : cid ∉ nodes.map Node.id := by
        intro hmem
        obtain ⟨n, hn, hid⟩ := List.mem_map.mp hmem
        have := List.find?_eq_none.mp h n hn
        simp [hid] at this
      simp [hnotmem, ih]
    | some nd =>
      have hid : nd.id = cid := by
        have := List.find?_some h
        simpa using this
      have hmem : cid ∈ nodes.map Node.id :=
        hid ▸ List.mem_map_of_mem Node.id (List.mem_of_find?_eq_some h)
      simp [hmem, ih, hid]

theorem isEmpty_map {α β : Type} (f : α → β) (l : List α) :
    (l.map f).isEmpty = l.isEmpty := by
  cases l <;> rfl

theorem components_collect_eq (X : List (List String)) (nodes : List Node) :
    ((X.map (fun comp => comp.filterMap (fun cid => nodes.find? (fun n => n.id == cid)))).filter
        (fun comp => !comp.isEmpty)).map (List.map Node.id)
      = (X.map (fun comp => comp.filter (fun cid => decide (cid ∈ nodes.map Node.id)))).filter
        (fun comp => !comp.isEmpty) := by
  induction X with
  | nil => rfl
  | cons comp rest ih =>
    simp only [List.map_cons, List.filter_cons]
    have hc := map_id_filterMap_find nodes comp
    have hem : ((comp.filterMap (fun cid => nodes.find? (fun n => n.id == cid))).isEmpty)
        = ((comp.filter (fun cid => decide (cid ∈ nodes.map Node.id))).isEmpty) := by
      rw [← hc, isEmpty_map]
    cases h : (comp.filter (fun cid => decide (cid ∈ nodes.map Node.id))).isEmpty with
    | true =>
      rw [hem, h]
      simp only [Bool.not_true]
      rw [if_neg (by simp), if_neg (by simp)]
      exact ih
    | false =>
      rw [hem, h]
      simp only [Bool.not_false, if_true]
      simp only [List.map_cons]
      rw [hc, ih]

/-- The input-order snapshot separating force-align's partition from
the sorted traversal: nodes arrive as `b, d, a, c` with edges `b–d`
and `a–c`. -/
def gC5 : Graph :=
  { nodes := [{ id := "b", nodeType := "entity", x := 0, y := 0, bw := 0, bh := 0 },
              { id := "d", nodeType := "entity", x := 0, y := 0, bw := 0, bh := 0 },
              { id := "a", nodeType := "entity", x := 0, y := 0, bw := 0, bh := 0 },
              { id := "c", nodeType := "entity", x := 0, y := 0, bw := 0, bh := 0 }],
    edges := [{ source := "b", target := "d" }, { source := "a", target := "c" }],
    width := 0, height := 0 }

/-- **C5, counterexample.**  Force-align's core partition
(`coreComponents`, source lines 77–99) enumerates start nodes in input
order and neighbours in adjacency insertion order — it does not sort —
so on `gC5` it returns the components in a different order than the
sorted traversal the claim describes for all three sites. -/
theorem coreComponents_not_sorted_counterexample :
    coreComponents gC5 = [["b", "d"], ["a", "c"]]
      ∧ specSortedComponents (gC5.nodes.map Node.id) gC5.edges = [["a", "c"], ["b", "d"]]
      ∧ coreComponents gC5 ≠ specSortedComponents (gC5.nodes.map Node.id) gC5.edges := by
  exact ⟨by decide, by decide, by decide⟩

/-- **C5, amended.**  The decompositions of initial placement and of
component spread do traverse via a depth-first stack from
lexicographically sorted unvisited ids with sorted neighbour order —
both equal the spec-worded `specSortedComponents` on every input — but
force-align's core partition does not sort its starts or neighbours
(see the counterexample), so the claim holds only for the first two of
the three cited sites. -/
theorem sorted_components_amended (nodes : List Node) (edges : List Edge) (g : Graph) :
    (initComponents nodes edges).map (List.map Node.id)
      = specSortedComponents (nodes.map Node.id) edges
    ∧ (spreadComponents g).map (List.map Node.id)
      = specSortedComponents (g.nodes.map Node.id) g.edges := by
  constructor
  · simp only [initComponents, specSortedComponents, List.length_map]
    have horder : (jsSort (fun a b => !strLtB b.id a.id) nodes).map (fun n => n.id)
        = sortIds (nodes.map Node.id) :=
      map_jsSort (fun n => n.id) (fun a b => !strLtB b a) nodes
    rw [horder]
    exact components_collect_eq _ nodes
  · simp only [spreadComponents, specSortedComponents, dfsFuel, Graph.findNode,
      List.length_map]
    have horder : (jsSort (fun a b => !strLtB b.id a.id) g.nodes).map (fun n => n.id)
        = sortIds (g.nodes.map Node.id) :=
      map_jsSort (fun n => n.id) (fun a b => !strLtB b a) g.nodes
    rw [horder]
    exact components_collect_eq _ g.nodes

/-! ## C1: completeness of the returned target maps -/

/-- The claim's completeness property as a checkable predicate: the
target map holds an entry for every input node id. -/
def targetsComplete (g : Graph) (t : JMap Point) : Bool :=
  g.nodes.all (fun n => t.contains n.id)

theorem JMap.contains_set_ne {β : Type} (m : JMap β) (k k' : String) (v : β)
    (h : k' ≠ k) : (m.set k v).contains k' = m.contains k' := by
  by_cases hc : m.contains k' = true
  · rw [JMap.contains_set_mono m k k' v hc, hc]
  · have h1 : ((m.set k v).get k').isSome = (m.get k').isSome := by
      rw [JMap.get_set_ne m k k' v h]
    by_cases hc2 : (m.set k v).contains k' = true
    · exact absurd ((JMap.contains_iff_get m k').mpr
        (h1 ▸ (JMap.contains_iff_get (m.set k v) k').mp hc2)) hc
    · rw [Bool.eq_false_iff.mpr hc2, Bool.eq_false_iff.mpr hc]

theorem fillFold_get_stable (v : Node → Point) :
    ∀ (rest : List Node) (t : JMap Point) (k : String), k ∉ rest.map Node.id →
      (rest.foldl (fun t n => if t.contains n.id then t else t.set n.id (v n)) t).get k
        = t.get k := by
  intro rest
  induction rest with
  | nil => intro t k _; rfl
  | cons m tail ih =>
    intro t k hk
    simp only [List.map_cons, List.mem_cons, not_or] at hk
    simp only [List.foldl_cons]
    rw [ih _ k hk.2]
    split
    · rfl
    · exact JMap.get_set_ne t m.id k (v m) hk.1

theorem fillFold_get (v : Node → Point) :
    ∀ (nodes : List Node) (t : JMap Point) (n : Node),
      n ∈ nodes → (nodes.map Node.id).Nodup → t.contains n.id = false →
      (nodes.foldl (fun t n => if t.contains n.id then t else t.set n.id (v n)) t).get n.id
        = some (v n) := by
  intro nodes
  induction nodes with
  | nil => intro t n hn; simp at hn
  | cons m tail ih =>
    intro t n hn hnd hf
    simp only [List.map_cons, List.nodup_cons] at hnd
    simp only [List.foldl_cons]
    rcases List.mem_cons.mp hn with h | h
    · subst h
      rw [if_neg (by rw [hf]; simp)]
      rw [fillFold_get_stable v tail _ n.id hnd.1]
      exact JMap.get_set_self t n.id (v n)
    · have hne : n.id ≠ m.id := by
        intro he
        exact hnd.1 (he ▸ List.mem_map_of_mem Node.id h)
      have hf2 : ∀ t' : JMap Point,
          t'.contains n.id = false →
          (if t'.contains m.id then t' else t'.set m.id (v m)).contains n.id = false := by
        intro t' h'
        split
        · exact h'
        · rw [JMap.contains_set_ne t' m.id n.id (v m) hne, h']
      exact ih _ n h hnd.2 (hf2 t hf)

theorem find_node_self :
    ∀ (nodes : List Node) (n : Node), (nodes.map Node.id).Nodup → n ∈ nodes →
      nodes.find? (fun m => m.id == n.id) = some n := by
  intro nodes
  induction nodes with
  | nil => intro n _ hn; simp at hn
  | cons m tail ih =>
    intro n hnd hn
    simp only [List.map_cons, List.nodup_cons] at hnd
    rcases List.mem_cons.mp hn with h | h
    · subst h
      simp [List.find?_cons]
    · have hne : (m.id == n.id) = false := by
        simp only [beq_eq_false_iff_ne]
        intro he
        exact hnd.1 (he ▸ List.mem_map_of_mem Node.id h)
      simp only [List.find?_cons, hne]
      exact ih n hnd.2 h

theorem findNode_self (g : Graph) (n : Node)
    (hnd : (g.nodes.map Node.id).Nodup) (hn : n ∈ g.nodes) :
    g.findNode n.id = some n := by
  unfold Graph.findNode
  exact find_node_self g.nodes n hnd hn

theorem faFill_contains (g : Graph) (targets : JMap Point) :
    ∀ n ∈ g.nodes, (faFill g targets).contains n.id = true := by
  unfold faFill
  suffices h : ∀ (l : List Node) (t : JMap Point) (n : Node), n ∈ l →
      (l.foldl (fun t n =>
        if t.contains n.id then t
        else t.set n.id (Point.mk (jsOrQ n.x 0) (jsOrQ n.y 0))) t).contains n.id = true by
    intro n hn
    exact h g.nodes targets n hn
  intro l
  induction l with
  | nil => intro t n hn; simp at hn
  | cons m rest ih =>
    intro t n hn
    simp only [List.foldl_cons]
    rcases List.mem_cons.mp hn with h | h
    · subst h
      apply foldl_preserves _ (fun t => JMap.contains t n.id = true)
      · intro st a hst
        dsimp only
        split
        · exact hst
        · exact JMap.contains_set_mono _ _ _ _ hst
      · dsimp only
        split
        · next hc => exact hc
        · exact JMap.contains_set_self _ _ _
    · exact ih _ n h

theorem corePairStep_preserves_contains (T : JsMath) (M : JSet) (k : String)
    (st : JMap Point × ℚ) (a b : String × ℚ) (h : st.1.contains k = true) :
    (corePairStep T M st a b).1.contains k = true := by
  unfold corePairStep
  cases st.1.get a.1 with
  | none => exact h
  | some pa =>
    cases st.1.get b.1 with
    | none => exact h
    | some pb =>
      dsimp only
      split
      · exact JMap.contains_set_mono _ _ _ _ (JMap.contains_set_mono _ _ _ _ h)
      · exact h

theorem resolveCoreOverlaps_preserves_contains (T : JsMath) (M : JSet)
    (meta : List (String × ℚ)) (k : String) :
    ∀ (fuel : Nat) (t : JMap Point), t.contains k = true →
      (resolveCoreOverlaps T M meta fuel t).contains k = true := by
  intro fuel
  induction fuel with
  | zero => intro t h; exact h
  | succ fuel ih =>
    intro t h
    have hpass : ((pairFold (corePairStep T M) (t, 0) meta).1).contains k = true :=
      pairFold_preserves (corePairStep T M) (fun st => st.1.contains k = true)
        (fun st a b hst => corePairStep_preserves_contains T M k st a b hst) meta (t, 0) h
    unfold resolveCoreOverlaps
    split
    · exact hpass
    · exact ih _ hpass

theorem restoreAnchors_preserves_contains (A : JMap Point) (t : JMap Point) (k : String)
    (h : t.contains k = true) : (restoreAnchors A t).contains k = true := by
  unfold restoreAnchors
  exact foldl_preserves _ (fun t => JMap.contains t k = true)
    (fun st p hst => JMap.contains_set_mono _ _ _ _ hst) A t h

/-- A two-node core snapshot (entity `e1` wired to relationship `r1`). -/
def nC1e : Node := { id := "e1", nodeType := "entity", x := 3, y := 4, bw := 0, bh := 0 }

def nC1r : Node := { id := "r1", nodeType := "relationship", x := 0, y := 0, bw := 0, bh := 0 }

def gC1 : Graph :=
  { nodes := [nC1e, nC1r], edges := [{ source := "e1", target := "r1" }],
    width := 0, height := 0 }

/-- **C1.** Whenever arrange layout or force-align layout returns a
target map, that map contains an entry for every input node id, and
the final fill passes give any node that received no computed target
its last-known model position (`x || 0`, `y || 0`). -/
theorem layout_target_completeness (T : JsMath) (g : Graph) (w : ℚ)
    (t : JMap Point) (n : Node) :
    ((arrangeLayout T g).map (targetsComplete g)).getD true = true
    ∧ ((forceAlignLayout T g w).map (fun r => targetsComplete g r.targets)).getD true = true
    ∧ (n ∈ g.nodes → (g.nodes.map Node.id).Nodup → t.contains n.id = false →
        (arrangeFill g t).get n.id = some (Point.mk (jsOrQ n.x 0) (jsOrQ n.y 0))
        ∧ (faFill g t).get n.id = some (Point.mk (jsOrQ n.x 0) (jsOrQ n.y 0))) := by
  refine ⟨?_, ?_, ?_⟩
  · unfold arrangeLayout
    split
    · rfl
    · simp only [Option.map_some', Option.getD_some, targetsComplete, List.all_eq_true]
      intro m hm
      exact arrangeTargets_contains T g m hm
  · simp only [forceAlignLayout]
    split_ifs with h1 h2 h3
    · rfl
    · rfl
    · rfl
    · simp only [Option.map_some', Option.getD_some, targetsComplete, List.all_eq_true]
      intro m hm
      exact restoreAnchors_preserves_contains _ _ _
        (resolveCoreOverlaps_preserves_contains T _ _ m.id 120 _
          (faFill_contains g _ m hm))
  · intro hn hnd hf
    constructor
    · unfold arrangeFill
      refine (fillFold_get _ g.nodes t n hn hnd hf).trans ?_
      rw [findNode_self g n hnd hn]
    · unfold faFill
      exact fillFold_get _ g.nodes t n hn hnd hf

/-- **C1, witness.**  The fill conjunct instantiated on the concrete
snapshot `gC1`, the empty target map and the entity node `e1`. -/
theorem layout_target_completeness_witness :
    (nC1e ∈ gC1.nodes ∧ (gC1.nodes.map Node.id).Nodup
        ∧ (JMap.empty : JMap Point).contains nC1e.id = false)
    ∧ (arrangeFill gC1 JMap.empty).get nC1e.id
        = some (Point.mk (jsOrQ nC1e.x 0) (jsOrQ nC1e.y 0)) :=
  ⟨⟨by decide, by decide, by decide⟩,
    ((layout_target_completeness T0 gC1 0 JMap.empty nC1e).2.2
      (by decide) (by decide) (by decide)).1⟩

/-! ## C3: main-chain invariance in force-align -/

theorem JMap.keys_set {β : Type} (m : JMap β) (k : String) (v : β) :
    (m.set k v).map Prod.fst
      = if m.contains k then m.map Prod.fst else m.map Prod.fst ++ [k] := by
  unfold JMap.set
  split
  · rw [List.map_map]
    apply List.map_congr_left
    intro p _
    by_cases h : (p.1 == k) = true
    · simp only [Function.comp_apply, h, if_true]
      exact (eq_of_beq h).symm
    · have hne : p.1 ≠ k := by simpa using h
      simp [h, hne]
  · rw [List.map_append]
    rfl

theorem JMap.not_contains_iff_keys {β : Type} (m : JMap β) (k : String) :
    m.contains k = false ↔ k ∉ m.map Prod.fst := by
  unfold JMap.contains
  rw [← Bool.not_eq_true, List.any_eq_true]
  constructor
  · intro h hk
    obtain ⟨p, hp, hpk⟩ := List.mem_map.mp hk
    exact h ⟨p, hp, by simp [hpk]⟩
  · intro h hex
    obtain ⟨p, hp, hpk⟩ := hex
    exact h (List.mem_map.mpr ⟨p, hp, eq_of_beq hpk⟩)

theorem JMap.nodup_keys_set {β : Type} (m : JMap β) (k : String) (v : β)
    (h : (m.map Prod.fst).Nodup) : ((m.set k v).map Prod.fst).Nodup := by
  rw [JMap.keys_set]
  split
  · exact h
  · next hc =>
    rw [List.nodup_append]
    refine ⟨h, List.nodup_singleton k, ?_⟩
    intro x hx hk
    simp only [List.mem_singleton] at hk
    subst hk
    exact (JMap.not_contains_iff_keys m x).mp (Bool.eq_false_iff.mpr hc) hx

theorem mainAnchorPosOf_keys_nodup (M : JSet) (gt : JMap Point) :
    ((mainAnchorPosOf M gt).map Prod.fst).Nodup := by
  unfold mainAnchorPosOf
  apply foldl_preserves _ (fun m : JMap Point => (m.map Prod.fst).Nodup)
  · intro st a hst
    dsimp only
    cases gt.get a with
    | none => exact hst
    | some p => exact JMap.nodup_keys_set st a p hst
  · simp [JMap.empty]

theorem setFold_get_not_mem :
    ∀ (A : List (String × Point)) (t : JMap Point) (k : String),
      k ∉ A.map Prod.fst →
      (A.foldl (fun t p => t.set p.1 p.2) t).get k = t.get k := by
  intro A
  induction A with
  | nil => intro t k _; rfl
  | cons q rest ih =>
    intro t k hk
    simp only [List.map_cons, List.mem_cons, not_or] at hk
    simp only [List.foldl_cons]
    rw [ih _ k hk.2]
    exact JMap.get_set_ne t q.1 k q.2 hk.1

theorem restoreAnchors_get :
    ∀ (A : JMap Point) (t : JMap Point) (p : String × Point),
      (A.map Prod.fst).Nodup → p ∈ A →
      (restoreAnchors A t).get p.1 = some p.2 := by
  intro A
  induction A with
  | nil => intro t p _ hp; simp at hp
  | cons q rest ih =>
    intro t p hnd hp
    simp only [List.map_cons, List.nodup_cons] at hnd
    unfold restoreAnchors
    simp only [List.foldl_cons]
    rcases List.mem_cons.mp hp with h | h
    · subst h
      rw [setFold_get_not_mem rest _ p.1 hnd.1]
      exact JMap.get_set_self t p.1 p.2
    · exact ih _ p hnd.2 h

/-- The final-restore property as a checkable predicate: every
anchored main-chain id keeps its tiled snapshot position in the final
target map. -/
def mainChainRestored (res : FAResult) : Bool :=
  res.anchors.all (fun p => decide (res.targets.get p.1 = some p.2))

theorem corePairStep_frame (T : JsMath) (M : JSet) (st : JMap Point × ℚ)
    (a b : String × ℚ) :
    (JSet.hasJ M a.1 = true → (corePairStep T M st a b).1.get a.1 = st.1.get a.1)
    ∧ (JSet.hasJ M b.1 = true → (corePairStep T M st a b).1.get b.1 = st.1.get b.1) := by
  unfold corePairStep
  cases hga : st.1.get a.1 with
  | none => exact ⟨fun _ => hga, fun _ => rfl⟩
  | some pa =>
    cases hgb : st.1.get b.1 with
    | none => exact ⟨fun _ => hga, fun _ => hgb⟩
    | some pb =>
      dsimp only
      constructor
      · intro ha
        split
        · by_cases hab : b.1 = a.1
          · rw [hab] at hgb
            rw [hga] at hgb
            injection hgb with hpb
            subst hpb
            rw [hab, JMap.get_set_self]
            simp [ha, hab]
          · rw [JMap.get_set_ne _ b.1 a.1 _ (Ne.symm hab), JMap.get_set_self]
            simp [ha]
        · exact hga
      · intro hb
        split
        · rw [JMap.get_set_self]
          simp [hb]
        · exact hgb

/-- **C3.** In force-align, every anchored main-chain id keeps its
tiled snapshot position in the final target map (the last step
restores `mainAnchorPos`), and during overlap resolution a main-chain
member of a pair receives zero push: its entry is unchanged by
`corePairStep`. -/
theorem forceAlign_mainChain_invariance (T : JsMath) (g : Graph) (w : ℚ)
    (M : JSet) (st : JMap Point × ℚ) (a b : String × ℚ) :
    ((forceAlignLayout T g w).map mainChainRestored).getD true = true
    ∧ (JSet.hasJ M a.1 = true → (corePairStep T M st a b).1.get a.1 = st.1.get a.1)
    ∧ (JSet.hasJ M b.1 = true → (corePairStep T M st a b).1.get b.1 = st.1.get b.1) := by
  refine ⟨?_, (corePairStep_frame T M st a b).1, (corePairStep_frame T M st a b).2⟩
  simp only [forceAlignLayout]
  split_ifs with h1 h2 h3
  · rfl
  · rfl
  · rfl
  · simp only [Option.map_some', Option.getD_some, mainChainRestored, List.all_eq_true]
    intro p hp
    rw [decide_eq_true_eq]
    exact restoreAnchors_get _ _ p (mainAnchorPosOf_keys_nodup _ _) hp

/-- **C3, witness.**  The zero-push conjunct applied to a concrete
main-chain pair. -/
theorem forceAlign_mainChain_invariance_witness :
    JSet.hasJ ["m1"] "m1" = true
      ∧ (corePairStep T0 ["m1"] (JMap.empty, 0) ("m1", 1) ("n1", 1)).1.get "m1"
        = (JMap.empty : JMap Point).get "m1" :=
  ⟨by decide, (forceAlign_mainChain_invariance T0 gC1 0 ["m1"] (JMap.empty, 0)
      ("m1", 1) ("n1", 1)).2.1 (by decide)⟩

/-! ## C6: the force-align main chain -/

theorem JMap.get_mem {β : Type} (m : JMap β) (k : String) (v : β)
    (h : m.get k = some v) : (k, v) ∈ m := by
  unfold JMap.get at h
  cases hf : m.find? (fun p => p.1 == k) with
  | none => rw [hf] at h; simp at h
  | some p =>
    rw [hf] at h
    simp only [Option.map_some', Option.some.injEq] at h
    have hk : p.1 = k := eq_of_beq (by simpa using List.find?_some hf)
    have hm := List.mem_of_find?_eq_some hf
    have : p = (k, v) := by
      cases p
      simp only [Prod.mk.injEq]
      exact ⟨hk, h⟩
    exact this ▸ hm

theorem JMap.get_isSome_of_mem {β : Type} (m : JMap β) (p : String × β)
    (h : p ∈ m) : (m.get p.1).isSome = true := by
  unfold JMap.get
  cases hf : m.find? (fun q => q.1 == p.1) with
  | none =>
    have := List.find?_eq_none.mp hf p h
    simp at this
  | some q => rfl

theorem JMap.contains_of_mem {β : Type} (m : JMap β) (p : String × β)
    (h : p ∈ m) : m.contains p.1 = true := by
  rw [JMap.contains_iff_get]
  exact JMap.get_isSome_of_mem m p h

theorem JMap.set_eq_append {β : Type} (m : JMap β) (k : String) (v : β)
    (h : m.contains k = false) : m.set k v = m ++ [(k, v)] := by
  unfold JMap.set
  rw [if_neg (by rw [h]; simp)]

theorem JSet.mem_addJ_fold :
    ∀ (ids : List String) (s : JSet) (x : String),
      x ∈ ids.foldl JSet.addJ s ↔ x ∈ s ∨ x ∈ ids := by
  intro ids
  induction ids with
  | nil => intro s x; simp
  | cons a rest ih =>
    intro s x
    simp only [List.foldl_cons, List.mem_cons]
    rw [ih]
    unfold JSet.addJ
    constructor
    · rintro (h | h)
      · split at h
        · exact Or.inl h
        · rcases List.mem_append.mp h with h | h
          · exact Or.inl h
          · simp only [List.mem_singleton] at h
            exact Or.inr (Or.inl h)
      · exact Or.inr (Or.inr h)
    · rintro (h | h | h)
      · left
        split
        · exact h
        · exact List.mem_append.mpr (Or.inl h)
      · left
        subst h
        split
        · next hx => exact hx
        · exact List.mem_append.mpr (Or.inr (List.mem_singleton.mpr rfl))
      · exact Or.inr h

theorem foldl_preserves_of_mem {α β : Type} (f : β → α → β) (P : β → Prop) :
    ∀ (l : List α), (∀ st a, a ∈ l → P st → P (f st a)) →
      ∀ st, P st → P (l.foldl f st) := by
  intro l
  induction l with
  | nil => intro _ st h; exact h
  | cons a rest ih =>
    intro hf st h
    exact ih (fun st b hb => hf st b (List.mem_cons_of_mem a hb)) _
      (hf st a (List.mem_cons_self a rest) h)

theorem foldl_choice {α β : Type} (f : β → α → β) (g : α → β)
    (hf : ∀ st a, f st a = st ∨ f st a = g a) :
    ∀ (l : List α) (st : β), l.foldl f st = st ∨ ∃ a ∈ l, l.foldl f st = g a := by
  intro l
  induction l with
  | nil => intro st; exact Or.inl rfl
  | cons a rest ih =>
    intro st
    simp only [List.foldl_cons]
    rcases ih (f st a) with h | ⟨b, hb, h⟩
    · rcases hf st a with h2 | h2
      · rw [h, h2]; exact Or.inl rfl
      · rw [h, h2]; exact Or.inr ⟨a, List.mem_cons_self a rest, rfl⟩
    · exact Or.inr ⟨b, List.mem_cons_of_mem a hb, h⟩

/-- The invariant of the `bfsFarthest` loop: every predecessor entry
`(v, u)` records an allowed node `v`, discovered from `u` along the
adjacency, one BFS level deeper than `u`; every distance entry belongs
to the start or to the allowed set and is bounded by the number of
predecessor entries. -/
def BfsInv (adj : JMap JSet) (allowed : JSet) (start : String)
    (dist : JMap Nat) (prev : JMap String) : Prop :=
  (∀ p ∈ prev, JSet.hasJ allowed p.1 = true
     ∧ JSet.hasJ (adj.getD p.2 []) p.1 = true
     ∧ ∃ dv du, dist.get p.1 = some dv ∧ dist.get p.2 = some du ∧ dv = du + 1)
  ∧ (∀ q ∈ dist, (q.1 = start ∨ JSet.hasJ allowed q.1 = true) ∧ q.2 ≤ prev.length)

theorem bfsLoop_spec (adj : JMap JSet) (allowed : JSet) (start : String) :
    ∀ (fuel : Nat) (queue : List String) (dist : JMap Nat) (prev : JMap String),
      BfsInv adj allowed start dist prev →
      (∀ q ∈ queue, (dist.get q).isSome = true) →
      BfsInv adj allowed start (bfsLoop adj allowed fuel queue dist prev).1
          (bfsLoop adj allowed fuel queue dist prev).2
        ∧ (∀ k v, dist.get k = some v →
            (bfsLoop adj allowed fuel queue dist prev).1.get k = some v) := by
  intro fuel
  induction fuel with
  | zero => intro queue dist prev hinv _; exact ⟨hinv, fun _ _ h => h⟩
  | succ fuel ih =>
    intro queue dist prev hinv hq
    cases queue with
    | nil => exact ⟨hinv, fun _ _ h => h⟩
    | cons cur rest =>
      obtain ⟨du, hdu⟩ := Option.isSome_iff_exists.mp (hq cur (List.mem_cons_self _ _))
      have hfold := foldl_preserves_of_mem
        (fun (s : List String × JMap Nat × JMap String) nb =>
          if !(JSet.hasJ allowed nb) || s.2.1.contains nb then s
          else (s.1 ++ [nb], s.2.1.set nb ((s.2.1.get cur).getD 0 + 1), s.2.2.set nb cur))
        (fun s => BfsInv adj allowed start s.2.1 s.2.2
          ∧ (∀ q ∈ s.1, (s.2.1.get q).isSome = true)
          ∧ (∀ k v, dist.get k = some v → s.2.1.get k = some v)
          ∧ s.2.1.get cur = some du)
        (adj.getD cur [])
        (by
        intro s nb hnb hs
        obtain ⟨⟨hprev, hdist⟩, hB, hC, hD⟩ := hs
        dsimp only
        split
        · exact ⟨⟨hprev, hdist⟩, hB, hC, hD⟩
        · next hguard =>
          simp only [Bool.or_eq_true, Bool.not_eq_true', not_or,
            Bool.not_eq_false] at hguard
          obtain ⟨hall, hcont⟩ := hguard
          have hcontf : s.2.1.contains nb = false := by
            rw [Bool.eq_false_iff]; exact hcont
          have hne : ∀ k, (s.2.1.get k).isSome = true → k ≠ nb := by
            intro k hk hkeq
            subst hkeq
            exact hcont ((JMap.contains_iff_get s.2.1 k).mpr hk)
          have hpcont : s.2.2.contains nb = false := by
            rw [Bool.eq_false_iff]
            intro hpc
            obtain ⟨u, hu⟩ := Option.isSome_iff_exists.mp
              ((JMap.contains_iff_get s.2.2 nb).mp hpc)
            obtain ⟨_, _, dv, _, hdv, _⟩ := hprev (nb, u) (JMap.get_mem _ _ _ hu)
            exact hne nb (by rw [hdv]; rfl) rfl
          have hgetne : ∀ k, (s.2.1.get k).isSome = true →
              (s.2.1.set nb ((s.2.1.get cur).getD 0 + 1)).get k = s.2.1.get k :=
            fun k hk => JMap.get_set_ne _ _ _ _ (hne k hk)
          have hcurne : cur ≠ nb := hne cur (by rw [hD]; rfl)
          have hgetnb : (s.2.1.set nb ((s.2.1.get cur).getD 0 + 1)).get nb
              = some (du + 1) := by
            rw [JMap.get_set_self, hD]
            rfl
          have hplen : (s.2.2.set nb cur).length = s.2.2.length + 1 := by
            rw [JMap.set_eq_append _ _ _ hpcont, List.length_append]
            rfl
          refine ⟨⟨?_, ?_⟩, ?_, ?_, ?_⟩
          · intro p hp
            rw [JMap.set_eq_append _ _ _ hpcont] at hp
            rcases List.mem_append.mp hp with hp | hp
            · obtain ⟨h1, h2, dv, du', hdv, hdu', hsum⟩ := hprev p hp
              exact ⟨h1, h2, dv, du',
                by rw [hgetne p.1 (by rw [hdv]; rfl)]; exact hdv,
                by rw [hgetne p.2 (by rw [hdu']; rfl)]; exact hdu', hsum⟩
            · simp only [List.mem_singleton] at hp
              subst hp
              refine ⟨hall, by simpa [JSet.hasJ] using hnb, du + 1, du, hgetnb,
                by rw [hgetne cur (by rw [hD]; rfl)]; exact hD, rfl⟩
          · intro q hqd
            rw [JMap.set_eq_append _ _ _ hcontf] at hqd
            rcases List.mem_append.mp hqd with hqd | hqd
            · obtain ⟨hok, hb⟩ := hdist q hqd
              exact ⟨hok, by rw [hplen]; omega⟩
            · simp only [List.mem_singleton] at hqd
              subst hqd
              refine ⟨Or.inr hall, ?_⟩
              have hmem : (cur, du) ∈ s.2.1 := JMap.get_mem _ _ _ hD
              have := (hdist (cur, du) hmem).2
              rw [hplen, hD]
              simp only [Option.getD_some] at this ⊢
              omega
          · intro q hqq
            rcases List.mem_append.mp hqq with hqq | hqq
            · have hk := hB q hqq
              rw [hgetne q hk]
              exact hk
            · simp only [List.mem_singleton] at hqq
              subst hqq
              rw [hgetnb]
              rfl
          · intro k v hk
            have hk2 := hC k v hk
            rw [hgetne k (by rw [hk2]; rfl)]
            exact hk2
          · rw [hgetne cur (by rw [hD]; rfl)]
            exact hD)
        (rest, dist, prev)
        ⟨hinv, fun q hqr => hq q (List.mem_cons_of_mem cur hqr), fun _ _ h => h, hdu⟩
      obtain ⟨hA, hB, hC, _⟩ := hfold
      simp only [bfsLoop]
      refine ⟨(ih _ _ _ hA hB).1, fun k v h => (ih _ _ _ hA hB).2 k v (hC k v h)⟩

/-- Consecutive-adjacency of a path: each node lists the next one
among its neighbours. -/
def chainB (adj : JMap JSet) : List String → Bool
  | [] => true
  | [_] => true
  | x :: y :: rest => JSet.hasJ (adj.getD x []) y && chainB adj (y :: rest)

/-- The claim's notion of a simple path through the component
subgraph, as a checkable predicate: non-empty, duplicate-free, inside
`ids`, consecutive nodes adjacent. -/
def isSimplePathB (adj : JMap JSet) (ids : List String) (p : List String) : Bool :=
  !p.isEmpty && decide p.Nodup && p.all (fun x => decide (x ∈ ids)) && chainB adj p

theorem chainB_concat (adj : JMap JSet) :
    ∀ (l : List String) (a : String), chainB adj l = true →
      (∀ last, l.getLast? = some last → JSet.hasJ (adj.getD last []) a = true) →
      chainB adj (l ++ [a]) = true := by
  intro l
  induction l with
  | nil => intro a _ _; rfl
  | cons x rest ih =>
    intro a hc hl
    cases rest with
    | nil =>
      simp only [List.cons_append, List.nil_append, chainB, Bool.and_eq_true]
      exact ⟨hl x (by simp), trivial⟩
    | cons y rest' =>
      simp only [List.cons_append, chainB, Bool.and_eq_true] at hc ⊢
      refine ⟨hc.1, ?_⟩
      have := ih a hc.2 (fun last hlast => hl last (by
        rw [List.getLast?_cons_cons]
        exact hlast))
      simpa using this

theorem backtrack_spec (adj : JMap JSet) (allowed : JSet) (start : String)
    (dist : JMap Nat) (prev : JMap String)
    (hinv : BfsInv adj allowed start dist prev) :
    ∀ (dv : Nat) (v : String), dist.get v = some dv →
      ∀ (acc : List String) (fuel : Nat), dv < fuel →
      ∃ l : List String,
        backtrackPrev prev fuel v acc = some (l ++ acc)
        ∧ l ≠ []
        ∧ l.getLast? = some v
        ∧ (∀ x ∈ l, ∃ dx, dist.get x = some dx ∧ dx ≤ dv)
        ∧ l.Nodup
        ∧ chainB adj l = true
        ∧ (∀ x ∈ l, x = start ∨ JSet.hasJ allowed x = true) := by
  intro dv
  induction dv with
  | zero =>
    intro v hv acc fuel hfuel
    cases fuel with
    | zero => omega
    | succ fuel =>
      cases hpv : prev.get v with
      | none =>
        refine ⟨[v], by simp [backtrackPrev, hpv], by simp, by simp, ?_, by simp, rfl, ?_⟩
        · intro x hx
          simp only [List.mem_singleton] at hx
          rw [hx]
          exact ⟨0, hv, le_refl 0⟩
        · intro x hx
          simp only [List.mem_singleton] at hx
          rw [hx]
          exact (hinv.2 (v, 0) (JMap.get_mem _ _ _ hv)).1
      | some u =>
        obtain ⟨_, _, dv', du, hdv', _, hsum⟩ := hinv.1 (v, u) (JMap.get_mem _ _ _ hpv)
        rw [hv] at hdv'
        exfalso
        have := Option.some.inj hdv'
        omega
  | succ d ihd =>
    intro v hv acc fuel hfuel
    cases fuel with
    | zero => omega
    | succ fuel =>
      cases hpv : prev.get v with
      | none =>
        refine ⟨[v], by simp [backtrackPrev, hpv], by simp, by simp, ?_, by simp, rfl, ?_⟩
        · intro x hx
          simp only [List.mem_singleton] at hx
          rw [hx]
          exact ⟨d + 1, hv, le_refl _⟩
        · intro x hx
          simp only [List.mem_singleton] at hx
          rw [hx]
          exact (hinv.2 (v, d + 1) (JMap.get_mem _ _ _ hv)).1
      | some u =>
        obtain ⟨hallow, hadj, dv', du, hdv', hdu, hsum⟩ :=
          hinv.1 (v, u) (JMap.get_mem _ _ _ hpv)
        rw [hv] at hdv'
        have hdveq : dv' = d + 1 := (Option.some.inj hdv').symm
        have hdueq : du = d := by omega
        rw [hdueq] at hdu
        obtain ⟨l', heq, hne', hlast', hdx', hnodup', hchain', hmem'⟩ :=
          ihd u hdu (v :: acc) fuel (by omega)
        refine ⟨l' ++ [v], ?_, by simp, ?_, ?_, ?_, ?_, ?_⟩
        · simp only [backtrackPrev, hpv]
          rw [heq]
          simp
        · rw [List.getLast?_concat]
        · intro x hx
          rcases List.mem_append.mp hx with hx | hx
          · obtain ⟨dx, h1, h2⟩ := hdx' x hx
            exact ⟨dx, h1, by omega⟩
          · simp only [List.mem_singleton] at hx
            rw [hx]
            exact ⟨d + 1, hv, le_refl _⟩
        · rw [List.nodup_append]
          refine ⟨hnodup', List.nodup_singleton v, ?_⟩
          intro x hx hxv
          simp only [List.mem_singleton] at hxv
          obtain ⟨dx, h1, h2⟩ := hdx' x hx
          rw [hxv, hv] at h1
          have := Option.some.inj h1
          omega
        · apply chainB_concat adj l' v hchain'
          intro last hlastEq
          rw [hlast'] at hlastEq
          rw [← Option.some.inj hlastEq]
          exact hadj
        · intro x hx
          rcases List.mem_append.mp hx with hx | hx
          · exact hmem' x hx
          · simp only [List.mem_singleton] at hx
            rw [hx]
            exact (hinv.2 (v, d + 1) (JMap.get_mem _ _ _ hv)).1

theorem bfsFarthest_spec (adj : JMap JSet) (allowed : JSet) (start : String) :
    BfsInv adj allowed start (bfsFarthest adj allowed start).2.1
        (bfsFarthest adj allowed start).2.2
      ∧ (bfsFarthest adj allowed start).2.1.get start = some 0
      ∧ ((bfsFarthest adj allowed start).1 = start
        ∨ ∃ d, ((bfsFarthest adj allowed start).1, d)
            ∈ (bfsFarthest adj allowed start).2.1) := by
  have hinit : BfsInv adj allowed start ((JMap.empty : JMap Nat).set start 0) JMap.empty := by
    constructor
    · intro p hp
      simp [JMap.empty] at hp
    · intro q hq
      have hs : ((JMap.empty : JMap Nat).set start 0) = [(start, 0)] := rfl
      rw [hs] at hq
      simp only [List.mem_singleton] at hq
      rw [hq]
      exact ⟨Or.inl rfl, by simp [JMap.empty]⟩
  have hq0 : ∀ q ∈ [start], (((JMap.empty : JMap Nat).set start 0).get q).isSome = true := by
    intro q hq
    simp only [List.mem_singleton] at hq
    rw [hq, JMap.get_set_self]
    rfl
  have hmain := bfsLoop_spec adj allowed start (allowed.length + 1) [start]
    (JMap.empty.set start 0) JMap.empty hinit hq0
  refine ⟨hmain.1, hmain.2 start 0 (JMap.get_set_self _ _ _), ?_⟩
  have hch := foldl_choice
    (fun f (p : String × Nat) =>
      if p.2 > (((bfsLoop adj allowed (allowed.length + 1) [start]
          (JMap.empty.set start 0) JMap.empty).1).get f).getD 0 then p.1 else f)
    (fun p => p.1)
    (fun st a => by
      dsimp only
      split
      · exact Or.inr rfl
      · exact Or.inl rfl)
    ((bfsLoop adj allowed (allowed.length + 1) [start]
      (JMap.empty.set start 0) JMap.empty).1)
    start
  rcases hch with h | ⟨p, hp, he⟩
  · exact Or.inl h
  · refine Or.inr ⟨p.2, ?_⟩
    have hpair : ((bfsFarthest adj allowed start).1, p.2) = p := by
      rw [show (bfsFarthest adj allowed start).1 = p.1 from he]
    rw [hpair]
    exact hp

/-- The 4-cycle snapshot on which the double-BFS chain is not a
longest simple path. -/
def gC6 : Graph :=
  { nodes := [{ id := "a", nodeType := "entity", x := 0, y := 0, bw := 0, bh := 0 },
              { id := "b", nodeType := "entity", x := 0, y := 0, bw := 0, bh := 0 },
              { id := "c", nodeType := "entity", x := 0, y := 0, bw := 0, bh := 0 },
              { id := "d", nodeType := "entity", x := 0, y := 0, bw := 0, bh := 0 }],
    edges := [{ source := "a", target := "b" }, { source := "b", target := "c" },
              { source := "c", target := "d" }, { source := "d", target := "a" }],
    width := 0, height := 0 }

/-- **C6, counterexample.**  On the 4-cycle `a–b–c–d–a` the core
component is all four nodes, but the double-BFS main chain visits only
three of them (`c, b, a`), while `d, a, b, c` is a simple path through
the same subgraph with four nodes: the returned chain is not a longest
simple path. -/
theorem findLongestPath_not_longest_counterexample :
    (coreComponents gC6).headD [] = ["a", "d", "c", "b"]
      ∧ findLongestPath (coreAdjOf gC6) ["a", "d", "c", "b"] = ["c", "b", "a"]
      ∧ isSimplePathB (coreAdjOf gC6) ["a", "d", "c", "b"] ["d", "a", "b", "c"] = true
      ∧ (findLongestPath (coreAdjOf gC6) ["a", "d", "c", "b"]).length
          < (["d", "a", "b", "c"] : List String).length := by
  exact ⟨by decide, by decide, by decide, by decide⟩

/-- **C6, amended.**  The chain built by `findLongestPath` is a simple
path through the allowed subgraph — non-empty, duplicate-free, inside
`ids`, with consecutive nodes adjacent — namely the double-BFS
diameter-approximation path; it need not be a longest simple path (see
the 4-cycle counterexample). -/
theorem findLongestPath_simple_path (adj : JMap JSet) (ids : List String)
    (hne : ids ≠ []) :
    isSimplePathB adj ids (findLongestPath adj ids) = true := by
  have hfirst : ids.headD "" ∈ ids := by
    cases ids with
    | nil => exact absurd rfl hne
    | cons a t => exact List.mem_cons_self a t
  have hmem_allowed : ∀ x, JSet.hasJ (ids.foldl JSet.addJ []) x = true → x ∈ ids := by
    intro x hx
    have hx2 : x ∈ ids.foldl JSet.addJ [] := by simpa [JSet.hasJ] using hx
    rcases (JSet.mem_addJ_fold ids [] x).mp hx2 with h | h
    · simp at h
    · exact h
  obtain ⟨hinv1, hst1, hfar1⟩ :=
    bfsFarthest_spec adj (ids.foldl JSet.addJ []) (ids.headD "")
  have hr11_ids : (bfsFarthest adj (ids.foldl JSet.addJ []) (ids.headD "")).1 ∈ ids := by
    rcases hfar1 with h | ⟨d, hd⟩
    · rw [h]; exact hfirst
    · rcases (hinv1.2 _ hd).1 with h | h
      · rw [h]; exact hfirst
      · exact hmem_allowed _ h
  obtain ⟨hinv2, hst2, hfar2⟩ :=
    bfsFarthest_spec adj (ids.foldl JSet.addJ [])
      (bfsFarthest adj (ids.foldl JSet.addJ []) (ids.headD "")).1
  obtain ⟨dv, hdv⟩ : ∃ dv,
      (bfsFarthest adj (ids.foldl JSet.addJ [])
        (bfsFarthest adj (ids.foldl JSet.addJ []) (ids.headD "")).1).2.1.get
        (bfsFarthest adj (ids.foldl JSet.addJ [])
          (bfsFarthest adj (ids.foldl JSet.addJ []) (ids.headD "")).1).1 = some dv := by
    rcases hfar2 with h | ⟨d, hd⟩
    · exact ⟨0, by rw [h]; exact hst2⟩
    · exact Option.isSome_iff_exists.mp (JMap.get_isSome_of_mem _ _ hd)
  have hbound : dv ≤ (bfsFarthest adj (ids.foldl JSet.addJ [])
      (bfsFarthest adj (ids.foldl JSet.addJ []) (ids.headD "")).1).2.2.length :=
    (hinv2.2 _ (JMap.get_mem _ _ _ hdv)).2
  obtain ⟨l, heq, hlne, hlast, hdx, hnodup, hchain, hmemOK⟩ :=
    backtrack_spec adj (ids.foldl JSet.addJ [])
      (bfsFarthest adj (ids.foldl JSet.addJ []) (ids.headD "")).1
      _ _ hinv2 dv _ hdv []
      ((bfsFarthest adj (ids.foldl JSet.addJ [])
        (bfsFarthest adj (ids.foldl JSet.addJ []) (ids.headD "")).1).2.2.length + 1)
      (by omega)
  rw [List.append_nil] at heq
  have hlempty : l.isEmpty = false := by
    cases l with
    | nil => exact absurd rfl hlne
    | cons x t => rfl
  have hfl : findLongestPath adj ids = l := by
    simp only [findLongestPath]
    rw [heq]
    simp only [Option.getD_some, hlempty]
    rw [if_neg (by simp)]
  rw [hfl]
  unfold isSimplePathB
  simp only [Bool.and_eq_true]
  refine ⟨⟨⟨?_, ?_⟩, ?_⟩, hchain⟩
  · rw [hlempty]; rfl
  · exact decide_eq_true hnodup
  · rw [List.all_eq_true]
    intro x hx
    rcases hmemOK x hx with h | h
    · rw [h]; exact decide_eq_true hr11_ids
    · exact decide_eq_true (hmem_allowed x h)

/-- **C6, witness.**  The amended theorem applied to a concrete
two-node id list with an empty adjacency. -/
theorem findLongestPath_simple_path_witness :
    (["x", "y"] : List String) ≠ []
      ∧ isSimplePathB (JMap.empty : JMap JSet) ["x", "y"]
          (findLongestPath (JMap.empty : JMap JSet) ["x", "y"]) = true :=
  ⟨by decide, findLongestPath_simple_path (JMap.empty : JMap JSet) ["x", "y"] (by decide)⟩

/-! ## C10: termination of the entity placement loop -/

/-- The dequeue-body invariant: the target map only gains keys, and
the pushed ids are duplicate-free, were unplaced before the call,
are placed after it, and come from the core adjacency. -/
def EnqInv (targets : JMap Point) (coreAdj : JMap JSet) (eid : String)
    (acc : JMap Point × JMap Int × List String) : Prop :=
  (∀ k, targets.contains k = true → acc.1.contains k = true)
  ∧ acc.2.2.Nodup
  ∧ (∀ p ∈ acc.2.2, targets.contains p = false ∧ acc.1.contains p = true
      ∧ ∃ rid, rid ∈ coreAdj.getD eid [] ∧ p ∈ coreAdj.getD rid [])

theorem entityPlaceFold_contains_mono (T : JsMath) (radiiCache : JMap ℚ)
    (entityPos : Point) (entityRadius : ℚ) (preferredSign : Int)
    (anchorAngles : List ℚ) (anchorAnglesWithSign : List (ℚ × Int))
    (unplacedInfo : List (String × List String)) (relComponents : List (List String)) :
    ∀ (init : JMap Point × JMap Int × Int) (k : String), init.1.contains k = true →
      (entityPlaceFold T radiiCache entityPos entityRadius preferredSign anchorAngles
        anchorAnglesWithSign unplacedInfo relComponents init).1.contains k = true := by
  intro init k hk
  unfold entityPlaceFold
  apply foldl_preserves _ (fun st : JMap Point × JMap Int × Int => st.1.contains k = true)
  · intro st comp hst
    dsimp only
    exact foldl_preserves _
      (fun acc2 : (JMap Point × JMap Int) × Nat => acc2.1.1.contains k = true)
      (fun acc2 rid h2 => by
        dsimp only
        exact JMap.contains_set_mono _ _ _ _ h2) _ _ hst
  · exact hk

theorem entityEnqueueFold_spec (T : JsMath) (nodeMap : JMap Node) (coreAdj : JMap JSet)
    (radiiCache : JMap ℚ) (eid : String) (entityPos : Point) (entityRadius : ℚ)
    (relNeighbors : List String) (st : JMap Point × JMap Int) (targets : JMap Point)
    (hmono : ∀ k, targets.contains k = true → st.1.contains k = true)
    (hrel : ∀ r ∈ relNeighbors, r ∈ coreAdj.getD eid []) :
    EnqInv targets coreAdj eid (entityEnqueueFold T nodeMap coreAdj radiiCache eid entityPos
      entityRadius relNeighbors st) := by
  unfold entityEnqueueFold
  apply foldl_preserves_of_mem _ (EnqInv targets coreAdj eid)
  · intro acc rid hridmem hacc
    dsimp only
    cases hget : acc.1.get rid with
    | none => exact hacc
    | some relPos =>
      apply foldl_preserves_of_mem _ (EnqInv targets coreAdj eid)
      · intro s nb hnb hs
        dsimp only
        split
        · exact hs
        · next hguard =>
          obtain ⟨hm, hnd, hmem⟩ := hs
          have hfresh : s.1.contains nb = false := Bool.eq_false_iff.mpr hguard
          refine ⟨?_, ?_, ?_⟩
          · intro k hk
            exact JMap.contains_set_mono _ _ _ _ (hm k hk)
          · rw [List.nodup_append]
            refine ⟨hnd, List.nodup_singleton nb, ?_⟩
            intro x hx hxnb
            simp only [List.mem_singleton] at hxnb
            have hc := (hmem x hx).2.1
            rw [hxnb, hfresh] at hc
            exact Bool.noConfusion hc
          · intro p hp
            rcases List.mem_append.mp hp with hp | hp
            · obtain ⟨h1, h2, h3⟩ := hmem p hp
              exact ⟨h1, JMap.contains_set_mono _ _ _ _ h2, h3⟩
            · simp only [List.mem_singleton] at hp
              subst hp
              refine ⟨?_, JMap.contains_set_self _ _ _, ?_⟩
              · cases hc : targets.contains p with
                | false => rfl
                | true =>
                  have := hm p hc
                  rw [hfresh] at this
                  exact Bool.noConfusion this
              · exact ⟨rid, hrel rid hridmem, (List.mem_filter.mp hnb).1⟩
      · exact hacc
  · exact ⟨fun k hk => hmono k hk, List.nodup_nil, fun p hp => absurd hp (List.not_mem_nil p)⟩

theorem entityBody_spec (T : JsMath) (nodeMap : JMap Node) (coreAdj : JMap JSet)
    (radii : JMap ℚ) (fuelDfs : Nat) (eid : String) (targets : JMap Point)
    (sideHint : JMap Int) :
    EnqInv targets coreAdj eid
      (entityBody T nodeMap coreAdj radii fuelDfs eid targets sideHint) := by
  unfold entityBody
  cases nodeMap.get eid with
  | none =>
    exact ⟨fun k h => h, List.nodup_nil, fun p hp => absurd hp (List.not_mem_nil p)⟩
  | some nd =>
    cases targets.get eid with
    | none =>
      exact ⟨fun k h => h, List.nodup_nil, fun p hp => absurd hp (List.not_mem_nil p)⟩
    | some entityPos =>
      dsimp only
      split
      · exact ⟨fun k h => h, List.nodup_nil, fun p hp => absurd hp (List.not_mem_nil p)⟩
      · apply entityEnqueueFold_spec
        · intro k hk
          apply entityPlaceFold_contains_mono
          exact hk
        · intro r hr
          exact (List.mem_filter.mp hr).1

/-- The entity ids of a component not yet holding a target. -/
def unplacedCount (ids : List String) (t : JMap Point) : Nat :=
  (ids.toFinset.filter (fun i => t.contains i = false)).card

theorem measure_step (ids : List String) (targets t' : JMap Point) (P : List String)
    (hmono : ∀ k, targets.contains k = true → t'.contains k = true)
    (hnd : P.Nodup)
    (hP : ∀ p ∈ P, targets.contains p = false ∧ t'.contains p = true ∧ p ∈ ids) :
    unplacedCount ids t' + P.length ≤ unplacedCount ids targets := by
  unfold unplacedCount
  have hsub : (ids.toFinset.filter (fun i => t'.contains i = false)) ∪ P.toFinset
      ⊆ ids.toFinset.filter (fun i => targets.contains i = false) := by
    intro x hx
    rcases Finset.mem_union.mp hx with hx | hx
    · obtain ⟨hxi, hxf⟩ := Finset.mem_filter.mp hx
      refine Finset.mem_filter.mpr ⟨hxi, ?_⟩
      cases hc : targets.contains x with
      | false => rfl
      | true =>
        rw [hmono x hc] at hxf
        exact Bool.noConfusion hxf
    · obtain ⟨h1, _, h3⟩ := hP x (List.mem_toFinset.mp hx)
      exact Finset.mem_filter.mpr ⟨List.mem_toFinset.mpr h3, h1⟩
  have hdisj : Disjoint (ids.toFinset.filter (fun i => t'.contains i = false)) P.toFinset := by
    rw [Finset.disjoint_left]
    intro x hx hxP
    obtain ⟨_, hxf⟩ := Finset.mem_filter.mp hx
    have hc := (hP x (List.mem_toFinset.mp hxP)).2.1
    rw [hc] at hxf
    exact Bool.noConfusion hxf
  have hcard := Finset.card_le_card hsub
  rw [Finset.card_union_of_disjoint hdisj, List.toFinset_card_of_nodup hnd] at hcard
  exact hcard

theorem entityBody_measure (T : JsMath) (nodeMap : JMap Node) (coreAdj : JMap JSet)
    (radii : JMap ℚ) (fuelDfs : Nat) (eid : String) (ids : List String)
    (targets : JMap Point) (sideHint : JMap Int)
    (hclosed : ∀ v ∈ ids, ∀ x ∈ coreAdj.getD v [], x ∈ ids) (heid : eid ∈ ids) :
    (unplacedCount ids (entityBody T nodeMap coreAdj radii fuelDfs eid targets sideHint).1
        + (entityBody T nodeMap coreAdj radii fuelDfs eid targets sideHint).2.2.length
      ≤ unplacedCount ids targets)
    ∧ (∀ p ∈ (entityBody T nodeMap coreAdj radii fuelDfs eid targets sideHint).2.2,
        p ∈ ids) := by
  obtain ⟨hm, hnd, hP⟩ := entityBody_spec T nodeMap coreAdj radii fuelDfs eid targets sideHint
  have hmem : ∀ p ∈ (entityBody T nodeMap coreAdj radii fuelDfs eid targets sideHint).2.2,
      p ∈ ids := by
    intro p hp
    obtain ⟨rid, hrid1, hrid2⟩ := (hP p hp).2.2
    exact hclosed rid (hclosed eid heid rid hrid1) p hrid2
  refine ⟨measure_step ids targets _ _ hm hnd
    (fun p hp => ⟨(hP p hp).1, (hP p hp).2.1, hmem p hp⟩), hmem⟩

theorem entityLoop_nil (T : JsMath) (nodeMap : JMap Node) (coreAdj : JMap JSet)
    (radii : JMap ℚ) (fuelDfs : Nat) :
    ∀ (fuel : Nat) (targets : JMap Point) (sideHint : JMap Int),
      entityLoop T nodeMap coreAdj radii fuelDfs fuel [] targets sideHint
        = (targets, sideHint, 0) := by
  intro fuel targets sideHint
  cases fuel with
  | zero => rfl
  | succ f => rfl

theorem entityLoop_dequeues (T : JsMath) (nodeMap : JMap Node) (coreAdj : JMap JSet)
    (radii : JMap ℚ) (fuelDfs : Nat) (ids : List String)
    (hclosed : ∀ v ∈ ids, ∀ x ∈ coreAdj.getD v [], x ∈ ids) :
    ∀ (fuel : Nat) (queue : List String) (targets : JMap Point) (sideHint : JMap Int),
      (∀ q ∈ queue, q ∈ ids) →
      (entityLoop T nodeMap coreAdj radii fuelDfs fuel queue targets sideHint).2.2
        ≤ queue.length + unplacedCount ids targets := by
  intro fuel
  induction fuel with
  | zero => intro queue targets sideHint _; simp [entityLoop]
  | succ fuel ih =>
    intro queue targets sideHint hqids
    cases queue with
    | nil => simp [entityLoop]
    | cons eid rest =>
      simp only [entityLoop]
      obtain ⟨hm, hpush⟩ := entityBody_measure T nodeMap coreAdj radii fuelDfs eid ids
        targets sideHint hclosed (hqids eid (List.mem_cons_self eid rest))
      have hi := ih
        (rest ++ (entityBody T nodeMap coreAdj radii fuelDfs eid targets sideHint).2.2)
        (entityBody T nodeMap coreAdj radii fuelDfs eid targets sideHint).1
        (entityBody T nodeMap coreAdj radii fuelDfs eid targets sideHint).2.1
        (by
          intro q hq
          rcases List.mem_append.mp hq with hq | hq
          · exact hqids q (List.mem_cons_of_mem eid hq)
          · exact hpush q hq)
      rw [List.length_append] at hi
      simp only [List.length_cons]
      omega

theorem entityLoop_fuel_stable (T : JsMath) (nodeMap : JMap Node) (coreAdj : JMap JSet)
    (radii : JMap ℚ) (fuelDfs : Nat) (ids : List String)
    (hclosed : ∀ v ∈ ids, ∀ x ∈ coreAdj.getD v [], x ∈ ids) :
    ∀ (fuel extra : Nat) (queue : List String) (targets : JMap Point) (sideHint : JMap Int),
      (∀ q ∈ queue, q ∈ ids) →
      queue.length + unplacedCount ids targets ≤ fuel →
      entityLoop T nodeMap coreAdj radii fuelDfs fuel queue targets sideHint
        = entityLoop T nodeMap coreAdj radii fuelDfs (fuel + extra) queue targets sideHint := by
  intro fuel
  induction fuel with
  | zero =>
    intro extra queue targets sideHint _ hb
    have hq : queue = [] := by
      cases queue with
      | nil => rfl
      | cons a t =>
        simp only [List.length_cons] at hb
        omega
    subst hq
    rw [entityLoop_nil, entityLoop_nil]
  | succ fuel ih =>
    intro extra queue targets sideHint hqids hb
    cases queue with
    | nil => rw [entityLoop_nil, entityLoop_nil]
    | cons eid rest =>
      have hstep : fuel + 1 + extra = (fuel + extra) + 1 := by omega
      rw [hstep]
      simp only [entityLoop]
      obtain ⟨hm, hpush⟩ := entityBody_measure T nodeMap coreAdj radii fuelDfs eid ids
        targets sideHint hclosed (hqids eid (List.mem_cons_self eid rest))
      rw [ih extra
        (rest ++ (entityBody T nodeMap coreAdj radii fuelDfs eid targets sideHint).2.2)
        (entityBody T nodeMap coreAdj radii fuelDfs eid targets sideHint).1
        (entityBody T nodeMap coreAdj radii fuelDfs eid targets sideHint).2.1
        (by
          intro q hq
          rcases List.mem_append.mp hq with hq | hq
          · exact hqids q (List.mem_cons_of_mem eid hq)
          · exact hpush q hq)
        (by
          rw [List.length_append]
          simp only [List.length_cons] at hb
          omega)]

/-! ### Closure of the force-align core partition

The core adjacency is symmetric and its neighbour lists only mention
node ids, so every component the stack walk collects is closed under
the adjacency, and the walk's fuel `dfsFuel` is sufficient for every
start. -/

theorem JMap.mem_set_elim {β : Type} (m : JMap β) (k : String) (v : β)
    (p : String × β) (h : p ∈ m.set k v) : p ∈ m ∨ p = (k, v) := by
  unfold JMap.set at h
  split at h
  · obtain ⟨q, hq, hqe⟩ := List.mem_map.mp h
    by_cases hk : (q.1 == k) = true
    · rw [if_pos hk] at hqe
      exact Or.inr hqe.symm
    · rw [if_neg hk] at hqe
      exact Or.inl (hqe ▸ hq)
  · rcases List.mem_append.mp h with h | h
    · exact Or.inl h
    · simp only [List.mem_singleton] at h
      exact Or.inr h

theorem nodeMapOf_keys (g : Graph) :
    ∀ p ∈ nodeMapOf g, p.1 ∈ g.nodes.map Node.id := by
  unfold nodeMapOf
  suffices h : ∀ (l : List Node) (m : JMap Node),
      (∀ p ∈ m, p.1 ∈ g.nodes.map Node.id) → (∀ n ∈ l, n.id ∈ g.nodes.map Node.id) →
      ∀ p ∈ l.foldl (fun m n => m.set n.id n) m, p.1 ∈ g.nodes.map Node.id by
    exact h g.nodes JMap.empty (by intro p hp; simp [JMap.empty] at hp)
      (fun n hn => List.mem_map_of_mem Node.id hn)
  intro l
  induction l with
  | nil => intro m hm _ p hp; exact hm p hp
  | cons n rest ih =>
    intro m hm hl p hp
    refine ih _ ?_ (fun n' hn' => hl n' (List.mem_cons_of_mem n hn')) p hp
    intro q hq
    rcases JMap.mem_set_elim m n.id n q hq with h | h
    · exact hm q h
    · rw [h]
      exact hl n (List.mem_cons_self n rest)

theorem nodeMapOf_get_mem_ids (g : Graph) (k : String) (n : Node)
    (h : (nodeMapOf g).get k = some n) : k ∈ g.nodes.map Node.id :=
  nodeMapOf_keys g (k, n) (JMap.get_mem _ _ _ h)

theorem JSet.mem_addJ (s : JSet) (k x : String) :
    x ∈ s.addJ k ↔ x ∈ s ∨ x = k := by
  unfold JSet.addJ
  split
  · next h =>
    constructor
    · exact Or.inl
    · rintro (hx | hx)
      · exact hx
      · exact hx ▸ h
  · rw [List.mem_append, List.mem_singleton]

theorem JMap.getD_set {β : Type} (m : JMap β) (k k' : String) (v d : β) :
    (m.set k v).getD k' d = if k' = k then v else m.getD k' d := by
  unfold JMap.getD
  rw [JMap.get_set]
  split
  · rfl
  · rfl

theorem ensure_getD (m : JMap JSet) (k k' : String) :
    (if m.contains k then m else m.set k []).getD k' [] = m.getD k' [] := by
  split
  · rfl
  · next hc =>
    rw [JMap.getD_set]
    split
    · next he =>
      subst he
      unfold JMap.getD
      rw [Option.not_isSome_iff_eq_none.mp (fun hs => hc ((JMap.contains_iff_get m k').mpr hs))]
      rfl
    · rfl

theorem addEdge_getD (M : JMap JSet) (s t x : String) :
    ((M.set s ((M.getD s []).addJ t)).set t
      (((M.set s ((M.getD s []).addJ t)).getD t []).addJ s)).getD x []
    = if x = t
      then ((if t = s then (M.getD s []).addJ t else M.getD t []).addJ s)
      else if x = s then (M.getD s []).addJ t
      else M.getD x [] := by
  by_cases hxt : x = t
  · by_cases hts : t = s
    · simp [JMap.getD_set, hxt, hts]
    · simp [JMap.getD_set, hxt, hts]
  · by_cases hxs : x = s
    · simp [JMap.getD_set, hxt, hxs, fun h => hxt (hxs.trans h)]
    · simp [JMap.getD_set, hxt, hxs]

theorem addEdge_symm (B : String → JSet) (hB : ∀ a b, b ∈ B a → a ∈ B b) (s t : String) :
    ∀ a b, b ∈ (if a = t then ((if t = s then (B s).addJ t else B t).addJ s)
        else if a = s then (B s).addJ t else B a)
      → a ∈ (if b = t then ((if t = s then (B s).addJ t else B t).addJ s)
        else if b = s then (B s).addJ t else B b) := by
  have hsub : ∀ x y, y ∈ B x →
      y ∈ (if x = t then ((if t = s then (B s).addJ t else B t).addJ s)
        else if x = s then (B s).addJ t else B x) := by
    intro x y hy
    by_cases hxt : x = t
    · rw [if_pos hxt]
      rw [JSet.mem_addJ]
      by_cases hts : t = s
      · rw [if_pos hts, JSet.mem_addJ]
        exact Or.inl (Or.inl (by rw [← hts, ← hxt]; exact hy))
      · rw [if_neg hts]
        exact Or.inl (hxt ▸ hy)
    · rw [if_neg hxt]
      by_cases hxs : x = s
      · rw [if_pos hxs, JSet.mem_addJ]
        exact Or.inl (hxs ▸ hy)
      · rw [if_neg hxs]
        exact hy
  have hts_mem : t ∈ (if s = t then ((if t = s then (B s).addJ t else B t).addJ s)
      else if s = s then (B s).addJ t else B s) := by
    by_cases hst : s = t
    · rw [if_pos hst, JSet.mem_addJ]
      by_cases hts : t = s
      · rw [if_pos hts, JSet.mem_addJ]
        exact Or.inl (Or.inr rfl)
      · exact absurd hst.symm hts
    · rw [if_neg hst, if_pos rfl, JSet.mem_addJ]
      exact Or.inr rfl
  have hst_mem : s ∈ (if t = t then ((if t = s then (B s).addJ t else B t).addJ s)
      else if t = s then (B s).addJ t else B t) := by
    rw [if_pos rfl, JSet.mem_addJ]
    exact Or.inr rfl
  intro a b hb
  by_cases hat : a = t
  · rw [if_pos hat] at hb
    rw [JSet.mem_addJ] at hb
    rcases hb with hb | hb
    · by_cases hts : t = s
      · rw [if_pos hts, JSet.mem_addJ] at hb
        rcases hb with hb | hb
        · have h1 : a ∈ B b := by
            rw [hat, hts]
            exact hB s b hb
          exact hsub b a h1
        · rw [hb, hat, if_pos rfl, JSet.mem_addJ]
          exact Or.inr hts
      · rw [if_neg hts] at hb
        have h1 : a ∈ B b := by
          rw [hat]
          exact hB t b hb
        exact hsub b a h1
    · rw [hb, hat]
      exact hts_mem
  · rw [if_neg hat] at hb
    by_cases has : a = s
    · rw [if_pos has] at hb
      rw [JSet.mem_addJ] at hb
      rcases hb with hb | hb
      · have h1 : a ∈ B b := by
          rw [has]
          exact hB s b hb
        exact hsub b a h1
      · rw [hb, has]
        exact hst_mem
    · rw [if_neg has] at hb
      exact hsub b a (hB a b hb)

theorem coreAdjOf_symm (g : Graph) :
    ∀ a b, b ∈ (coreAdjOf g).getD a [] → a ∈ (coreAdjOf g).getD b [] := by
  unfold coreAdjOf
  apply foldl_preserves _
    (fun m : JMap JSet => ∀ a b, b ∈ m.getD a [] → a ∈ m.getD b [])
  · intro m e hm
    dsimp only
    cases (nodeMapOf g).get e.source with
    | none => exact hm
    | some sn =>
      cases (nodeMapOf g).get e.target with
      | none => exact hm
      | some tn =>
        dsimp only
        split
        · intro a b hb
          have h2 : ∀ x, ((if (if m.contains e.source then m else m.set e.source
                []).contains e.target
              then (if m.contains e.source then m else m.set e.source [])
              else (if m.contains e.source then m else m.set e.source
                []).set e.target []).getD x [])
              = m.getD x [] := by
            intro x
            rw [ensure_getD, ensure_getD]
          rw [addEdge_getD] at hb
          rw [addEdge_getD]
          simp only [h2] at hb ⊢
          exact addEdge_symm (fun x => m.getD x []) hm e.source e.target a b hb
        · exact hm
  · intro a b hb
    simp [JMap.empty, JMap.getD, JMap.get] at hb

theorem coreAdjOf_values (g : Graph) :
    ∀ a x, x ∈ (coreAdjOf g).getD a [] → x ∈ g.nodes.map Node.id := by
  unfold coreAdjOf
  apply foldl_preserves _
    (fun m : JMap JSet => ∀ a x, x ∈ m.getD a [] → x ∈ g.nodes.map Node.id)
  · intro m e hm
    dsimp only
    cases hs : (nodeMapOf g).get e.source with
    | none => exact hm
    | some sn =>
      cases ht : (nodeMapOf g).get e.target with
      | none => exact hm
      | some tn =>
        dsimp only
        split
        · intro a x hx
          have h2 : ∀ y, ((if (if m.contains e.source then m else m.set e.source
                []).contains e.target
              then (if m.contains e.source then m else m.set e.source [])
              else (if m.contains e.source then m else m.set e.source
                []).set e.target []).getD y [])
              = m.getD y [] := by
            intro y
            rw [ensure_getD, ensure_getD]
          rw [addEdge_getD] at hx
          simp only [h2] at hx
          have hsrc : e.source ∈ g.nodes.map Node.id := nodeMapOf_get_mem_ids g e.source sn hs
          have htgt : e.target ∈ g.nodes.map Node.id := nodeMapOf_get_mem_ids g e.target tn ht
          by_cases hat : a = e.target
          · rw [if_pos hat] at hx
            rw [JSet.mem_addJ] at hx
            rcases hx with hx | hx
            · by_cases hts : e.target = e.source
              · rw [if_pos hts] at hx
                rw [JSet.mem_addJ] at hx
                rcases hx with hx | hx
                · exact hm e.source x hx
                · rw [hx]
                  exact htgt
              · rw [if_neg hts] at hx
                exact hm e.target x hx
            · rw [hx]
              exact hsrc
          · rw [if_neg hat] at hx
            by_cases has : a = e.source
            · rw [if_pos has] at hx
              rw [JSet.mem_addJ] at hx
              rcases hx with hx | hx
              · exact hm e.source x hx
              · rw [hx]
                exact htgt
            · rw [if_neg has] at hx
              exact hm a x hx
        · exact hm
  · intro a x hx
    simp [JMap.empty, JMap.getD, JMap.get] at hx

/-- Ids of `U` not yet marked visited: the decreasing measure of the
stack walk. -/
def unvisitedCount (U : List String) (visited : JSet) : Nat :=
  (U.toFinset.filter (fun i => i ∉ visited)).card

theorem unvisitedCount_push (U : List String) (visited : JSet) (nb : String)
    (hU : nb ∈ U) (hnb : nb ∉ visited) :
    unvisitedCount U (visited ++ [nb]) + 1 = unvisitedCount U visited := by
  unfold unvisitedCount
  have hset : U.toFinset.filter (fun i => i ∉ visited ++ [nb])
      = (U.toFinset.filter (fun i => i ∉ visited)).erase nb := by
    ext x
    simp only [Finset.mem_filter, Finset.mem_erase, List.mem_append, List.mem_singleton]
    constructor
    · rintro ⟨hxU, hx⟩
      push_neg at hx
      exact ⟨hx.2, hxU, hx.1⟩
    · rintro ⟨hxnb, hxU, hx⟩
      refine ⟨hxU, ?_⟩
      push_neg
      exact ⟨hx, hxnb⟩
  have hmem : nb ∈ U.toFinset.filter (fun i => i ∉ visited) :=
    Finset.mem_filter.mpr ⟨List.mem_toFinset.mpr hU, hnb⟩
  have hpos : 0 < (U.toFinset.filter (fun i => i ∉ visited)).card :=
    Finset.card_pos.mpr ⟨nb, hmem⟩
  rw [hset, Finset.card_erase_of_mem hmem]
  omega

theorem unvisitedCount_le (U : List String) (visited : JSet) :
    unvisitedCount U visited ≤ U.length :=
  le_trans (Finset.card_le_card (Finset.filter_subset _ _)) (List.toFinset_card_le U)

theorem pushFold_run (blocked : String → Bool) (U : List String) :
    ∀ (nbs stack : List String) (visited : JSet),
      (∀ x ∈ nbs, x ∈ U) → (∀ x ∈ stack, x ∈ visited) →
      (∀ x ∈ stack, x ∈ (nbs.foldl (fun (sv : List String × JSet) nb =>
          if nb ∈ sv.2 ∨ blocked nb = true then sv else (nb :: sv.1, sv.2 ++ [nb]))
          (stack, visited)).1)
      ∧ (∀ x ∈ (nbs.foldl (fun (sv : List String × JSet) nb =>
          if nb ∈ sv.2 ∨ blocked nb = true then sv else (nb :: sv.1, sv.2 ++ [nb]))
          (stack, visited)).1,
          x ∈ (nbs.foldl (fun (sv : List String × JSet) nb =>
          if nb ∈ sv.2 ∨ blocked nb = true then sv else (nb :: sv.1, sv.2 ++ [nb]))
          (stack, visited)).2)
      ∧ (∀ y ∈ nbs, y ∈ (nbs.foldl (fun (sv : List String × JSet) nb =>
          if nb ∈ sv.2 ∨ blocked nb = true then sv else (nb :: sv.1, sv.2 ++ [nb]))
          (stack, visited)).2 ∨ blocked y = true)
      ∧ (∀ y ∈ (nbs.foldl (fun (sv : List String × JSet) nb =>
          if nb ∈ sv.2 ∨ blocked nb = true then sv else (nb :: sv.1, sv.2 ++ [nb]))
          (stack, visited)).2,
          y ∈ visited ∨ y ∈ (nbs.foldl (fun (sv : List String × JSet) nb =>
          if nb ∈ sv.2 ∨ blocked nb = true then sv else (nb :: sv.1, sv.2 ++ [nb]))
          (stack, visited)).1)
      ∧ (∀ y ∈ visited, y ∈ (nbs.foldl (fun (sv : List String × JSet) nb =>
          if nb ∈ sv.2 ∨ blocked nb = true then sv else (nb :: sv.1, sv.2 ++ [nb]))
          (stack, visited)).2)
      ∧ (nbs.foldl (fun (sv : List String × JSet) nb =>
          if nb ∈ sv.2 ∨ blocked nb = true then sv else (nb :: sv.1, sv.2 ++ [nb]))
          (stack, visited)).1.length
        + unvisitedCount U (nbs.foldl (fun (sv : List String × JSet) nb =>
          if nb ∈ sv.2 ∨ blocked nb = true then sv else (nb :: sv.1, sv.2 ++ [nb]))
          (stack, visited)).2
        ≤ stack.length + unvisitedCount U visited := by
  intro nbs
  induction nbs with
  | nil =>
    intro stack visited _ hsv
    exact ⟨fun x hx => hx, hsv, fun y hy => absurd hy (List.not_mem_nil y),
      fun y hy => Or.inl hy, fun y hy => hy, le_refl _⟩
  | cons nb nbs ih =>
    intro stack visited hUn hsv
    simp only [List.foldl_cons]
    by_cases hg : nb ∈ visited ∨ blocked nb = true
    · rw [if_pos hg]
      obtain ⟨c1, c2, c3, c4, c5, c6⟩ := ih stack visited
        (fun x hx => hUn x (List.mem_cons_of_mem nb hx)) hsv
      refine ⟨c1, c2, ?_, c4, c5, c6⟩
      intro y hy
      rcases List.mem_cons.mp hy with hy | hy
      · rcases hg with hg | hg
        · exact Or.inl (hy ▸ c5 nb hg)
        · exact Or.inr (hy ▸ hg)
      · exact c3 y hy
    · rw [if_neg hg]
      push_neg at hg
      obtain ⟨hnbv, hnbl⟩ := hg
      have hsv' : ∀ x ∈ nb :: stack, x ∈ visited ++ [nb] := by
        intro x hx
        rcases List.mem_cons.mp hx with hx | hx
        · exact List.mem_append.mpr (Or.inr (List.mem_singleton.mpr hx))
        · exact List.mem_append.mpr (Or.inl (hsv x hx))
      obtain ⟨c1, c2, c3, c4, c5, c6⟩ := ih (nb :: stack) (visited ++ [nb])
        (fun x hx => hUn x (List.mem_cons_of_mem nb hx)) hsv'
      refine ⟨?_, c2, ?_, ?_, ?_, ?_⟩
      · intro x hx
        exact c1 x (List.mem_cons_of_mem nb hx)
      · intro y hy
        rcases List.mem_cons.mp hy with hy | hy
        · exact Or.inl (c5 y (hy ▸ List.mem_append.mpr
            (Or.inr (List.mem_singleton.mpr rfl))))
        · exact c3 y hy
      · intro y hy
        rcases c4 y hy with h | h
        · rcases List.mem_append.mp h with h | h
          · exact Or.inl h
          · simp only [List.mem_singleton] at h
            exact Or.inr (h ▸ c1 nb (List.mem_cons_self nb stack))
        · exact Or.inr h
      · intro y hy
        exact c5 y (List.mem_append.mpr (Or.inl hy))
      · have hdec := unvisitedCount_push U visited nb (hUn nb (List.mem_cons_self nb nbs)) hnbv
        have := c6
        simp only [List.length_cons] at this
        omega

theorem dfsWalk_complete (neigh : String → List String) (blocked : String → Bool)
    (U : List String) (hU : ∀ v x, x ∈ neigh v → x ∈ U) :
    ∀ (fuel : Nat) (stack : List String) (visited : JSet) (acc : List String),
      (∀ x ∈ stack, x ∈ visited) →
      stack.length + unvisitedCount U visited ≤ fuel →
      (∀ x ∈ acc, x ∈ (dfsWalk neigh blocked fuel stack visited acc).1)
      ∧ (∀ x ∈ stack, x ∈ (dfsWalk neigh blocked fuel stack visited acc).1)
      ∧ (∀ x ∈ (dfsWalk neigh blocked fuel stack visited acc).1,
          x ∈ acc ∨ ∀ y ∈ neigh x, y ∈ (dfsWalk neigh blocked fuel stack visited acc).2
            ∨ blocked y = true)
      ∧ (∀ y ∈ (dfsWalk neigh blocked fuel stack visited acc).2,
          y ∈ visited ∨ y ∈ (dfsWalk neigh blocked fuel stack visited acc).1)
      ∧ (∀ y ∈ visited, y ∈ (dfsWalk neigh blocked fuel stack visited acc).2) := by
  intro fuel
  induction fuel with
  | zero =>
    intro stack visited acc hsv hfuel
    have hstack : stack = [] := List.length_eq_zero.mp (by omega)
    subst hstack
    exact ⟨fun x hx => hx, fun x hx => absurd hx (List.not_mem_nil x),
      fun x hx => Or.inl hx, fun y hy => Or.inl hy, fun y hy => hy⟩
  | succ fuel ih =>
    intro stack visited acc hsv hfuel
    cases stack with
    | nil =>
      exact ⟨fun x hx => hx, fun x hx => absurd hx (List.not_mem_nil x),
        fun x hx => Or.inl hx, fun y hy => Or.inl hy, fun y hy => hy⟩
    | cons cur rest =>
      rw [dfsWalk]
      obtain ⟨p1, p2, p3, p4, p5, p6⟩ := pushFold_run blocked U (neigh cur) rest visited
        (fun x hx => hU cur x hx) (fun x hx => hsv x (List.mem_cons_of_mem cur hx))
      set step := (neigh cur).foldl
        (fun (sv : List String × JSet) nb =>
          if nb ∈ sv.2 ∨ blocked nb = true then sv else (nb :: sv.1, sv.2 ++ [nb]))
        (rest, visited) with hstep
      obtain ⟨c1, c2, c3, c4, c5⟩ := ih step.1 step.2 (acc ++ [cur]) p2 (by
        simp only [List.length_cons] at hfuel
        omega)
      refine ⟨?_, ?_, ?_, ?_, ?_⟩
      · intro x hx
        exact c1 x (List.mem_append.mpr (Or.inl hx))
      · intro x hx
        rcases List.mem_cons.mp hx with hx | hx
        · exact c1 x (hx ▸ List.mem_append.mpr (Or.inr (List.mem_singleton.mpr rfl)))
        · exact c2 x (p1 x hx)
      · intro x hx
        rcases c3 x hx with h | h
        · rcases List.mem_append.mp h with h | h
          · exact Or.inl h
          · simp only [List.mem_singleton] at h
            subst h
            refine Or.inr ?_
            intro y hy
            rcases p3 y hy with h2 | h2
            · exact Or.inl (c5 y h2)
            · exact Or.inr h2
        · exact Or.inr h
      · intro y hy
        rcases c4 y hy with h | h
        · rcases p4 y h with h2 | h2
          · exact Or.inl h2
          · exact Or.inr (c2 y h2)
        · exact Or.inr h
      · intro y hy
        exact c5 y (p5 y hy)

theorem dfsAll_closed (neigh : String → List String) (U : List String)
    (hU : ∀ v x, x ∈ neigh v → x ∈ U)
    (hsym : ∀ x y, y ∈ neigh x → x ∈ neigh y)
    (fuel : Nat) (hfuel : U.length + 1 ≤ fuel) (order : List String) :
    ∀ C ∈ (dfsAll neigh fuel order).1, ∀ x ∈ C, ∀ y ∈ neigh x, y ∈ C := by
  unfold dfsAll
  have hmain := foldl_preserves
    (fun (st : List (List String) × JSet) v =>
      if v ∈ st.2 then st
      else
        let res := dfsWalk neigh (fun _ => false) fuel [v] (st.2 ++ [v]) []
        (st.1 ++ [res.1], res.2))
    (fun st : List (List String) × JSet =>
      (∀ C ∈ st.1, ∀ x ∈ C, ∀ y ∈ neigh x, y ∈ C)
      ∧ (∀ y ∈ st.2, ∃ C ∈ st.1, y ∈ C)
      ∧ (∀ C ∈ st.1, ∀ x ∈ C, x ∈ st.2))
    (by
      intro s v hs
      obtain ⟨hI1, hI2, hI3⟩ := hs
      dsimp only
      split
      · exact ⟨hI1, hI2, hI3⟩
      · next hvnew =>
        have hsv : ∀ x ∈ [v], x ∈ s.2 ++ [v] := by
          intro x hx
          simp only [List.mem_singleton] at hx
          exact List.mem_append.mpr (Or.inr (List.mem_singleton.mpr hx))
        have hfu : ([v] : List String).length + unvisitedCount U (s.2 ++ [v]) ≤ fuel := by
          have := unvisitedCount_le U (s.2 ++ [v])
          simp only [List.length_singleton]
          omega
        obtain ⟨w0, w1, w2, w3, w4⟩ :=
          dfsWalk_complete neigh (fun _ => false) U hU fuel [v] (s.2 ++ [v]) [] hsv hfu
        obtain ⟨r1, r2, r3, r4⟩ := dfsWalk_spec neigh (fun _ => false) fuel [v]
          (s.2 ++ [v]) [] (by simp) (by intro x hx; exact hsv x (by simpa using hx))
        have hva : v ∈ (dfsWalk neigh (fun _ => false) fuel [v] (s.2 ++ [v]) []).1 :=
          w1 v (List.mem_singleton.mpr rfl)
        refine ⟨?_, ?_, ?_⟩
        · intro C hC x hx y hy
          rcases List.mem_append.mp hC with hC | hC
          · exact hI1 C hC x hx y hy
          · simp only [List.mem_singleton] at hC
            subst hC
            have hclo := w2 x hx
            rcases hclo with hclo | hclo
            · exact absurd hclo (List.not_mem_nil x)
            · rcases hclo y hy with hyw | hyw
              · rcases w3 y hyw with hyv | hyv
                · rcases List.mem_append.mp hyv with hyv | hyv
                  · obtain ⟨Co, hCo, hyCo⟩ := hI2 y hyv
                    have hxCo : x ∈ Co := hI1 Co hCo y hyCo x (hsym x y hy)
                    have hxs2 : x ∈ s.2 := hI3 Co hCo x hxCo
                    have := r4 x hx (List.mem_append.mpr (Or.inl hxs2))
                    simp only [List.nil_append, List.mem_singleton] at this
                    exact absurd (this ▸ hxs2) hvnew
                  · simp only [List.mem_singleton] at hyv
                    exact hyv ▸ hva
                · exact hyv
              · exact absurd hyw (by simp)
        · intro y hy
          rcases w3 y hy with hyv | hyv
          · rcases List.mem_append.mp hyv with hyv | hyv
            · obtain ⟨C, hC, hyC⟩ := hI2 y hyv
              exact ⟨C, List.mem_append.mpr (Or.inl hC), hyC⟩
            · simp only [List.mem_singleton] at hyv
              exact ⟨_, List.mem_append.mpr (Or.inr (List.mem_singleton.mpr rfl)),
                hyv ▸ hva⟩
          · exact ⟨_, List.mem_append.mpr (Or.inr (List.mem_singleton.mpr rfl)), hyv⟩
        · intro C hC x hx
          rcases List.mem_append.mp hC with hC | hC
          · exact w4 x (List.mem_append.mpr (Or.inl (hI3 C hC x hx)))
          · simp only [List.mem_singleton] at hC
            exact r2 x (hC ▸ hx))
    order ([], []) ⟨by simp, by simp, by simp⟩
  exact hmain.1

/-- Every component of the force-align core partition is closed under
the core adjacency: the neighbour lists only mention node ids, the
adjacency is symmetric, and `dfsFuel` exceeds the node count, so each
walk runs to completion and collects a whole connected component. -/
theorem coreComponents_closed (g : Graph) :
    ∀ C ∈ coreComponents g, ∀ v ∈ C, ∀ x ∈ (coreAdjOf g).getD v [], x ∈ C := by
  unfold coreComponents
  exact dfsAll_closed (fun v => (coreAdjOf g).getD v []) (g.nodes.map Node.id)
    (fun v x hx => coreAdjOf_values g v x hx)
    (fun x y hy => coreAdjOf_symm g x y hy)
    (dfsFuel g)
    (by unfold dfsFuel; rw [List.length_map]; omega)
    ((coreNodesOf g).map (fun n => n.id))

/-- **C10.** The entity placement loop of `layoutComponent` terminates
for every input: an id is pushed only at the moment it first receives
a target (the push is guarded by `targets.has`), so each core node is
enqueued at most once, the loop dequeues at most `|component|`
entities, and fuel `|component|` is never exhausted (any extra fuel
changes nothing).  The closure hypothesis on the component's id list
holds for every component the force-align partition produces
(second conjunct), so the bound covers every actual per-component
call, multi-component graphs included. -/
theorem entityLoop_termination (T : JsMath) (nodeMap : JMap Node) (coreAdj : JMap JSet)
    (radii : JMap ℚ) (fuelDfs : Nat) (ids queue : List String) (targets : JMap Point)
    (sideHint : JMap Int) (extra : Nat) (g : Graph) (C : List String) (v x : String) :
    ((∀ u ∈ ids, ∀ y ∈ coreAdj.getD u [], y ∈ ids) →
      (∀ q ∈ queue, q ∈ ids ∧ targets.contains q = true) →
      queue.Nodup →
      (entityLoop T nodeMap coreAdj radii fuelDfs ids.length queue targets sideHint).2.2
          ≤ ids.length
        ∧ entityLoop T nodeMap coreAdj radii fuelDfs ids.length queue targets sideHint
          = entityLoop T nodeMap coreAdj radii fuelDfs (ids.length + extra) queue targets
              sideHint)
    ∧ (C ∈ coreComponents g → v ∈ C → x ∈ (coreAdjOf g).getD v [] → x ∈ C) := by
  constructor
  · intro hclosed hq hqnd
    have hbound : queue.length + unplacedCount ids targets ≤ ids.length := by
      have h1 : queue.toFinset ∪ ids.toFinset.filter (fun i => targets.contains i = false)
          ⊆ ids.toFinset := by
        intro y hy
        rcases Finset.mem_union.mp hy with hy | hy
        · exact List.mem_toFinset.mpr (hq y (List.mem_toFinset.mp hy)).1
        · exact (Finset.mem_filter.mp hy).1
      have hdisj : Disjoint queue.toFinset
          (ids.toFinset.filter (fun i => targets.contains i = false)) := by
        rw [Finset.disjoint_left]
        intro y hy hyf
        have hc := (hq y (List.mem_toFinset.mp hy)).2
        have hf := (Finset.mem_filter.mp hyf).2
        rw [hc] at hf
        exact Bool.noConfusion hf
      have hcard := Finset.card_le_card h1
      rw [Finset.card_union_of_disjoint hdisj, List.toFinset_card_of_nodup hqnd] at hcard
      have hlen := ids.toFinset_card_le
      unfold unplacedCount
      omega
    exact ⟨le_trans
        (entityLoop_dequeues T nodeMap coreAdj radii fuelDfs ids hclosed ids.length queue
          targets sideHint (fun q hqm => (hq q hqm).1)) hbound,
      entityLoop_fuel_stable T nodeMap coreAdj radii fuelDfs ids hclosed ids.length extra
        queue targets sideHint (fun q hqm => (hq q hqm).1) hbound⟩
  · intro hC hv hx
    exact coreComponents_closed g C hC v hv x hx

/-- **C10, witness.**  The loop bound applied to a singleton component
with an empty adjacency and an empty queue, and the closure conjunct
applied to the concrete component of the snapshot `gC1`. -/
theorem entityLoop_termination_witness :
    ([] : List String).Nodup
      ∧ (entityLoop T0 (JMap.empty : JMap Node) (JMap.empty : JMap JSet)
          (JMap.empty : JMap ℚ) 0 (["x"] : List String).length [] JMap.empty
          JMap.empty).2.2 ≤ (["x"] : List String).length
      ∧ ["e1", "r1"] ∈ coreComponents gC1
      ∧ "r1" ∈ (["e1", "r1"] : List String) :=
  ⟨List.nodup_nil,
    ((entityLoop_termination T0 JMap.empty JMap.empty JMap.empty 0 ["x"] [] JMap.empty
      JMap.empty 5 gC1 ["e1", "r1"] "e1" "r1").1
      (fun u _ y hy => absurd hy (List.not_mem_nil y))
      (fun q hq => absurd hq (List.not_mem_nil q))
      List.nodup_nil).1,
    by decide,
    (entityLoop_termination T0 JMap.empty JMap.empty JMap.empty 0 ["x"] [] JMap.empty
      JMap.empty 5 gC1 ["e1", "r1"] "e1" "r1").2
      (by decide) (by decide) (by decide)⟩
